import Mathlib

/-!
The rv-predict runtime: event rings, delta-PC encoding and the serializer flush.

A shallow embedding of `llvm/ngrt/ring.h`, `llvm/ngrt/trace.c` and
`llvm/ngrt/thread.c`.

Conventions of the embedding.

* A pointer into the items array of a ring is represented by its offset, in
  words, from `r_items`; so `r_items` itself is offset `0` and the model field
  `r_last` is the C quantity `r_last - r_items`.  The field `r_items` of the
  model holds the contents of the array.
* Event words are `uint32_t`, represented by natural numbers.
* C `int` values are integers.  A ring is one page of words, so every `int`
  that is computed from ring offsets is far below `2 ^ 31` and the conversions
  from `ptrdiff_t` are exact.  Where a conversion is not exact (the jump
  vector of `rvp_ring_put_pc_and_op`) it is written out with `% 2 ^ w`.
* A call that cannot complete in the given state is reported in the result:
  the producer waiting for the consumer, a division by zero, a failed
  assertion.
-/

namespace RvPredict

/-! ## Part 1: definitions -/

/-- One interruption record (`rvp_interruption_t`); the interruptor ring is
named by its thread id. -/
structure rvp_interruption_t where
  it_interruptor : Nat
  it_interrupted_idx : Int
  it_interruptor_sidx : Int
  it_interruptor_eidx : Int
deriving DecidableEq, Repr

/-- The interruptions ring (`rvp_iring_t`): producer and consumer are offsets
into `ir_items`, which has 8 slots. -/
structure rvp_iring_t where
  ir_producer : Int
  ir_consumer : Int
  ir_items : List rvp_interruption_t
deriving DecidableEq, Repr

/-- The event ring (`struct _rvp_ring`).  `r_next` is represented by the
position of the ring's thread in the registry list. -/
structure rvp_ring_t where
  r_producer : Int
  r_consumer : Int
  r_last : Int
  r_items : List Nat
  r_lastpc : Nat
  r_lgen : Nat
  r_tid : Nat
  r_idepth : Nat
  r_iring : rvp_iring_t
deriving DecidableEq, Repr

/-- The two ways a producer asks for service. -/
inductive rvp_call where
  | wake_transmitter
  | wake_relay
deriving DecidableEq, Repr

/-- Result of a producer-side call: it returns a value, or it is blocked in
`rvp_ring_await_nempty` (after the listed calls) until the consumer frees
slots, or it stops on a division by zero or a failed assertion. -/
inductive rvp_result (α : Type) where
  | done (a : α)
  | awaits (calls : List rvp_call)
  | fault
deriving DecidableEq, Repr

/-- Sequencing of producer-side calls. -/
def rvp_result.bind {α β : Type} (x : rvp_result α) (f : α → rvp_result β) :
    rvp_result β :=
  match x with
  | .done a => f a
  | .awaits cs => .awaits cs
  | .fault => .fault

/-- What `rvp_ring_put_multiple` leaves behind: the ring, the global
generation number `rvp_ggen`, and the wake-up calls it made. -/
structure rvp_put_t where
  ring : rvp_ring_t
  ggen : Nat
  calls : List rvp_call
deriving DecidableEq, Repr

/-- Model of `rvp_ring_nfull`. -/
def rvp_ring_nfull (r : rvp_ring_t) : Int :=
  let producer := r.r_producer
  let consumer := r.r_consumer
  if producer ≥ consumer then
    producer - consumer
  else
    (r.r_last - 0) + 1 - (consumer - producer)

/-- Model of `rvp_ring_capacity`. -/
def rvp_ring_capacity (r : rvp_ring_t) : Int :=
  r.r_last - 0

/-- Model of `rvp_ring_nempty`. -/
def rvp_ring_nempty (r : rvp_ring_t) : Int :=
  rvp_ring_capacity r - rvp_ring_nfull r

/-- Model of `rvp_ring_request_service`: the call it makes. -/
def rvp_ring_request_service (r : rvp_ring_t) : rvp_call :=
  if r.r_idepth = 0 then .wake_transmitter else .wake_relay

/-- Model of `memcpy(dst, src, n * sizeof(uint32_t))` with `dst` an offset into
the array `mem`: word `dst + i` receives `src i` for `0 ≤ i < n`. -/
def memcpy (mem : List Nat) (dst : Int) (src : Nat → Nat) (n : Int) : List Nat :=
  (List.range mem.length).map fun (i : Nat) =>
    if dst ≤ (i : Int) ∧ (i : Int) < dst + n then src ((i : Int) - dst).toNat
    else mem.getD i 0

/-- C comparison `a / d < b / d` on `int`s; `none` when `d` is zero. -/
def c_div_lt (a b d : Int) : Option Bool :=
  if d = 0 then none else some (decide (Int.tdiv a d < Int.tdiv b d))

/-- The ring after the copy and the release store of `rvp_ring_put_multiple`
(lines up to `atomic_store_explicit`), for a call that does not wait. -/
def rvp_ring_put_multiple_commit (r : rvp_ring_t) (item : Nat → Nat)
    (nitems : Int) : rvp_ring_t :=
  let prev := r.r_producer
  let next :=
    if prev + nitems ≤ r.r_last then prev + nitems
    else
      let ringsz := r.r_last + 1 - 0
      prev + (nitems - ringsz)
  let items :=
    if prev < next then memcpy r.r_items prev item nitems
    else
      let nfirst := r.r_last - prev + 1
      let nlast := next - 0
      memcpy (memcpy r.r_items prev item nfirst) 0
        (fun i => item (nfirst.toNat + i)) nlast
  { r with r_items := items, r_producer := next }

/-- Model of `rvp_ring_put_multiple`.  `log2_nthreads` and `ggen` are the
globals `rvp_log2_nthreads` and `rvp_ggen` (a `uint64_t`); `item i` is the
word `item[i]`. -/
def rvp_ring_put_multiple (log2_nthreads ggen : Nat) (r : rvp_ring_t)
    (item : Nat → Nat) (nitems : Int) : rvp_result rvp_put_t :=
  let prev := r.r_producer
  if rvp_ring_nempty r < nitems then
    .awaits [rvp_ring_request_service r]
  else
    let r1 := rvp_ring_put_multiple_commit r item nitems
    let next := r1.r_producer
    let nslots := rvp_ring_capacity r1 + 1
    let ggen_threshold := nslots >>> ((1 + log2_nthreads) % 2 ^ 32)
    let service_threshold := Int.tdiv nslots 2
    let nfull := rvp_ring_nfull r1
    let increase :=
      if nitems ≥ ggen_threshold then some true
      else c_div_lt (prev - 0) (next - 0) ggen_threshold
    match increase, c_div_lt (nfull - nitems) nfull service_threshold with
    | some inc, some svc =>
      .done
        { ring := r1
          ggen := if inc then (ggen + 1) % 2 ^ 64 else ggen
          calls := if svc then [rvp_ring_request_service r1] else [] }
    | _, _ => .fault

/-- The words `buf[0], ..., buf[n-1]` of a source buffer. -/
def words_of (item : Nat → Nat) (n : Nat) : List Nat :=
  (List.range n).map item

/-- The source buffer holding the words of a list (zero beyond its end). -/
def item_of (ws : List Nat) : Nat → Nat :=
  fun i => ws.getD i 0

/-- Producer and consumer of the ring point into the items array
(offsets `0 .. r_last`). -/
def ring_inside (r : rvp_ring_t) : Prop :=
  0 ≤ r.r_producer ∧ r.r_producer ≤ r.r_last ∧
  0 ≤ r.r_consumer ∧ r.r_consumer ≤ r.r_last

instance (r : rvp_ring_t) : Decidable (ring_inside r) :=
  inferInstanceAs (Decidable (_ ∧ _))

/-- The items array has `r_last + 1` words and both pointers of the ring point
into it. -/
def ring_ok (r : rvp_ring_t) : Prop :=
  (r.r_items.length : Int) = r.r_last + 1 ∧ ring_inside r

instance (r : rvp_ring_t) : Decidable (ring_ok r) :=
  inferInstanceAs (Decidable (_ ∧ _))

/-! ### Deltops and the trace format (`trace.c`)

`tracefmt.h` is not among the sources: the dimensions of the deltops table,
the size of its elements, its address and the opcode numbers are parameters
of the model. -/

/-- Parameters of the build: pointer width in bits (`8 * sizeof(uintptr_t)`),
the address of `deltops.matrix[0][0]`, `sizeof(deltop_t)`, the table
dimensions `RVP_NJMPS` and `RVP_NOPS`, and the opcodes used by `trace.c`. -/
structure rvp_config where
  ptr_bits : Nat
  deltops : Nat
  deltop_size : Nat
  RVP_NJMPS : Nat
  RVP_NOPS : Nat
  RVP_OP_BEGIN : Nat
  RVP_OP_SWITCH : Nat
  RVP_OP_END : Nat
  RVP_OP_FORK : Nat
  RVP_OP_JOIN : Nat
deriving DecidableEq, Repr

/-- The table is a non-empty object of the address space: its address is not
null, its elements have a size, and its last byte has an address below
`2 ^ ptr_bits`. -/
def config_ok (cfg : rvp_config) : Prop :=
  0 < cfg.deltops ∧ 0 < cfg.deltop_size ∧ 0 < cfg.RVP_NJMPS ∧ 0 < cfg.RVP_NOPS ∧
  cfg.deltops + cfg.RVP_NJMPS * cfg.RVP_NOPS * cfg.deltop_size ≤ 2 ^ cfg.ptr_bits

instance (cfg : rvp_config) : Decidable (config_ok cfg) :=
  inferInstanceAs (Decidable (_ ∧ _))

/-- The null pointer. -/
def NULL : Nat := 0

/-- Model of `rvp_vec_and_op_to_deltop`: the address of
`deltops.matrix[__arraycount(deltops.matrix) / 2 + jmpvec][op]`, computed in
pointer arithmetic of `ptr_bits` bits, or `NULL` when that address is outside
the table. -/
def rvp_vec_and_op_to_deltop (cfg : rvp_config) (jmpvec : Int) (op : Nat) : Nat :=
  let row : Int := (cfg.RVP_NJMPS / 2 : Nat) + jmpvec
  let deltop : Nat :=
    (((cfg.deltops : Int) +
      (row * cfg.RVP_NOPS + op) * cfg.deltop_size) % (2 ^ cfg.ptr_bits : Nat)).toNat
  let first : Nat := cfg.deltops
  let last : Nat :=
    cfg.deltops +
      ((cfg.RVP_NJMPS - 1) * cfg.RVP_NOPS + (cfg.RVP_NOPS - 1)) * cfg.deltop_size
  if deltop < first ∨ last < deltop then NULL else deltop

/-- The `uint32_t` words of a pointer-sized value as the union in
`rvp_ring_put_addr` lays them out (least significant word first, the layout
of a little-endian host). -/
def addr_words (cfg : rvp_config) (addr : Nat) : List Nat :=
  (List.range (cfg.ptr_bits / 32)).map fun (i : Nat) => addr / 2 ^ (32 * i) % 2 ^ 32

/-- A thread record (`struct _rvp_thread`); `t_next` is the rest of the
registry list, `t_arg` and `t_routine` play no part here. -/
structure rvp_thread_t where
  t_pthread : Nat
  t_id : Nat
  t_ring : rvp_ring_t
deriving DecidableEq, Repr

/-- What an `iov_base` points to: the local `threadswitch`, or a word of the
items array. -/
inductive iov_base_t where
  | threadswitch
  | items (offset : Int)
deriving DecidableEq, Repr

/-- Model of `struct iovec`; `iov_len` is in bytes. -/
structure iovec where
  iov_base : iov_base_t
  iov_len : Int
deriving DecidableEq, Repr

/-- Size in bytes of the packed `threadswitch_t`: a `uintptr_t` and a
`uint32_t`. -/
def sizeof_threadswitch (cfg : rvp_config) : Int :=
  (cfg.ptr_bits / 8 : Nat) + 4

/-- Sum of the `iov_len` fields, as the loop after `writev` subtracts them. -/
def iov_total (iov : List iovec) : Int :=
  iov.foldr (fun v acc => acc + v.iov_len) 0

/-- What `rvp_thread_flush_to_fd` does: its return value (`none` when
`assert(nwritten == 0)` fails), the iovecs it hands to `writev`, and the thread
afterwards. -/
structure rvp_flush_t where
  ret : Option Bool
  iov : List iovec
  thread : rvp_thread_t
deriving DecidableEq, Repr

/-- Model of `rvp_thread_flush_to_fd`; `writev` gives the return value of the
system call for the iovecs it is handed. -/
def rvp_thread_flush_to_fd (cfg : rvp_config) (t : rvp_thread_t)
    (trace_switch : Bool) (writev : List iovec → Int) : rvp_flush_t :=
  let r := t.t_ring
  let producer := r.r_producer
  let consumer := r.r_consumer
  if consumer = producer then
    { ret := some false, iov := [], thread := t }
  else
    let iov0 : List iovec :=
      if trace_switch then [{ iov_base := .threadswitch, iov_len := sizeof_threadswitch cfg }] else []
    let iov1 : List iovec :=
      if consumer < producer then
        [{ iov_base := .items consumer, iov_len := (producer - consumer) * 4 }]
      else
        [{ iov_base := .items consumer, iov_len := (r.r_last + 1 - consumer) * 4 },
         { iov_base := .items 0, iov_len := (producer - 0) * 4 }]
    let iov := iov0 ++ iov1
    let nwritten := writev iov - iov_total iov
    if nwritten = 0 then
      { ret := some true, iov := iov,
        thread := { t with t_ring := { r with r_consumer := producer } } }
    else
      { ret := none, iov := iov, thread := t }

/-- The words that `writev` reads through one iovec when it is handed over by
`rvp_thread_flush_to_fd` on thread `t`: the local `threadswitch` (the deltop
for `(0, RVP_OP_SWITCH)` and the thread id), or words of the items array. -/
def iov_words (cfg : rvp_config) (t : rvp_thread_t) (v : iovec) : List Nat :=
  match v.iov_base with
  | .threadswitch =>
    (addr_words cfg (rvp_vec_and_op_to_deltop cfg 0 cfg.RVP_OP_SWITCH) ++ [t.t_id]).take
      (v.iov_len / 4).toNat
  | .items offset =>
    (List.range (v.iov_len / 4).toNat).map fun (k : Nat) =>
      t.t_ring.r_items.getD (offset.toNat + k) 0

/-- The word stream that a list of iovecs denotes. -/
def iovs_words (cfg : rvp_config) (t : rvp_thread_t) (iov : List iovec) : List Nat :=
  (iov.map (iov_words cfg t)).flatten

/-- The system call `writev` when it writes everything, returning the number
of bytes. -/
def writev_all (iov : List iovec) : Int :=
  iov_total iov

/-- The unread words of a ring, oldest first: the slots from the consumer up
to the producer, cyclically. -/
def ring_unread (r : rvp_ring_t) : List Nat :=
  (List.range (rvp_ring_nfull r).toNat).map fun (k : Nat) =>
    r.r_items.getD ((r.r_consumer + k) % (r.r_last + 1)).toNat 0

/-- The staging buffer (`rvp_buf_t` of `buf.h`, which is not among the
sources): the array `b_word`, of which the first `b_nwords` words are in
use. -/
structure rvp_buf_t where
  b_nwords : Nat
  b_word : List Nat
deriving DecidableEq, Repr

/-- Model of `rvp_ring_put_buf`.  Words read beyond the end of `b_word` are
taken to be zero. -/
def rvp_ring_put_buf (log2_nthreads ggen : Nat) (r : rvp_ring_t) (b : rvp_buf_t) :
    rvp_result rvp_put_t :=
  rvp_ring_put_multiple log2_nthreads ggen r (fun i => b.b_word.getD i 0) b.b_nwords

/-- A sequence of calls of `rvp_ring_put_multiple` by the producer, one for
each chunk `(item, n)`, in order. -/
def rvp_ring_put_chunks (log2_nthreads : Nat) :
    Nat → rvp_ring_t → List ((Nat → Nat) × Nat) → rvp_result rvp_put_t
  | ggen, r, [] => .done { ring := r, ggen := ggen, calls := [] }
  | ggen, r, (item, n) :: rest =>
    (rvp_ring_put_multiple log2_nthreads ggen r item n).bind fun res =>
      (rvp_ring_put_chunks log2_nthreads res.ggen res.ring rest).bind fun res2 =>
        .done { res2 with calls := res.calls ++ res2.calls }

/-- An interruptions ring with nothing queued. -/
def iring_idle : rvp_iring_t :=
  { ir_producer := 0, ir_consumer := 0,
    ir_items := List.replicate 8
      { it_interruptor := 0, it_interrupted_idx := 0, it_interruptor_sidx := 0,
        it_interruptor_eidx := 0 } }

/-- A ring over the given array contents with the producer and consumer at
the given offsets, for thread `tid`, outside any signal handler. -/
def ring_at (items : List Nat) (producer consumer : Int) (tid : Nat) : rvp_ring_t :=
  { r_producer := producer, r_consumer := consumer,
    r_last := (items.length : Int) - 1, r_items := items,
    r_lastpc := 0, r_lgen := 0, r_tid := tid, r_idepth := 0, r_iring := iring_idle }

/-- The thread record with id `tid` that owns the given ring. -/
def thread_at (tid : Nat) (r : rvp_ring_t) : rvp_thread_t :=
  { t_pthread := tid, t_id := tid, t_ring := r }

/-- A 32-bit build with a deltops table of 256 rows and 32 opcodes of one byte
each at address `0x1000`. -/
def config32 : rvp_config :=
  { ptr_bits := 32, deltops := 0x1000, deltop_size := 1, RVP_NJMPS := 256,
    RVP_NOPS := 32, RVP_OP_BEGIN := 0, RVP_OP_SWITCH := 3, RVP_OP_END := 1,
    RVP_OP_FORK := 4, RVP_OP_JOIN := 5 }

/-- A 64-bit build with the same table. -/
def config64 : rvp_config :=
  { config32 with ptr_bits := 64 }

/-- Two chunks, of two words and of one word. -/
def chunks_2_1 : List ((Nat → Nat) × Nat) :=
  [(fun i => 100 + i, 2), (fun i => 200 + i, 1)]

/-- Modelled from the spec: the consumer's decoding of a pointer-sized word,
which is not among the sources.  A word inside the table is a deltop and
decodes, by subtracting the table base, to row `offset / RVP_NOPS -
RVP_NJMPS / 2` (the jump vector) and column `offset mod RVP_NOPS` (the
opcode); a word outside the table is not a deltop. -/
def rvp_deltop_to_vec_and_op (cfg : rvp_config) (word : Nat) : Option (Int × Nat) :=
  if cfg.deltops ≤ word ∧
      word < cfg.deltops + cfg.RVP_NJMPS * cfg.RVP_NOPS * cfg.deltop_size then
    let offset := (word - cfg.deltops) / cfg.deltop_size
    some (((offset / cfg.RVP_NOPS : Nat) : Int) - (cfg.RVP_NJMPS / 2 : Nat),
      offset % cfg.RVP_NOPS)
  else none

/-- Modelled from the spec: `rvp_ring_put(r, item)`, which `trace.c` calls and
which is not among the sources, is one commit of one word: the producer waits
(asking for service) while the ring has no empty slot, then stores the word in
the producer's slot and release-stores the producer advanced by one slot,
cyclically, as a call of `rvp_ring_put_multiple` with one word does. -/
def rvp_ring_put (r : rvp_ring_t) (item : Nat) : rvp_result rvp_ring_t :=
  if rvp_ring_nempty r < 1 then .awaits [rvp_ring_request_service r]
  else .done (rvp_ring_put_multiple_commit r (fun _ => item) 1)

/-- Successive calls of `rvp_ring_put`, one for each word, in order. -/
def rvp_ring_put_words (r : rvp_ring_t) : List Nat → rvp_result rvp_ring_t
  | [] => .done r
  | w :: ws => (rvp_ring_put r w).bind fun r1 => rvp_ring_put_words r1 ws

/-- Model of `rvp_ring_put_addr`: one `rvp_ring_put` for each `uint32_t` of
the pointer-sized value. -/
def rvp_ring_put_addr (cfg : rvp_config) (r : rvp_ring_t) (addr : Nat) :
    rvp_result rvp_ring_t :=
  rvp_ring_put_words r (addr_words cfg addr)

/-- Conversion of an integer to a signed C integer type of `w` bits (two's
complement wrap-around). -/
def c_signed (w : Nat) (x : Int) : Int :=
  (x + 2 ^ (w - 1)) % 2 ^ w - 2 ^ (w - 1)

/-- The `int jmpvec = pc - r->r_lastpc` of `rvp_ring_put_pc_and_op`: the
pointer difference, a `ptrdiff_t` of `ptr_bits` bits, converted to `int`. -/
def rvp_jmpvec (cfg : rvp_config) (pc lastpc : Nat) : Int :=
  c_signed 32 (c_signed cfg.ptr_bits ((pc : Int) - (lastpc : Int)))

/-- Model of `rvp_ring_put_pc_and_op`. -/
def rvp_ring_put_pc_and_op (cfg : rvp_config) (r : rvp_ring_t) (pc : Nat) (op : Nat) :
    rvp_result rvp_ring_t :=
  let jmpvec := rvp_jmpvec cfg pc r.r_lastpc
  let deltop := rvp_vec_and_op_to_deltop cfg jmpvec op
  let r1 := { r with r_lastpc := pc }
  if deltop = NULL then
    (rvp_ring_put_addr cfg r1 pc).bind fun r2 =>
      let deltop2 := rvp_vec_and_op_to_deltop cfg 0 op
      if deltop2 = NULL then .fault
      else rvp_ring_put_addr cfg r2 deltop2
  else
    rvp_ring_put_addr cfg r1 deltop

/-- Model of `rvp_ring_put_begin`; `ra` is `__builtin_return_address(1)`. -/
def rvp_ring_put_begin (cfg : rvp_config) (r : rvp_ring_t) (id : Nat) (ra : Nat) :
    rvp_result rvp_ring_t :=
  let r1 := { r with r_lastpc := ra }
  (rvp_ring_put_addr cfg r1 (rvp_vec_and_op_to_deltop cfg 0 cfg.RVP_OP_BEGIN)).bind fun r2 =>
    (rvp_ring_put r2 id).bind fun r3 =>
      rvp_ring_put_addr cfg r3 r3.r_lastpc

/-- The pointer-sized value whose `uint32_t` words, least significant first,
are `ws`. -/
def ptr_of_words (ws : List Nat) : Nat :=
  ws.foldr (fun w acc => w + 2 ^ 32 * acc) 0

/-- Groups a stream of `uint32_t` words into pointer-sized values of `k`
words each; `fuel` bounds the number of values. -/
def ptr_stream (k : Nat) : Nat → List Nat → List Nat
  | 0, _ => []
  | _ + 1, [] => []
  | fuel + 1, w :: ws => ptr_of_words ((w :: ws).take k) :: ptr_stream k fuel ((w :: ws).drop k)

/-- Modelled from the spec: the consumer's replay of a stream of pointer-sized
words (§4.1), which is not among the sources.  A word inside the deltops table
adds its jump vector to the previous PC and yields an event at that PC; a word
outside the table is a literal PC that becomes the previous PC for the deltop
that follows it.  The result lists the PC and opcode of each event. -/
def rvp_replay (cfg : rvp_config) : Nat → List Nat → List (Nat × Nat)
  | _, [] => []
  | lastpc, w :: ws =>
    match rvp_deltop_to_vec_and_op cfg w with
    | some (jmpvec, op) =>
      let pc := (((lastpc : Int) + jmpvec) % (2 ^ cfg.ptr_bits : Nat)).toNat
      (pc, op) :: rvp_replay cfg pc ws
    | none => rvp_replay cfg w ws

/-- A ring of the given number of zeroed slots, empty, whose last traced PC is
`lastpc`. -/
def ring_idle (nslots : Nat) (lastpc : Nat) : rvp_ring_t :=
  { ring_at (List.replicate nslots 0) 0 0 1 with r_lastpc := lastpc }

/-- The words that `rvp_ring_put_begin` commits, one `rvp_ring_put` each: the
deltop for `(0, RVP_OP_BEGIN)`, the thread id, and the anchoring PC. -/
def rvp_begin_words (cfg : rvp_config) (id : Nat) (ra : Nat) : List Nat :=
  addr_words cfg (rvp_vec_and_op_to_deltop cfg 0 cfg.RVP_OP_BEGIN) ++ [id] ++ addr_words cfg ra

/-- A step of a schedule of one producer and the serializer: the producer's
next commit, or a flush of the producer's ring by the serializer. -/
inductive rvp_sched where
  | commit
  | flush
deriving DecidableEq, Repr

/-- Runs a schedule.  The producer has the words `pending` left to commit, one
`rvp_ring_put` each (a commit that has to wait leaves the state as it is); a
flush is `rvp_thread_flush_to_fd` without a switch marker, `writev` writing
everything.  The result lists, for each flush that wrote something, the chunk
of words it wrote. -/
def rvp_run_schedule (cfg : rvp_config) :
    rvp_thread_t → List Nat → List rvp_sched → List (List Nat)
  | _, _, [] => []
  | t, [], .commit :: rest => rvp_run_schedule cfg t [] rest
  | t, w :: ws, .commit :: rest =>
    match rvp_ring_put t.t_ring w with
    | .done r => rvp_run_schedule cfg { t with t_ring := r } ws rest
    | _ => rvp_run_schedule cfg t (w :: ws) rest
  | t, pending, .flush :: rest =>
    let f := rvp_thread_flush_to_fd cfg t false writev_all
    (if f.ret = some true then [iovs_words cfg t f.iov] else []) ++
      rvp_run_schedule cfg f.thread pending rest

/-- Whether a chunk of words is a whole number of consecutive events of a
stream, each event being given by its words. -/
def whole_events (events : List (List Nat)) (chunk : List Nat) : Bool :=
  (List.range (events.length + 1)).any fun k =>
    (List.range (events.length + 1)).any fun j =>
      decide (chunk = ((events.drop k).take j).flatten)

/-- Model of `rvp_buf_trace_cog`: the buffer and `*lgenp` afterwards.
`rvp_buf_put_cog` belongs to `buf.h`, which is not among the sources, and is a
parameter. -/
def rvp_buf_trace_cog {β : Type} (rvp_buf_put_cog : β → Nat → β) (b : β) (lgen gen : Nat) :
    β × Nat :=
  if lgen < gen then (rvp_buf_put_cog b gen, gen) else (b, lgen)

/-- Modelled from the spec: `rvp_buf_put_cog` emits a COG event carrying the
generation.  The buffer is represented by the generations of the COG events
put into it, in order. -/
def cog_record (b : List Nat) (gen : Nat) : List Nat :=
  b ++ [gen]

/-- Successive calls of `rvp_buf_trace_cog` on the same buffer and the same
`lgen`, one for each generation value, in order. -/
def rvp_buf_trace_cogs (b : List Nat) (lgen : Nat) : List Nat → List Nat × Nat
  | [] => (b, lgen)
  | gen :: gens =>
    rvp_buf_trace_cogs (rvp_buf_trace_cog cog_record b lgen gen).1
      (rvp_buf_trace_cog cog_record b lgen gen).2 gens

/-! ### The global generation number (`ring.h`)

The functions below take the value of the global `rvp_ggen` and give back its
value afterwards, next to what they return. -/

/-- Model of `rvp_increase_ggen`: the value of `rvp_ggen` after the
`atomic_fetch_add_explicit` of 1 on the `uint64_t`. -/
def rvp_increase_ggen (rvp_ggen : Nat) : Nat :=
  (rvp_ggen + 1) % 2 ^ 64

/-- Model of `rvp_ggen_before_store`: the value loaded, and `rvp_ggen`
afterwards. -/
def rvp_ggen_before_store (rvp_ggen : Nat) : Nat × Nat :=
  (rvp_ggen, rvp_ggen)

/-- Model of `rvp_ggen_after_load`: the value loaded after the fence, and
`rvp_ggen` afterwards. -/
def rvp_ggen_after_load (rvp_ggen : Nat) : Nat × Nat :=
  (rvp_ggen, rvp_ggen)

/-- Model of `rvp_buf_trace_load_cog`, which passes the generation read by
`rvp_ggen_after_load` to `rvp_buf_trace_cog`: the buffer and `*lgenp`
afterwards, and `rvp_ggen` afterwards. -/
def rvp_buf_trace_load_cog {β : Type} (rvp_buf_put_cog : β → Nat → β) (b : β) (lgen : Nat)
    (rvp_ggen : Nat) : (β × Nat) × Nat :=
  (rvp_buf_trace_cog rvp_buf_put_cog b lgen (rvp_ggen_after_load rvp_ggen).1,
    (rvp_ggen_after_load rvp_ggen).2)

/-! ### The interruptions ring (`ring.h`) -/

/-- Model of `rvp_iring_nfull`; `__arraycount(ir->ir_items)` is 8. -/
def rvp_iring_nfull (ir : rvp_iring_t) : Int :=
  let producer := ir.ir_producer
  let consumer := ir.ir_consumer
  if producer ≥ consumer then
    producer - consumer
  else
    8 - (consumer - producer)

/-- Model of `rvp_iring_capacity`. -/
def rvp_iring_capacity (_ir : rvp_iring_t) : Int :=
  8 - 1

/-- Model of `rvp_iring_nempty`. -/
def rvp_iring_nempty (ir : rvp_iring_t) : Int :=
  rvp_iring_capacity ir - rvp_iring_nfull ir

/-- Producer and consumer of the interruptions ring are slot indices
`0 .. 7`. -/
def iring_inside (ir : rvp_iring_t) : Prop :=
  0 ≤ ir.ir_producer ∧ ir.ir_producer ≤ 7 ∧ 0 ≤ ir.ir_consumer ∧ ir.ir_consumer ≤ 7

instance (ir : rvp_iring_t) : Decidable (iring_inside ir) :=
  inferInstanceAs (Decidable (_ ∧ _))

/-- Model of `rvp_iring_last`: the last slot of `ir_items`, as an offset. -/
def rvp_iring_last (_ir : rvp_iring_t) : Int :=
  8 - 1

/-- Model of `rvp_ring_next_interruption`: the slot after `prev`, or `NULL`
(`none`) when that slot is the producer. -/
def rvp_ring_next_interruption (r : rvp_ring_t) (prev : Int) : Option Int :=
  let ir := r.r_iring
  let producer := ir.ir_producer
  let next := if prev = rvp_iring_last ir then 0 else prev + 1
  if next = producer then none else some next

/-- Model of `rvp_ring_first_interruption`: the consumer slot, or `NULL`
(`none`) when consumer and producer coincide. -/
def rvp_ring_first_interruption (r : rvp_ring_t) : Option Int :=
  let ir := r.r_iring
  let consumer := ir.ir_consumer
  let producer := ir.ir_producer
  if consumer = producer then none else some consumer

/-- Model of `rvp_ring_drop_interruption`; the failed assertion is a
fault. -/
def rvp_ring_drop_interruption (r : rvp_ring_t) : rvp_result rvp_ring_t :=
  let ir := r.r_iring
  let prev := ir.ir_consumer
  let next := if prev = rvp_iring_last ir then 0 else prev + 1
  if prev = ir.ir_producer then .fault
  else .done { r with r_iring := { ir with ir_consumer := next } }

/-- The slots a consumer visits in the loop
`for (it = rvp_ring_first_interruption(r); it != NULL;
it = rvp_ring_next_interruption(r, it))`, for at most `fuel` iterations,
starting from the pointer `it`. -/
def rvp_iring_visit (r : rvp_ring_t) : Nat → Option Int → List Int
  | 0, _ => []
  | _ + 1, none => []
  | fuel + 1, some it => it :: rvp_iring_visit r fuel (rvp_ring_next_interruption r it)

/-- Model of `rvp_iring_wait_for_one_empty` without a concurrent consumer:
the loop ends at once when a slot of the interruptions ring is empty and
spins otherwise; the loop makes no calls. -/
def rvp_iring_wait_for_one_empty (r : rvp_ring_t) : rvp_result (List rvp_call) :=
  if rvp_iring_nempty r.r_iring < 1 then .awaits [] else .done []

/-- Model of `rvp_iring_await_one_empty`: the service request, then the wait;
the value is the list of wake-up calls made. -/
def rvp_iring_await_one_empty (r : rvp_ring_t) : rvp_result (List rvp_call) :=
  let call := rvp_ring_request_service r
  match rvp_iring_wait_for_one_empty r with
  | .done cs => .done (call :: cs)
  | .awaits cs => .awaits (call :: cs)
  | .fault => .fault

/-- An idle event ring whose interruptions ring holds four records: the
producer is on slot 2 and the consumer on slot 6. -/
def ring_interrupted : rvp_ring_t :=
  { ring_idle 8 0 with r_iring := { iring_idle with ir_producer := 2, ir_consumer := 6 } }

/-- A ring of four slots at interruption depth 1, with one unread word. -/
def ring_in_signal : rvp_ring_t :=
  { ring_at [10, 20, 30, 40] 1 0 1 with r_idepth := 1 }

/-! ### The thread registry and process initialisation (`thread.c`)

A pointer to a thread record is represented by its address, a natural number;
`NULL` is 0.  The intrusive list headed by `thread_head` is represented by the
list of its records in link order, each with its address: `t_next` of a record
is the element that follows it.  `thread_lock` and `thread_unlock` are taken to
succeed. -/

/-- The registry: the list headed by `thread_head`, and `next_id` (a
`uint32_t`). -/
structure rvp_registry where
  thread_head : List (Nat × rvp_thread_t)
  next_id : Nat
deriving DecidableEq, Repr

/-- The value of `ENOENT` in `errno.h`. -/
def ENOENT : Int := 2

/-- What `rvp_thread_attach` does: the registry and the record `*t`
afterwards, and the return value (`none` when it leaves through
`errx(EXIT_FAILURE, ...)`). -/
structure rvp_attach_t where
  registry : rvp_registry
  thread : rvp_thread_t
  rc : Option Int
deriving DecidableEq, Repr

/-- Model of `rvp_thread_attach(t)`, `p` being the address `t`. -/
def rvp_thread_attach (s : rvp_registry) (p : Nat) (t : rvp_thread_t) : rvp_attach_t :=
  let next_id := (s.next_id + 1) % 2 ^ 32
  let t1 := { t with t_id := next_id }
  if next_id = 0 then
    { registry := { s with next_id := next_id }, thread := t1, rc := none }
  else
    { registry := { thread_head := (p, t1) :: s.thread_head, next_id := next_id },
      thread := t1, rc := some 0 }

/-- The loop and the splice of `rvp_thread_detach`: the list without the first
record whose address is `tgt`, and the return code. -/
def rvp_thread_detach_walk (tgt : Nat) :
    List (Nat × rvp_thread_t) → List (Nat × rvp_thread_t) × Int
  | [] => ([], ENOENT)
  | x :: rest =>
    if x.1 = tgt then (rest, 0)
    else (x :: (rvp_thread_detach_walk tgt rest).1, (rvp_thread_detach_walk tgt rest).2)

/-- Model of `rvp_thread_detach(tgt)`: the registry afterwards and the return
code. -/
def rvp_thread_detach (s : rvp_registry) (tgt : Nat) : rvp_registry × Int :=
  ({ s with thread_head := (rvp_thread_detach_walk tgt s.thread_head).1 },
    (rvp_thread_detach_walk tgt s.thread_head).2)

/-- A call on the registry: `rvp_thread_attach` of the record at address `p`,
or `rvp_thread_detach` of the record at address `tgt`. -/
inductive rvp_registry_op where
  | attach (p : Nat) (t : rvp_thread_t)
  | detach (tgt : Nat)
deriving DecidableEq, Repr

/-- What a sequence of calls on the registry leaves: the registry, the thread
ids assigned by the calls of `rvp_thread_attach` that returned, in call order,
and whether the process has left through `errx`. -/
structure rvp_registry_run_t where
  registry : rvp_registry
  tids : List Nat
  exited : Bool
deriving DecidableEq, Repr

/-- Runs a sequence of calls on the registry; nothing runs after an `errx`. -/
def rvp_registry_run : rvp_registry → List rvp_registry_op → rvp_registry_run_t
  | s, [] => { registry := s, tids := [], exited := false }
  | s, .attach p t :: ops =>
    match (rvp_thread_attach s p t).rc with
    | none => { registry := (rvp_thread_attach s p t).registry, tids := [], exited := true }
    | some _ =>
      { rvp_registry_run (rvp_thread_attach s p t).registry ops with
        tids := (rvp_thread_attach s p t).thread.t_id ::
          (rvp_registry_run (rvp_thread_attach s p t).registry ops).tids }
  | s, .detach tgt :: ops => rvp_registry_run (rvp_thread_detach s tgt).1 ops

/-- The number of calls of `rvp_thread_attach` in a sequence of calls. -/
def attach_count : List rvp_registry_op → Nat
  | [] => 0
  | .attach _ _ :: ops => attach_count ops + 1
  | .detach _ :: ops => attach_count ops

/-- The registry when the process starts: `thread_head = NULL`,
`next_id = 0`. -/
def rvp_registry_boot : rvp_registry :=
  { thread_head := [], next_id := 0 }

/-- The results of the system and library calls that `rvp_init` makes, and the
return address that `rvp_ring_put_begin` reads.  `calloc_thread` is the
address of the thread record (`NULL` when the allocation fails); `write` gives,
for a request of `n` bytes, what `write(2)` returns: `-1` or a count between 0
and `n`. -/
structure rvp_env where
  sysconf_pagesize : Int
  rc_key_create : Int
  rc_mutex_init : Int
  rc_cond_init : Int
  rc_setspecific : Int
  rc_pthread_create : Int
  calloc_items : Bool
  calloc_thread : Nat
  pthread_self : Nat
  open_fd : Int
  write : Int → Int
  writev : List iovec → Int
  return_address : Nat

/-- The fixed header of the trace file (`rvp_trace_header_t`); the magic is
given by its characters. -/
structure rvp_trace_header_t where
  th_magic : List Char
  th_version : Nat
  th_byteorder : Nat
  th_pointer_width : Nat
  th_data_width : Nat
deriving DecidableEq, Repr

/-- The initialiser of `header` in `trace.c`. -/
def header (cfg : rvp_config) : rvp_trace_header_t :=
  { th_magic := ['R', 'V', 'P', '_']
    th_version := 0
    th_byteorder := 0x30 ||| (0x31 <<< 8) ||| (0x32 <<< 16) ||| (0x33 <<< 24)
    th_pointer_width := cfg.ptr_bits / 8
    th_data_width := 4 }

/-- Modelled from the spec: `sizeof(header)`, the declaration of
`rvp_trace_header_t` (in `tracefmt.h`) not being among the sources; the layout
table of the trace file gives five fields of 4 bytes. -/
def sizeof_header : Int := 20

/-- What one call that writes to the trace file has written: the header, or
the words that the iovecs of a `writev` denote. -/
inductive rvp_written where
  | header (h : rvp_trace_header_t)
  | words (ws : List Nat)
deriving DecidableEq, Repr

/-- The loop of `writeall`: `nleft` bytes are left and `nwritten` is what the
last `write` returned.  `none` when the loop has not ended after `fuel`
iterations. -/
def writeall_loop (write : Int → Int) : Nat → Int → Int → Option Int
  | 0, _, _ => none
  | fuel + 1, nleft, nwritten =>
    if nleft = 0 then some nwritten
    else if write nleft = -1 then some (-1)
    else writeall_loop write fuel (nleft - write nleft) (write nleft)

/-- Model of `writeall`: its return value, or `none` when it does not return
(a `write` that returns 0 is retried for ever).  A `write` that returns a
count of at least 1 each time ends the loop within `nbytes` iterations. -/
def writeall (write : Int → Int) (nbytes : Int) : Option Int :=
  writeall_loop write (nbytes.toNat + 1) nbytes 0

/-- Model of `rvp_trace_open`: the descriptor it returns (`-1` on failure) and
the contents of the trace file; `none` when it does not return. -/
def rvp_trace_open (cfg : rvp_config) (env : rvp_env) :
    Option (Int × List rvp_written) :=
  let fd := env.open_fd
  if fd = -1 then some (-1, [])
  else
    match writeall env.write sizeof_header with
    | none => none
    | some w => if w = -1 then some (-1, []) else some (fd, [.header (header cfg)])

/-- Modelled from the spec: `rvp_ring_init(r, items, nitems)`, which is not
among the sources, installs the backing array of `nitems` words in the zeroed
record, with producer = consumer = items. -/
def rvp_ring_init (items : List Nat) (nitems : Int) : rvp_ring_t :=
  { r_producer := 0, r_consumer := 0, r_last := nitems - 1, r_items := items,
    r_lastpc := 0, r_lgen := 0, r_tid := 0, r_idepth := 0, r_iring := iring_idle }

/-- The state of the process that `thread.c` keeps: the static `pgsz`, the
registry, `serializer_fd`, what has been written to the trace file, the value
of `rvp_thread_key` for the calling thread, and whether the serializer thread
has been created. -/
structure rvp_process where
  pgsz : Int
  registry : rvp_registry
  serializer_fd : Int
  file : List rvp_written
  curthr : Nat
  serializer_created : Bool
deriving DecidableEq, Repr

/-- The process before `rvp_init`. -/
def rvp_process_boot : rvp_process :=
  { pgsz := 0, registry := rvp_registry_boot, serializer_fd := 0, file := [], curthr := 0,
    serializer_created := false }

/-- Model of `rvp_thread_create(routine, arg)`: the pointer it returns (`NULL`
when an allocation fails) and the process afterwards; `none` when
`rvp_thread_attach` leaves through `errx`. -/
def rvp_thread_create (env : rvp_env) (s : rvp_process) : Option (Nat × rvp_process) :=
  let items_per_pg := s.pgsz / 4
  if env.calloc_items = false then some (NULL, s)
  else if env.calloc_thread = NULL then some (NULL, s)
  else
    let items := List.replicate items_per_pg.toNat 0
    let t : rvp_thread_t :=
      { t_pthread := 0, t_id := 0, t_ring := rvp_ring_init items items_per_pg }
    let a := rvp_thread_attach s.registry env.calloc_thread t
    match a.rc with
    | none => none
    | some _ => some (env.calloc_thread, { s with registry := a.registry })

/-- Model of `rvp_thread0_create`; `none` when it leaves through `err`, when
an assertion fails, or when `rvp_ring_put_begin` does not return. -/
def rvp_thread0_create (cfg : rvp_config) (env : rvp_env) (s : rvp_process) :
    Option rvp_process :=
  match rvp_thread_create env s with
  | none => none
  | some (p, s1) =>
    if p = NULL then none
    else if env.rc_setspecific ≠ 0 then none
    else
      match s1.registry.thread_head with
      | [] => none
      | (q, t) :: rest =>
        let t1 := { t with t_pthread := env.pthread_self }
        if t1.t_id ≠ 1 then none
        else
          match rvp_ring_put_begin cfg t1.t_ring t1.t_id env.return_address with
          | .done r =>
            some { s1 with
              curthr := p
              registry := { s1.registry with thread_head := (q, { t1 with t_ring := r }) :: rest } }
          | _ => none

/-- Model of `rvp_serializer_create`; `none` when it leaves through `err` or
`errx`, or when an assertion fails. -/
def rvp_serializer_create (cfg : rvp_config) (env : rvp_env) (s : rvp_process) :
    Option rvp_process :=
  match rvp_trace_open cfg env with
  | none => none
  | some (fd, file) =>
    if fd = -1 then none
    else
      match s.registry.thread_head with
      | [(p, t)] =>
        let f := rvp_thread_flush_to_fd cfg t false env.writev
        match f.ret with
        | none => none
        | some flushed =>
          if env.rc_pthread_create ≠ 0 then none
          else
            some { s with
              serializer_fd := fd
              file := file ++ (if flushed then [.words (iovs_words cfg t f.iov)] else [])
              registry := { s.registry with thread_head := [(p, f.thread)] }
              serializer_created := true }
      | _ => none

/-- Model of `rvp_init`; `none` when it does not return. -/
def rvp_init (cfg : rvp_config) (env : rvp_env) (s : rvp_process) : Option rvp_process :=
  let pgsz := if s.pgsz = 0 then env.sysconf_pagesize else s.pgsz
  if s.pgsz = 0 ∧ pgsz = -1 then none
  else if env.rc_key_create ≠ 0 then none
  else if env.rc_mutex_init ≠ 0 then none
  else if env.rc_cond_init ≠ 0 then none
  else
    match rvp_thread0_create cfg env { s with pgsz := pgsz } with
    | none => none
    | some s1 => rvp_serializer_create cfg env s1

/-- An environment in which every call succeeds and every write is complete,
with pages of 4096 bytes. -/
def env_ok : rvp_env :=
  { sysconf_pagesize := 4096, rc_key_create := 0, rc_mutex_init := 0, rc_cond_init := 0,
    rc_setspecific := 0, rc_pthread_create := 0, calloc_items := true,
    calloc_thread := 0x7000, pthread_self := 1, open_fd := 3, write := fun n => n,
    writev := writev_all, return_address := 0x400000 }

/-- Model of `rvp_trace_end` for the calling thread's ring `r`; `ra` is
`__builtin_return_address(1)`. -/
def rvp_trace_end (cfg : rvp_config) (r : rvp_ring_t) (ra : Nat) : rvp_result rvp_ring_t :=
  rvp_ring_put_pc_and_op cfg r ra cfg.RVP_OP_END

/-- Where control is after a statement of a thread: the statement has returned,
or the thread has terminated in `pthread_exit` with the given value; in both
cases with the state reached. -/
inductive rvp_control (α : Type) where
  | returns (a : α)
  | exits (retval : Nat) (a : α)
deriving DecidableEq, Repr

/-- Sequencing of statements: what follows a statement runs only if the
statement returns. -/
def rvp_control.andThen {α : Type} (x : rvp_control α) (f : α → rvp_control α) :
    rvp_control α :=
  match x with
  | .returns a => f a
  | .exits retval a => .exits retval a

/-- The library call `pthread_exit(retval)`: it terminates the calling thread
and does not return. -/
def pthread_exit {α : Type} (retval : Nat) (a : α) : rvp_control α :=
  .exits retval a

/-- Model of `__rvpredict_pthread_exit(retval)` for the calling thread's ring
`r`: the statements of its body, in order. -/
def __rvpredict_pthread_exit (cfg : rvp_config) (r : rvp_ring_t) (retval ra : Nat) :
    rvp_control (rvp_result rvp_ring_t) :=
  (pthread_exit retval (rvp_result.done r)).andThen fun x =>
    .returns (x.bind fun r1 => rvp_trace_end cfg r1 ra)

/-- One flush that wrote something in a pass of `serialize`: the thread id,
the `trace_switch` argument, and the words written. -/
structure rvp_flush_record where
  tid : Nat
  trace_switch : Bool
  words : List Nat
deriving DecidableEq, Repr

/-- What the `for` loop of `serialize` leaves: the records of the list,
`last_t`, `any_emptied`, and the flushes that wrote something, in order. -/
structure rvp_pass_t where
  threads : List (Nat × rvp_thread_t)
  last_t : Nat
  any_emptied : Bool
  flushed : List rvp_flush_record
deriving DecidableEq, Repr

/-- The `for` loop of `serialize` from the record `t` on, with the current
`last_t`; `none` when an assertion of `rvp_thread_flush_to_fd` fails. -/
def rvp_serialize_for (cfg : rvp_config) (writev : List iovec → Int) :
    List (Nat × rvp_thread_t) → Nat → Option rvp_pass_t
  | [], last_t => some { threads := [], last_t := last_t, any_emptied := false, flushed := [] }
  | (p, t) :: rest, last_t =>
    let f := rvp_thread_flush_to_fd cfg t (decide (p ≠ last_t)) writev
    match f.ret with
    | none => none
    | some flushed =>
      match rvp_serialize_for cfg writev rest (if flushed then p else last_t) with
      | none => none
      | some pass =>
        some
          { threads := (p, f.thread) :: pass.threads
            last_t := pass.last_t
            any_emptied := flushed || pass.any_emptied
            flushed :=
              (if flushed then
                [{ tid := t.t_id, trace_switch := decide (p ≠ last_t),
                   words := iovs_words cfg t f.iov }]
              else []) ++ pass.flushed }

/-- One pass of the `do ... while (any_emptied)` of `serialize`: `last_t` is
declared in the body of the loop and starts each pass as `NULL`. -/
def rvp_serialize_pass (cfg : rvp_config) (writev : List iovec → Int)
    (thread_head : List (Nat × rvp_thread_t)) : Option rvp_pass_t :=
  rvp_serialize_for cfg writev thread_head NULL

/-- The passes of one wake-up of `serialize`, while no producer commits: the
loop is left after the first pass that flushes nothing.  The result is the
list after the last pass and the flushes of all passes; `none` when an
assertion fails or the loop has not ended after `fuel` passes. -/
def rvp_serialize_wakeup (cfg : rvp_config) (writev : List iovec → Int) :
    Nat → List (Nat × rvp_thread_t) → Option (List (Nat × rvp_thread_t) × List rvp_flush_record)
  | 0, _ => none
  | fuel + 1, thread_head =>
    match rvp_serialize_pass cfg writev thread_head with
    | none => none
    | some pass =>
      if pass.any_emptied then
        match rvp_serialize_wakeup cfg writev fuel pass.threads with
        | none => none
        | some (threads, flushed) => some (threads, pass.flushed ++ flushed)
      else some (pass.threads, pass.flushed)

/-- The producer of the only thread of the registry traces an event with
`rvp_ring_put_pc_and_op`. -/
def rvp_produce (cfg : rvp_config) (pc op : Nat) :
    List (Nat × rvp_thread_t) → Option (List (Nat × rvp_thread_t))
  | [(p, t)] =>
    match rvp_ring_put_pc_and_op cfg t.t_ring pc op with
    | .done r => some [(p, { t with t_ring := r })]
    | _ => none
  | _ => none

/-- Start-up, one event traced by the main thread, and one wake-up of the
serializer: the trace file after `rvp_init` and the flushes of the wake-up. -/
def rvp_startup_then_wakeup (cfg : rvp_config) (env : rvp_env) (pc op : Nat) :
    Option (List rvp_written × List rvp_flush_record) :=
  match rvp_init cfg env rvp_process_boot with
  | none => none
  | some s =>
    match rvp_produce cfg pc op s.registry.thread_head with
    | none => none
    | some thread_head =>
      match rvp_serialize_wakeup cfg env.writev 2 thread_head with
      | none => none
      | some (_, flushed) => some (s.file, flushed)


/-! ### Thread creation (`thread.c`) -/

/-- The `errno` value of a failed allocation. -/
def ENOMEM : Int := 12

/-- Model of `rvp_thread_for_curthr`: the value of `rvp_thread_key` for the
calling thread; `none` when it is `NULL` and the function leaves through
`errx`. -/
def rvp_thread_for_curthr (s : rvp_process) : Option Nat :=
  if s.curthr = NULL then none else some s.curthr

/-- Store through a pointer to a thread record: the record at address `p` of
the list becomes `t`. -/
def thread_store (p : Nat) (t : rvp_thread_t) :
    List (Nat × rvp_thread_t) → List (Nat × rvp_thread_t)
  | [] => []
  | x :: rest => if x.1 = p then (p, t) :: rest else x :: thread_store p t rest

/-- Model of `rvp_trace_fork(id)`: the calling thread appends the FORK event
and the id to its own ring; `none` when `rvp_thread_for_curthr` leaves
through `errx`, when the calling thread has no record, or when a put does not
return. -/
def rvp_trace_fork (cfg : rvp_config) (env : rvp_env) (s : rvp_process) (id : Nat) :
    Option rvp_process :=
  match rvp_thread_for_curthr s with
  | none => none
  | some p =>
    match s.registry.thread_head.lookup p with
    | none => none
    | some t =>
      match (rvp_ring_put_pc_and_op cfg t.t_ring env.return_address cfg.RVP_OP_FORK).bind
          (fun r => rvp_ring_put r id) with
      | .done r =>
        some { s with
          registry := { s.registry with
            thread_head := thread_store p { t with t_ring := r } s.registry.thread_head } }
      | _ => none

/-- Model of `rvp_thread_destroy(t)` for the record at address `p`: `none`
when `rvp_thread_detach` fails and the function leaves through `err`; the
freed record exists no longer. -/
def rvp_thread_destroy (s : rvp_process) (p : Nat) : Option rvp_process :=
  if (rvp_thread_detach s.registry p).2 ≠ 0 then none
  else some { s with registry := (rvp_thread_detach s.registry p).1 }

/-- Model of `__rvpredict_pthread_create`: the value it returns and the
process afterwards; `none` when an assertion fails or a callee does not
return.  `env.rc_pthread_create` is what the underlying `pthread_create`
returns and `pthread` the handle it stores in `t->t_pthread` (and the caller
receives in `*thread`) when it succeeds. -/
def __rvpredict_pthread_create (cfg : rvp_config) (env : rvp_env) (pthread : Nat)
    (s : rvp_process) : Option (Int × rvp_process) :=
  if s.pgsz = 0 then none
  else
    match rvp_thread_create env s with
    | none => none
    | some (p, s1) =>
      if p = NULL then some (ENOMEM, s1)
      else
        let rc := env.rc_pthread_create
        if rc = 0 then
          match s1.registry.thread_head with
          | [] => none
          | (q, t) :: rest =>
            let t1 := { t with t_pthread := pthread }
            let s2 := { s1 with registry := { s1.registry with thread_head := (q, t1) :: rest } }
            match rvp_trace_fork cfg env s2 t1.t_id with
            | none => none
            | some s3 => some (0, s3)
        else
          match rvp_thread_destroy s1 p with
          | none => none
          | some s2 => some (rc, s2)

/-- A running process with pages of 32 bytes whose only thread, the main
thread with id 1 and its record at address `0x7000`, has an idle ring. -/
def process_one_thread : rvp_process :=
  { pgsz := 32,
    registry := { thread_head := [(0x7000, thread_at 1 (ring_idle 8 0x400000))], next_id := 1 },
    serializer_fd := 3, file := [], curthr := 0x7000, serializer_created := true }

/-- An environment in which `pthread_create` fails with `EAGAIN` (11); the new
thread record is allocated at `0x7100`. -/
def env_create_fails : rvp_env :=
  { env_ok with rc_pthread_create := 11, calloc_thread := 0x7100 }

/-- An environment in which `pthread_create` succeeds; the new thread record
is allocated at `0x7100`. -/
def env_create_ok : rvp_env :=
  { env_ok with calloc_thread := 0x7100 }
/-! ## Part 2: theorems -/

theorem c_div_lt_some (a b d : Int) (h : d ≠ 0) :
    c_div_lt a b d = some (decide (Int.tdiv a d < Int.tdiv b d)) := by
  simp [c_div_lt, h]

theorem c_div_lt_zero (a b : Int) : c_div_lt a b 0 = none := by
  simp [c_div_lt]

theorem put_increase_some (n gt a b : Int) (h0 : 0 ≤ n) :
    ∃ inc, (if n ≥ gt then some true else c_div_lt a b gt) = some inc := by
  by_cases h : n ≥ gt
  · exact ⟨true, by simp [h]⟩
  · exact ⟨_, by rw [if_neg h]; exact c_div_lt_some a b gt (by omega)⟩

theorem service_threshold_pos (x : Int) (h : 2 ≤ x) : Int.tdiv x 2 ≠ 0 := by
  rw [Int.tdiv_eq_ediv (by omega) (by omega)]
  omega

theorem service_threshold_one : Int.tdiv (0 - 0 + 1) 2 = 0 := by decide

theorem put_shape (log2 ggen : Nat) (r : rvp_ring_t) (item : Nat → Nat) (n : Int)
    (h0 : 0 ≤ n) (h1 : n ≤ rvp_ring_nempty r) :
    (1 ≤ r.r_last → ∃ res, rvp_ring_put_multiple log2 ggen r item n = .done res ∧
      res.ring = rvp_ring_put_multiple_commit r item n) ∧
    (r.r_last = 0 → rvp_ring_put_multiple log2 ggen r item n = .fault) := by
  have hne : ¬ (rvp_ring_nempty r < n) := by omega
  have hlast : (rvp_ring_put_multiple_commit r item n).r_last = r.r_last := rfl
  constructor
  · intro h2
    obtain ⟨inc, hinc⟩ := put_increase_some n
      ((rvp_ring_capacity (rvp_ring_put_multiple_commit r item n) + 1) >>>
        ((1 + log2) % 2 ^ 32))
      (r.r_producer - 0) ((rvp_ring_put_multiple_commit r item n).r_producer - 0) h0
    have hst : Int.tdiv (rvp_ring_capacity (rvp_ring_put_multiple_commit r item n) + 1) 2 ≠ 0 :=
      service_threshold_pos _ (by simp only [rvp_ring_capacity, hlast]; omega)
    simp only [rvp_ring_put_multiple, hne, if_false, hinc, c_div_lt_some _ _ _ hst]
    exact ⟨_, rfl, rfl⟩
  · intro h2
    obtain ⟨inc, hinc⟩ := put_increase_some n
      ((rvp_ring_capacity (rvp_ring_put_multiple_commit r item n) + 1) >>>
        ((1 + log2) % 2 ^ 32))
      (r.r_producer - 0) ((rvp_ring_put_multiple_commit r item n).r_producer - 0) h0
    have hst : Int.tdiv (rvp_ring_capacity (rvp_ring_put_multiple_commit r item n) + 1) 2 = 0 := by
      simp only [rvp_ring_capacity, hlast, h2]; decide
    simp only [rvp_ring_put_multiple, hne, if_false, hinc, hst, c_div_lt_zero]
theorem emod_wrap (x S : Int) (h : S ≤ x) (h2 : x < 2 * S) : x % S = x - S := by
  rw [Int.emod_eq_sub_self_emod]
  exact Int.emod_eq_of_lt (by omega) (by omega)

theorem commit_fields (r : rvp_ring_t) (item : Nat → Nat) (n : Int) :
    (rvp_ring_put_multiple_commit r item n).r_consumer = r.r_consumer ∧
    (rvp_ring_put_multiple_commit r item n).r_last = r.r_last ∧
    (rvp_ring_put_multiple_commit r item n).r_lastpc = r.r_lastpc ∧
    (rvp_ring_put_multiple_commit r item n).r_producer =
      (if r.r_producer + n ≤ r.r_last then r.r_producer + n
       else r.r_producer + (n - (r.r_last + 1 - 0))) :=
  ⟨rfl, rfl, rfl, rfl⟩

theorem commit_producer (r : rvp_ring_t) (item : Nat → Nat) (n : Int)
    (h : ring_inside r) (h0 : 0 ≤ n) (h1 : n ≤ rvp_ring_nempty r) :
    (rvp_ring_put_multiple_commit r item n).r_producer =
      (r.r_producer + n) % (rvp_ring_capacity r + 1) := by
  obtain ⟨hp0, hp1, hc0, hc1⟩ := h
  rw [(commit_fields r item n).2.2.2]
  simp only [rvp_ring_nempty, rvp_ring_capacity, rvp_ring_nfull] at h1 ⊢
  split_ifs at h1 ⊢ with h2 h3 h3
  · rw [Int.emod_eq_of_lt (by omega) (by omega)]
  · rw [Int.emod_eq_of_lt (by omega) (by omega)]
  · rw [emod_wrap _ _ (by omega) (by omega)]; omega
  · rw [emod_wrap _ _ (by omega) (by omega)]; omega

theorem commit_inside (r : rvp_ring_t) (item : Nat → Nat) (n : Int)
    (h : ring_inside r) (h0 : 0 ≤ n) (h1 : n ≤ rvp_ring_nempty r) :
    ring_inside (rvp_ring_put_multiple_commit r item n) := by
  obtain ⟨hp0, hp1, hc0, hc1⟩ := h
  obtain ⟨e1, e2, _, e4⟩ := commit_fields r item n
  simp only [ring_inside, e1, e2, e4]
  simp only [rvp_ring_nempty, rvp_ring_capacity, rvp_ring_nfull] at h1
  split_ifs at h1 ⊢ <;> omega

theorem commit_nfull (r : rvp_ring_t) (item : Nat → Nat) (n : Int)
    (h : ring_inside r) (h0 : 0 ≤ n) (h1 : n ≤ rvp_ring_nempty r) :
    rvp_ring_nfull (rvp_ring_put_multiple_commit r item n) = rvp_ring_nfull r + n := by
  obtain ⟨hp0, hp1, hc0, hc1⟩ := h
  obtain ⟨e1, e2, _, e4⟩ := commit_fields r item n
  simp only [rvp_ring_nempty, rvp_ring_capacity, rvp_ring_nfull, e1, e2, e4] at h1 ⊢
  split_ifs at h1 ⊢ <;> omega
theorem flush_thread_cases (cfg : rvp_config) (t : rvp_thread_t) (sw : Bool)
    (writev : List iovec → Int) :
    (rvp_thread_flush_to_fd cfg t sw writev).thread = t ∨
    (rvp_thread_flush_to_fd cfg t sw writev).thread =
      { t with t_ring := { t.t_ring with r_consumer := t.t_ring.r_producer } } := by
  unfold rvp_thread_flush_to_fd
  simp only
  split_ifs <;> simp

theorem ring_nfull_range (r : rvp_ring_t) (h : ring_inside r) :
    0 ≤ rvp_ring_nfull r ∧ rvp_ring_nfull r ≤ rvp_ring_capacity r := by
  obtain ⟨hp0, hp1, hc0, hc1⟩ := h
  simp only [rvp_ring_nfull, rvp_ring_capacity]
  split_ifs <;> omega

theorem ring_nfull_zero_iff (r : rvp_ring_t) (h : ring_inside r) :
    rvp_ring_nfull r = 0 ↔ r.r_producer = r.r_consumer := by
  obtain ⟨hp0, hp1, hc0, hc1⟩ := h
  simp only [rvp_ring_nfull]
  split_ifs <;> omega

/-- C1: for a ring of capacity `C = r_last - r_items` whose producer and
consumer lie in the items array, `0 ≤ nfull ≤ C`, `nfull + nempty = C`,
`nfull = 0` exactly when producer and consumer coincide, `nfull = C` exactly
when the producer is one slot (cyclically) behind the consumer; and
`rvp_ring_put_multiple` with `0 ≤ n ≤ nempty` and `rvp_thread_flush_to_fd`
keep both pointers in the array.  (The call of `rvp_ring_put_multiple` never
waits there, and it can stop only on a ring of a single slot, in the division
by `service_threshold`.) -/
theorem rvp_ring_counts_invariant (r : rvp_ring_t) (h : ring_inside r) :
    (0 ≤ rvp_ring_nfull r ∧ rvp_ring_nfull r ≤ rvp_ring_capacity r) ∧
    rvp_ring_nfull r + rvp_ring_nempty r = rvp_ring_capacity r ∧
    (rvp_ring_nfull r = 0 ↔ r.r_producer = r.r_consumer) ∧
    (rvp_ring_nfull r = rvp_ring_capacity r ↔
      (r.r_producer + 1) % (rvp_ring_capacity r + 1) = r.r_consumer) ∧
    (∀ (log2_nthreads ggen : Nat) (item : Nat → Nat) (n : Int),
      0 ≤ n → n ≤ rvp_ring_nempty r →
      match rvp_ring_put_multiple log2_nthreads ggen r item n with
      | .done res => ring_inside res.ring ∧ res.ring.r_last = r.r_last
      | .awaits _ => False
      | .fault => r.r_last = 0) ∧
    (∀ (cfg : rvp_config) (t : rvp_thread_t) (sw : Bool) (writev : List iovec → Int),
      t.t_ring = r →
      ring_inside (rvp_thread_flush_to_fd cfg t sw writev).thread.t_ring ∧
      (rvp_thread_flush_to_fd cfg t sw writev).thread.t_ring.r_last = r.r_last) := by
  have hin := h
  obtain ⟨hp0, hp1, hc0, hc1⟩ := h
  refine ⟨ring_nfull_range r hin, ?_, ring_nfull_zero_iff r hin, ?_, ?_, ?_⟩
  · simp only [rvp_ring_nempty]; omega
  · simp only [rvp_ring_nfull, rvp_ring_capacity]
    by_cases hw : r.r_producer + 1 < r.r_last - 0 + 1
    · rw [Int.emod_eq_of_lt (by omega) hw]
      split_ifs <;> omega
    · rw [emod_wrap _ _ (by omega) (by omega)]
      split_ifs <;> omega
  · intro log2 ggen item n h0 h1
    obtain ⟨hd, hf⟩ := put_shape log2 ggen r item n h0 h1
    by_cases hl : 1 ≤ r.r_last
    · obtain ⟨res, e, e2⟩ := hd hl
      rw [e]
      simp only [e2]
      exact ⟨commit_inside r item n hin h0 h1, rfl⟩
    · have hl0 : r.r_last = 0 := by omega
      rw [hf hl0]
      exact hl0
  · intro cfg t sw writev ht
    subst ht
    rcases flush_thread_cases cfg t sw writev with e | e <;> rw [e]
    · exact ⟨hin, rfl⟩
    · exact ⟨⟨hp0, hp1, hp0, hp1⟩, rfl⟩
theorem memcpy_length (mem : List Nat) (dst : Int) (src : Nat → Nat) (n : Int) :
    (memcpy mem dst src n).length = mem.length := by
  simp [memcpy]

theorem memcpy_getD (mem : List Nat) (dst : Int) (src : Nat → Nat) (n : Int) (i : Nat)
    (hi : i < mem.length) :
    (memcpy mem dst src n).getD i 0 =
      if dst ≤ (i : Int) ∧ (i : Int) < dst + n then src ((i : Int) - dst).toNat
      else mem.getD i 0 := by
  simp [memcpy, List.getD_eq_getElem?_getD, List.getElem?_map, List.getElem?_range, hi]

theorem emod_cases (x S : Int) (h0 : 0 ≤ x) (h2 : x < 2 * S) :
    (x < S ∧ x % S = x) ∨ (S ≤ x ∧ x % S = x - S) := by
  by_cases h : x < S
  · exact Or.inl ⟨h, Int.emod_eq_of_lt h0 h⟩
  · exact Or.inr ⟨by omega, emod_wrap x S (by omega) h2⟩
theorem commit_items_length (r : rvp_ring_t) (item : Nat → Nat) (n : Int) :
    (rvp_ring_put_multiple_commit r item n).r_items.length = r.r_items.length := by
  simp only [rvp_ring_put_multiple_commit]
  split_ifs <;> simp [memcpy_length]

theorem commit_items_getD (r : rvp_ring_t) (item : Nat → Nat) (n : Int)
    (h : ring_ok r) (h0 : 1 ≤ n) (h1 : n ≤ rvp_ring_nempty r) (j : Nat)
    (hj : (j : Int) ≤ r.r_last) :
    (rvp_ring_put_multiple_commit r item n).r_items.getD j 0 =
      if r.r_producer ≤ (j : Int) ∧ (j : Int) < r.r_producer + n then
        item ((j : Int) - r.r_producer).toNat
      else if (j : Int) + (r.r_last + 1) < r.r_producer + n then
        item ((j : Int) + (r.r_last + 1) - r.r_producer).toNat
      else r.r_items.getD j 0 := by
  obtain ⟨hlen, hp0, hp1, hc0, hc1⟩ := h
  have hjl : j < r.r_items.length := by omega
  have hn : n ≤ r.r_last := by
    simp only [rvp_ring_nempty, rvp_ring_capacity, rvp_ring_nfull] at h1
    split_ifs at h1 <;> omega
  simp only [rvp_ring_put_multiple_commit]
  by_cases hw : r.r_producer + n ≤ r.r_last
  · have hlt : r.r_producer < r.r_producer + n := by omega
    simp only [hw, if_true, hlt]
    rw [memcpy_getD _ _ _ _ _ hjl]
    have h3 : ¬ ((j : Int) + (r.r_last + 1) < r.r_producer + n) := by omega
    simp only [h3, if_false]
  · have hlt : ¬ (r.r_producer < r.r_producer + (n - (r.r_last + 1 - 0))) := by omega
    simp only [hw, if_false, hlt]
    rw [memcpy_getD _ _ _ _ _ (by rw [memcpy_length]; exact hjl),
      memcpy_getD _ _ _ _ _ hjl]
    by_cases ha : r.r_producer ≤ (j : Int)
    · have hb : (j : Int) < r.r_producer + n := by omega
      have hc : ¬ ((0 : Int) ≤ (j : Int) ∧
          (j : Int) < 0 + (r.r_producer + (n - (r.r_last + 1 - 0)) - 0)) := by omega
      have hd : r.r_producer ≤ (j : Int) ∧
          (j : Int) < r.r_producer + (r.r_last - r.r_producer + 1) := by omega
      simp only [hc, if_false, hd, and_self, if_true, ha, hb]
    · have hb : ¬ (r.r_producer ≤ (j : Int) ∧ (j : Int) < r.r_producer + n) := by omega
      have hd : ¬ (r.r_producer ≤ (j : Int) ∧
          (j : Int) < r.r_producer + (r.r_last - r.r_producer + 1)) := by omega
      simp only [hb, if_false, hd]
      by_cases hc : (j : Int) + (r.r_last + 1) < r.r_producer + n
      · have hc2 : ((0 : Int) ≤ (j : Int) ∧
            (j : Int) < 0 + (r.r_producer + (n - (r.r_last + 1 - 0)) - 0)) := by omega
        simp only [hc, hc2, and_self, if_true]
        congr 1
        omega
      · have hc2 : ¬ ((0 : Int) ≤ (j : Int) ∧
            (j : Int) < 0 + (r.r_producer + (n - (r.r_last + 1 - 0)) - 0)) := by omega
        simp only [hc, hc2, if_false]
theorem commit_ok (r : rvp_ring_t) (item : Nat → Nat) (n : Int)
    (h : ring_ok r) (h0 : 0 ≤ n) (h1 : n ≤ rvp_ring_nempty r) :
    ring_ok (rvp_ring_put_multiple_commit r item n) := by
  refine ⟨?_, commit_inside r item n h.2 h0 h1⟩
  rw [commit_items_length, (commit_fields r item n).2.1]
  exact h.1

theorem commit_unread (r : rvp_ring_t) (item : Nat → Nat) (n : Int)
    (h : ring_ok r) (h0 : 1 ≤ n) (h1 : n ≤ rvp_ring_nempty r) :
    ring_unread (rvp_ring_put_multiple_commit r item n) =
      ring_unread r ++ words_of item n.toNat := by
  have hnf := commit_nfull r item n h.2 (by omega) h1
  obtain ⟨e1, e2, _, _⟩ := commit_fields r item n
  have hcnt := h.2
  obtain ⟨hlen, hp0, hp1, hc0, hc1⟩ := h
  have hfull : 0 ≤ rvp_ring_nfull r ∧
      rvp_ring_nfull r + n ≤ r.r_last ∧
      (r.r_consumer + rvp_ring_nfull r = r.r_producer ∨
        r.r_consumer + rvp_ring_nfull r = r.r_producer + (r.r_last + 1)) := by
    simp only [rvp_ring_nempty, rvp_ring_capacity, rvp_ring_nfull] at h1 ⊢
    split_ifs at h1 ⊢ <;> omega
  obtain ⟨hf0, hf1, hf2⟩ := hfull
  have hsplit : (rvp_ring_nfull r + n).toNat = (rvp_ring_nfull r).toNat + n.toNat := by
    omega
  simp only [ring_unread, words_of, hnf, hsplit, List.range_add, List.map_append, List.map_map,
    e1, e2]
  congr 1
  · apply List.map_congr_left
    intro k hk
    rw [List.mem_range] at hk
    rcases emod_cases (r.r_consumer + k) (r.r_last + 1) (by omega) (by omega) with ⟨ha, hb⟩ | ⟨ha, hb⟩
    · rw [hb]
      have hj : (((r.r_consumer + k).toNat : Nat) : Int) ≤ r.r_last := by omega
      rw [commit_items_getD r item n ⟨hlen, hcnt⟩ h0 h1 _ hj]
      have hx : ¬ (r.r_producer ≤ (((r.r_consumer + k).toNat : Nat) : Int) ∧
          (((r.r_consumer + k).toNat : Nat) : Int) < r.r_producer + n) := by omega
      have hy : ¬ ((((r.r_consumer + k).toNat : Nat) : Int) + (r.r_last + 1) <
          r.r_producer + n) := by omega
      simp only [hx, hy, if_false]
    · rw [hb]
      have hj : (((r.r_consumer + k - (r.r_last + 1)).toNat : Nat) : Int) ≤ r.r_last := by omega
      rw [commit_items_getD r item n ⟨hlen, hcnt⟩ h0 h1 _ hj]
      have hx : ¬ (r.r_producer ≤ (((r.r_consumer + k - (r.r_last + 1)).toNat : Nat) : Int) ∧
          (((r.r_consumer + k - (r.r_last + 1)).toNat : Nat) : Int) < r.r_producer + n) := by
        omega
      have hy : ¬ ((((r.r_consumer + k - (r.r_last + 1)).toNat : Nat) : Int) + (r.r_last + 1) <
          r.r_producer + n) := by omega
      simp only [hx, hy, if_false]
  · apply List.map_congr_left
    intro k hk
    rw [List.mem_range] at hk
    simp only [Function.comp]
    rcases emod_cases (r.r_consumer + (((rvp_ring_nfull r).toNat + k : Nat) : Int))
      (r.r_last + 1) (by omega) (by omega) with ⟨ha, hb⟩ | ⟨ha, hb⟩
    · rw [hb]
      have hj : (((r.r_consumer + (((rvp_ring_nfull r).toNat + k : Nat) : Int)).toNat : Nat) : Int)
          ≤ r.r_last := by omega
      rw [commit_items_getD r item n ⟨hlen, hcnt⟩ h0 h1 _ hj]
      split_ifs with hx hy
      · congr 1; omega
      · congr 1; omega
      · exfalso; omega
    · rw [hb]
      have hj : (((r.r_consumer + (((rvp_ring_nfull r).toNat + k : Nat) : Int) -
          (r.r_last + 1)).toNat : Nat) : Int) ≤ r.r_last := by omega
      rw [commit_items_getD r item n ⟨hlen, hcnt⟩ h0 h1 _ hj]
      split_ifs with hx hy
      · congr 1; omega
      · congr 1; omega
      · exfalso; omega
theorem flush_iov (cfg : rvp_config) (t : rvp_thread_t) (sw : Bool)
    (writev : List iovec → Int) (hne : t.t_ring.r_consumer ≠ t.t_ring.r_producer) :
    (rvp_thread_flush_to_fd cfg t sw writev).iov =
      (if sw then [{ iov_base := .threadswitch, iov_len := sizeof_threadswitch cfg }] else []) ++
      (if t.t_ring.r_consumer < t.t_ring.r_producer then
        [{ iov_base := .items t.t_ring.r_consumer,
           iov_len := (t.t_ring.r_producer - t.t_ring.r_consumer) * 4 }]
      else
        [{ iov_base := .items t.t_ring.r_consumer,
           iov_len := (t.t_ring.r_last + 1 - t.t_ring.r_consumer) * 4 },
         { iov_base := .items 0, iov_len := (t.t_ring.r_producer - 0) * 4 }]) := by
  simp only [rvp_thread_flush_to_fd, hne, if_false]
  split_ifs <;> rfl

theorem flush_iov_empty (cfg : rvp_config) (t : rvp_thread_t) (sw : Bool)
    (writev : List iovec → Int) (he : t.t_ring.r_consumer = t.t_ring.r_producer) :
    rvp_thread_flush_to_fd cfg t sw writev = { ret := some false, iov := [], thread := t } := by
  simp only [rvp_thread_flush_to_fd, he, if_true]

theorem data_iov_words (cfg : rvp_config) (t : rvp_thread_t) (h : ring_ok t.t_ring)
    (hne : t.t_ring.r_consumer ≠ t.t_ring.r_producer) :
    iovs_words cfg t
      (if t.t_ring.r_consumer < t.t_ring.r_producer then
        [{ iov_base := .items t.t_ring.r_consumer,
           iov_len := (t.t_ring.r_producer - t.t_ring.r_consumer) * 4 }]
      else
        [{ iov_base := .items t.t_ring.r_consumer,
           iov_len := (t.t_ring.r_last + 1 - t.t_ring.r_consumer) * 4 },
         { iov_base := .items 0, iov_len := (t.t_ring.r_producer - 0) * 4 }]) =
    ring_unread t.t_ring := by
  obtain ⟨hlen, hp0, hp1, hc0, hc1⟩ := h
  by_cases hlt : t.t_ring.r_consumer < t.t_ring.r_producer
  · have hge : t.t_ring.r_producer ≥ t.t_ring.r_consumer := by omega
    simp only [hlt, if_true, iovs_words, List.map_cons, List.map_nil, List.flatten_cons,
      List.flatten_nil, List.append_nil, iov_words, ring_unread, rvp_ring_nfull, hge]
    rw [Int.mul_ediv_cancel _ (by decide : (4 : Int) ≠ 0)]
    apply List.map_congr_left
    intro k hk
    rw [List.mem_range] at hk
    rw [Int.emod_eq_of_lt (by omega) (by omega)]
    congr 1
    omega
  · have hge : ¬ (t.t_ring.r_producer ≥ t.t_ring.r_consumer) := by omega
    have hsplit : (t.t_ring.r_last - 0 + 1 - (t.t_ring.r_consumer - t.t_ring.r_producer)).toNat =
        (t.t_ring.r_last + 1 - t.t_ring.r_consumer).toNat + (t.t_ring.r_producer - 0).toNat := by
      omega
    simp only [hlt, if_false, iovs_words, List.map_cons, List.map_nil, List.flatten_cons,
      List.flatten_nil, List.append_nil, iov_words, ring_unread, rvp_ring_nfull, hge]
    rw [Int.mul_ediv_cancel _ (by decide : (4 : Int) ≠ 0),
      Int.mul_ediv_cancel _ (by decide : (4 : Int) ≠ 0), hsplit, List.range_add,
      List.map_append, List.map_map]
    congr 1
    · apply List.map_congr_left
      intro k hk
      rw [List.mem_range] at hk
      rw [Int.emod_eq_of_lt (by omega) (by omega)]
      congr 1
      omega
    · apply List.map_congr_left
      intro k hk
      rw [List.mem_range] at hk
      simp only [Function.comp]
      rw [emod_wrap _ _ (by omega) (by omega)]
      congr 1
      omega
/-- C1, at a ring of four slots with the producer behind the consumer. -/
theorem rvp_ring_counts_invariant_witness :
    ring_inside (ring_at [10, 20, 30, 40] 1 3 1) ∧
    (0 ≤ rvp_ring_nfull (ring_at [10, 20, 30, 40] 1 3 1) ∧
      rvp_ring_nfull (ring_at [10, 20, 30, 40] 1 3 1) ≤
        rvp_ring_capacity (ring_at [10, 20, 30, 40] 1 3 1)) :=
  ⟨by decide, (rvp_ring_counts_invariant (ring_at [10, 20, 30, 40] 1 3 1) (by decide)).1⟩

/-- C2: on a ring (of at least two slots) whose pointers lie in the array, a
call of `rvp_ring_put_multiple` with `0 ≤ n ≤ nempty` returns without waiting,
with the producer at `(old producer + n) mod S`, `S = capacity + 1`, the
consumer unchanged and `nfull` larger by exactly `n`. -/
theorem rvp_ring_put_multiple_advances (log2_nthreads ggen : Nat) (r : rvp_ring_t)
    (item : Nat → Nat) (n : Int) (h : ring_inside r) (hslots : 1 ≤ r.r_last)
    (h0 : 0 ≤ n) (h1 : n ≤ rvp_ring_nempty r) :
    ∃ res, rvp_ring_put_multiple log2_nthreads ggen r item n = .done res ∧
      res.ring.r_producer = (r.r_producer + n) % (rvp_ring_capacity r + 1) ∧
      res.ring.r_consumer = r.r_consumer ∧
      res.ring.r_last = r.r_last ∧
      rvp_ring_nfull res.ring = rvp_ring_nfull r + n := by
  obtain ⟨res, e, e2⟩ := (put_shape log2_nthreads ggen r item n h0 h1).1 hslots
  refine ⟨res, e, ?_, ?_, ?_, ?_⟩
  · rw [e2]; exact commit_producer r item n h h0 h1
  · rw [e2]; rfl
  · rw [e2]; rfl
  · rw [e2]; exact commit_nfull r item n h h0 h1

/-- C2, at a ring of four slots holding two words, with a chunk of one word
that wraps the producer to slot 0. -/
theorem rvp_ring_put_multiple_advances_witness :
    ∃ res, rvp_ring_put_multiple 0 0 (ring_at [10, 20, 30, 40] 3 1 1) (fun i => 100 + i) 1 =
        .done res ∧
      res.ring.r_producer =
        ((ring_at [10, 20, 30, 40] 3 1 1).r_producer + 1) %
          (rvp_ring_capacity (ring_at [10, 20, 30, 40] 3 1 1) + 1) ∧
      res.ring.r_consumer = (ring_at [10, 20, 30, 40] 3 1 1).r_consumer ∧
      res.ring.r_last = (ring_at [10, 20, 30, 40] 3 1 1).r_last ∧
      rvp_ring_nfull res.ring = rvp_ring_nfull (ring_at [10, 20, 30, 40] 3 1 1) + 1 :=
  rvp_ring_put_multiple_advances 0 0 (ring_at [10, 20, 30, 40] 3 1 1) (fun i => 100 + i) 1
    (by decide) (by decide) (by decide) (by decide)

/-- C3 fails at `n = 0`: on a ring of four slots whose only unread word is
`10` (slot 0), `rvp_ring_put_buf` with an empty buffer takes the two-segment
branch of `rvp_ring_put_multiple`, copies four words from the buffer and
overwrites every slot, the unread one included. -/
theorem rvp_ring_put_buf_empty_overwrites_unread :
    ring_ok (ring_at [10, 20, 30, 40] 1 0 1) ∧
    ring_unread (ring_at [10, 20, 30, 40] 1 0 1) = [10] ∧
    (0 : Int) ≤ rvp_ring_nempty (ring_at [10, 20, 30, 40] 1 0 1) ∧
    ∃ res, rvp_ring_put_buf 0 0 (ring_at [10, 20, 30, 40] 1 0 1)
        { b_nwords := 0, b_word := [100, 101, 102, 103, 104, 105] } = .done res ∧
      res.ring.r_items = [103, 100, 101, 102] ∧
      ring_unread res.ring = [103] :=
  ⟨by decide, by decide, by decide, _, rfl, by decide, by decide⟩

theorem put_chunks_unread (log2 : Nat) (chunks : List ((Nat → Nat) × Nat)) :
    ∀ (ggen : Nat) (r : rvp_ring_t), ring_ok r →
      (∀ c ∈ chunks, 1 ≤ c.2) →
      (((chunks.map Prod.snd).sum : Nat) : Int) ≤ rvp_ring_nempty r →
      ∃ res, rvp_ring_put_chunks log2 ggen r chunks = .done res ∧
        ring_ok res.ring ∧
        ring_unread res.ring =
          ring_unread r ++ (chunks.map fun c => words_of c.1 c.2).flatten := by
  induction chunks with
  | nil =>
    intro ggen r h _ _
    exact ⟨_, rfl, h, by simp⟩
  | cons c rest ih =>
    intro ggen r h hpos htot
    obtain ⟨item, n⟩ := c
    have hn : 1 ≤ n := hpos (item, n) (List.mem_cons_self _ _)
    simp only [List.map_cons, List.sum_cons, Nat.cast_add] at htot
    have hsum : (0 : Int) ≤ (((rest.map Prod.snd).sum : Nat) : Int) := Int.ofNat_nonneg _
    have h1 : (n : Int) ≤ rvp_ring_nempty r := by omega
    have hslots : 1 ≤ r.r_last := by
      have := ring_nfull_range r h.2
      simp only [rvp_ring_nempty, rvp_ring_capacity] at h1 this
      omega
    obtain ⟨res, e, e2⟩ := (put_shape log2 ggen r item n (by omega) h1).1 hslots
    have hok := commit_ok r item n h (by omega) h1
    have hun := commit_unread r item n h (by omega) h1
    have hnf := commit_nfull r item n h.2 (by omega) h1
    rw [← e2] at hok hun hnf
    have hlast : res.ring.r_last = r.r_last := by rw [e2]; rfl
    have htot2 : (((rest.map Prod.snd).sum : Nat) : Int) ≤ rvp_ring_nempty res.ring := by
      simp only [rvp_ring_nempty, rvp_ring_capacity, hnf, hlast] at htot ⊢
      omega
    obtain ⟨res2, e3, hok2, hun2⟩ := ih res.ggen res.ring hok
      (fun c hc => hpos c (List.mem_cons_of_mem _ hc)) htot2
    refine ⟨{ res2 with calls := res.calls ++ res2.calls }, ?_, hok2, ?_⟩
    · simp only [rvp_ring_put_chunks, e, rvp_result.bind, e3]
    · simp only [hun2, hun, List.map_cons, List.flatten_cons, List.append_assoc, Int.toNat_ofNat]

/-- C4: FIFO round trip.  From an empty ring, with the producer anywhere in
the array, after calls of `rvp_ring_put_multiple` with chunks of `n_i ≥ 1`
words whose total is at most the capacity, one `rvp_thread_flush_to_fd` with
`trace_switch = false` hands `writev` iovecs that denote exactly the
concatenation of the chunks, in commit order. -/
theorem rvp_ring_fifo_round_trip (cfg : rvp_config) (log2_nthreads ggen : Nat)
    (t : rvp_thread_t) (chunks : List ((Nat → Nat) × Nat)) (writev : List iovec → Int)
    (h : ring_ok t.t_ring) (hempty : t.t_ring.r_producer = t.t_ring.r_consumer)
    (hpos : ∀ c ∈ chunks, 1 ≤ c.2)
    (htotal : (((chunks.map Prod.snd).sum : Nat) : Int) ≤ rvp_ring_capacity t.t_ring) :
    ∃ res, rvp_ring_put_chunks log2_nthreads ggen t.t_ring chunks = .done res ∧
      iovs_words cfg { t with t_ring := res.ring }
          (rvp_thread_flush_to_fd cfg { t with t_ring := res.ring } false writev).iov =
        (chunks.map fun c => words_of c.1 c.2).flatten := by
  have hnf : rvp_ring_nfull t.t_ring = 0 :=
    (ring_nfull_zero_iff t.t_ring h.2).2 hempty
  have hun : ring_unread t.t_ring = [] := by simp [ring_unread, hnf]
  obtain ⟨res, e, hok, hun2⟩ := put_chunks_unread log2_nthreads chunks ggen t.t_ring h hpos
    (by simp only [rvp_ring_nempty, hnf]; omega)
  refine ⟨res, e, ?_⟩
  rw [hun, List.nil_append] at hun2
  rw [← hun2]
  by_cases he : res.ring.r_consumer = res.ring.r_producer
  · have hz : rvp_ring_nfull res.ring = 0 :=
      (ring_nfull_zero_iff res.ring hok.2).2 he.symm
    rw [flush_iov_empty cfg _ false writev he]
    simp [iovs_words, ring_unread, hz]
  · rw [flush_iov cfg _ false writev he]
    simp only [Bool.false_eq_true, if_false, List.nil_append]
    exact data_iov_words cfg { t with t_ring := res.ring } hok he
/-- C4, at an empty ring of four slots with the producer on the last slot, so
that the first chunk wraps. -/
theorem rvp_ring_fifo_round_trip_witness :
    ∃ res, rvp_ring_put_chunks 0 0 (thread_at 1 (ring_at [0, 0, 0, 0] 3 3 1)).t_ring
        chunks_2_1 = .done res ∧
      iovs_words config32 { thread_at 1 (ring_at [0, 0, 0, 0] 3 3 1) with t_ring := res.ring }
          (rvp_thread_flush_to_fd config32
            { thread_at 1 (ring_at [0, 0, 0, 0] 3 3 1) with t_ring := res.ring } false
            writev_all).iov =
        (chunks_2_1.map fun c => words_of c.1 c.2).flatten :=
  rvp_ring_fifo_round_trip config32 0 0 (thread_at 1 (ring_at [0, 0, 0, 0] 3 3 1)) chunks_2_1
    writev_all (by decide) (by decide) (by decide) (by decide)

theorem iov_total_append (a b : List iovec) : iov_total (a ++ b) = iov_total a + iov_total b := by
  induction a with
  | nil => simp [iov_total]
  | cons v rest ih =>
    simp only [iov_total, List.cons_append, List.foldr_cons] at ih ⊢
    rw [ih]; omega

/-- C5: `rvp_thread_flush_to_fd` returns false exactly when the ring is empty,
and then hands nothing to `writev` and leaves the thread as it was; otherwise
(`writev` writing all it is handed, so that the assertion holds) it returns
true, the iovecs after the optional switch marker total `4 * nfull` bytes,
the consumer becomes the producer read at entry, the ring is empty afterwards,
and the producer and the rest of the ring are not modified. -/
theorem rvp_thread_flush_to_fd_spec (cfg : rvp_config) (t : rvp_thread_t) (sw : Bool)
    (writev : List iovec → Int) (h : ring_inside t.t_ring)
    (hw : writev (rvp_thread_flush_to_fd cfg t sw writev).iov =
      iov_total (rvp_thread_flush_to_fd cfg t sw writev).iov) :
    ((rvp_thread_flush_to_fd cfg t sw writev).ret = some false ↔
      t.t_ring.r_consumer = t.t_ring.r_producer) ∧
    (t.t_ring.r_consumer = t.t_ring.r_producer →
      (rvp_thread_flush_to_fd cfg t sw writev).iov = [] ∧
      (rvp_thread_flush_to_fd cfg t sw writev).thread = t) ∧
    (t.t_ring.r_consumer ≠ t.t_ring.r_producer →
      (rvp_thread_flush_to_fd cfg t sw writev).ret = some true ∧
      (∃ data, (rvp_thread_flush_to_fd cfg t sw writev).iov =
          (if sw then [{ iov_base := .threadswitch, iov_len := sizeof_threadswitch cfg }]
           else []) ++ data ∧
        iov_total data = 4 * rvp_ring_nfull t.t_ring) ∧
      (rvp_thread_flush_to_fd cfg t sw writev).thread =
        { t with t_ring := { t.t_ring with r_consumer := t.t_ring.r_producer } } ∧
      rvp_ring_nfull (rvp_thread_flush_to_fd cfg t sw writev).thread.t_ring = 0) := by
  obtain ⟨hp0, hp1, hc0, hc1⟩ := h
  by_cases he : t.t_ring.r_consumer = t.t_ring.r_producer
  · rw [flush_iov_empty cfg t sw writev he]
    simp [he]
  · have hiov := flush_iov cfg t sw writev he
    have hret : (rvp_thread_flush_to_fd cfg t sw writev).ret = some true ∧
        (rvp_thread_flush_to_fd cfg t sw writev).thread =
          { t with t_ring := { t.t_ring with r_consumer := t.t_ring.r_producer } } := by
      have hz : writev (rvp_thread_flush_to_fd cfg t sw writev).iov -
          iov_total (rvp_thread_flush_to_fd cfg t sw writev).iov = 0 := by omega
      rw [hiov] at hz
      simp only [rvp_thread_flush_to_fd, he, if_false, hz, if_true, and_self]
    refine ⟨?_, fun e => absurd e he, fun _ => ⟨hret.1, ⟨_, hiov, ?_⟩, hret.2, ?_⟩⟩
    · rw [hret.1]; simp [he]
    · simp only [rvp_ring_nfull]
      split_ifs <;> simp [iov_total] <;> omega
    · rw [hret.2]; simp [rvp_ring_nfull]

/-- C5, at a ring of four slots whose two unread words wrap around the end of
the array, with a switch marker. -/
theorem rvp_thread_flush_to_fd_spec_witness :
    (rvp_thread_flush_to_fd config32 (thread_at 1 (ring_at [10, 20, 30, 40] 1 3 1)) true
        writev_all).ret = some true ∧
      (rvp_thread_flush_to_fd config32 (thread_at 1 (ring_at [10, 20, 30, 40] 1 3 1)) true
        writev_all).thread.t_ring.r_consumer = 1 :=
  ⟨((rvp_thread_flush_to_fd_spec config32 (thread_at 1 (ring_at [10, 20, 30, 40] 1 3 1)) true
      writev_all (by decide) rfl).2.2 (by decide)).1,
   by decide⟩
theorem deltop_in_range (cfg : rvp_config) (h : config_ok cfg) (jmpvec : Int) (op : Nat)
    (hj0 : -((cfg.RVP_NJMPS / 2 : Nat) : Int) ≤ jmpvec)
    (hj1 : jmpvec < ((cfg.RVP_NJMPS / 2 : Nat) : Int)) (hop : op < cfg.RVP_NOPS) :
    ∃ row : Nat, (row : Int) = ((cfg.RVP_NJMPS / 2 : Nat) : Int) + jmpvec ∧
      row < cfg.RVP_NJMPS ∧
      rvp_vec_and_op_to_deltop cfg jmpvec op =
        cfg.deltops + (row * cfg.RVP_NOPS + op) * cfg.deltop_size := by
  obtain ⟨hb, he, hnj, hno, hfit⟩ := h
  refine ⟨(((cfg.RVP_NJMPS / 2 : Nat) : Int) + jmpvec).toNat, by omega, by omega, ?_⟩
  generalize hrow : (((cfg.RVP_NJMPS / 2 : Nat) : Int) + jmpvec).toNat = row
  have hrowI : ((cfg.RVP_NJMPS / 2 : Nat) : Int) + jmpvec = (row : Int) := by omega
  have hrowlt : row < cfg.RVP_NJMPS := by omega
  have hidx : row * cfg.RVP_NOPS + op ≤ (cfg.RVP_NJMPS - 1) * cfg.RVP_NOPS + (cfg.RVP_NOPS - 1) := by
    have : row * cfg.RVP_NOPS ≤ (cfg.RVP_NJMPS - 1) * cfg.RVP_NOPS :=
      Nat.mul_le_mul_right _ (by omega)
    omega
  have hidx2 : (row * cfg.RVP_NOPS + op) * cfg.deltop_size ≤
      ((cfg.RVP_NJMPS - 1) * cfg.RVP_NOPS + (cfg.RVP_NOPS - 1)) * cfg.deltop_size :=
    Nat.mul_le_mul_right _ hidx
  have hlast : ((cfg.RVP_NJMPS - 1) * cfg.RVP_NOPS + (cfg.RVP_NOPS - 1)) * cfg.deltop_size +
      cfg.deltop_size = cfg.RVP_NJMPS * cfg.RVP_NOPS * cfg.deltop_size := by
    have e1 : (cfg.RVP_NJMPS - 1) * cfg.RVP_NOPS + (cfg.RVP_NOPS - 1) + 1 =
        cfg.RVP_NJMPS * cfg.RVP_NOPS := by
      have : (cfg.RVP_NJMPS - 1) * cfg.RVP_NOPS + cfg.RVP_NOPS = cfg.RVP_NJMPS * cfg.RVP_NOPS := by
        rw [← Nat.succ_mul]; congr 1; omega
      omega
    rw [← e1]; ring
  simp only [rvp_vec_and_op_to_deltop, hrowI, NULL]
  have hcast : ((cfg.deltops : Int) + ((row : Int) * (cfg.RVP_NOPS : Int) + (op : Int)) *
      (cfg.deltop_size : Int)) =
      ((cfg.deltops + (row * cfg.RVP_NOPS + op) * cfg.deltop_size : Nat) : Int) := by
    push_cast; ring
  rw [hcast, ← Int.natCast_mod, Int.toNat_ofNat, Nat.mod_eq_of_lt (by omega)]
  rw [if_neg (by omega)]
theorem deltop_decode_in_range (cfg : rvp_config) (h : config_ok cfg) (jmpvec : Int) (op : Nat)
    (hj0 : -((cfg.RVP_NJMPS / 2 : Nat) : Int) ≤ jmpvec)
    (hj1 : jmpvec < ((cfg.RVP_NJMPS / 2 : Nat) : Int)) (hop : op < cfg.RVP_NOPS) :
    rvp_vec_and_op_to_deltop cfg jmpvec op ≠ NULL ∧
    cfg.deltops ≤ rvp_vec_and_op_to_deltop cfg jmpvec op ∧
    rvp_vec_and_op_to_deltop cfg jmpvec op <
      cfg.deltops + cfg.RVP_NJMPS * cfg.RVP_NOPS * cfg.deltop_size ∧
    rvp_deltop_to_vec_and_op cfg (rvp_vec_and_op_to_deltop cfg jmpvec op) =
      some (jmpvec, op) := by
  obtain ⟨row, hrow, hrowlt, e⟩ := deltop_in_range cfg h jmpvec op hj0 hj1 hop
  obtain ⟨hb, he, hnj, hno, hfit⟩ := h
  have hidx : row * cfg.RVP_NOPS + op < cfg.RVP_NJMPS * cfg.RVP_NOPS := by
    have : (row + 1) * cfg.RVP_NOPS ≤ cfg.RVP_NJMPS * cfg.RVP_NOPS :=
      Nat.mul_le_mul_right _ (by omega)
    rw [Nat.succ_mul] at this
    omega
  have hidx2 : (row * cfg.RVP_NOPS + op) * cfg.deltop_size <
      cfg.RVP_NJMPS * cfg.RVP_NOPS * cfg.deltop_size :=
    Nat.mul_lt_mul_of_pos_right hidx he
  rw [e]
  refine ⟨?_, by omega, by omega, ?_⟩
  · simp only [NULL]; omega
  · have hin : cfg.deltops ≤ cfg.deltops + (row * cfg.RVP_NOPS + op) * cfg.deltop_size ∧
        cfg.deltops + (row * cfg.RVP_NOPS + op) * cfg.deltop_size <
          cfg.deltops + cfg.RVP_NJMPS * cfg.RVP_NOPS * cfg.deltop_size := by omega
    simp only [rvp_deltop_to_vec_and_op, hin, and_self, if_true, Nat.add_sub_cancel_left,
      Nat.mul_div_cancel _ he]
    have hdiv : (row * cfg.RVP_NOPS + op) / cfg.RVP_NOPS = row := by
      rw [Nat.add_comm, Nat.add_mul_div_right _ _ hno, Nat.div_eq_of_lt hop, Nat.zero_add]
    have hmod : (row * cfg.RVP_NOPS + op) % cfg.RVP_NOPS = op := by
      rw [Nat.add_comm, Nat.add_mul_mod_self_right, Nat.mod_eq_of_lt hop]
    rw [hdiv, hmod, hrow]
    simp

/-- C6: deltop round trip.  For a jump vector in `[-RVP_NJMPS/2, RVP_NJMPS/2)`
and an opcode below `RVP_NOPS`, `rvp_vec_and_op_to_deltop` is a non-null
pointer inside the deltops table, decoding it by subtracting the table base
gives back the pair, and so two in-range pairs with the same deltop are
equal. -/
theorem rvp_deltop_round_trip (cfg : rvp_config) (h : config_ok cfg) (jmpvec : Int) (op : Nat)
    (hj0 : -((cfg.RVP_NJMPS / 2 : Nat) : Int) ≤ jmpvec)
    (hj1 : jmpvec < ((cfg.RVP_NJMPS / 2 : Nat) : Int)) (hop : op < cfg.RVP_NOPS) :
    rvp_vec_and_op_to_deltop cfg jmpvec op ≠ NULL ∧
    cfg.deltops ≤ rvp_vec_and_op_to_deltop cfg jmpvec op ∧
    rvp_vec_and_op_to_deltop cfg jmpvec op <
      cfg.deltops + cfg.RVP_NJMPS * cfg.RVP_NOPS * cfg.deltop_size ∧
    rvp_deltop_to_vec_and_op cfg (rvp_vec_and_op_to_deltop cfg jmpvec op) =
      some (jmpvec, op) ∧
    (∀ (jmpvec2 : Int) (op2 : Nat),
      -((cfg.RVP_NJMPS / 2 : Nat) : Int) ≤ jmpvec2 →
      jmpvec2 < ((cfg.RVP_NJMPS / 2 : Nat) : Int) → op2 < cfg.RVP_NOPS →
      rvp_vec_and_op_to_deltop cfg jmpvec2 op2 = rvp_vec_and_op_to_deltop cfg jmpvec op →
      jmpvec2 = jmpvec ∧ op2 = op) := by
  obtain ⟨h1, h2, h3, h4⟩ := deltop_decode_in_range cfg h jmpvec op hj0 hj1 hop
  refine ⟨h1, h2, h3, h4, ?_⟩
  intro jmpvec2 op2 g0 g1 gop e
  have h5 := (deltop_decode_in_range cfg h jmpvec2 op2 g0 g1 gop).2.2.2
  rw [e, h4] at h5
  simp only [Option.some.injEq, Prod.mk.injEq] at h5
  exact ⟨h5.1.symm, h5.2.symm⟩

/-- C6, at the 64-bit sample build, jump vector `-128` (the first row) and
opcode `31` (the last column). -/
theorem rvp_deltop_round_trip_witness :
    rvp_vec_and_op_to_deltop config64 (-128) 31 ≠ NULL ∧
    rvp_deltop_to_vec_and_op config64 (rvp_vec_and_op_to_deltop config64 (-128) 31) =
      some (-128, 31) :=
  ⟨(rvp_deltop_round_trip config64 (by decide) (-128) 31 (by decide) (by decide)
      (by decide)).1,
   (rvp_deltop_round_trip config64 (by decide) (-128) 31 (by decide) (by decide)
      (by decide)).2.2.2.1⟩
theorem put_words_unread (ws : List Nat) :
    ∀ (r : rvp_ring_t), ring_ok r → (ws.length : Int) ≤ rvp_ring_nempty r →
      ∃ r2, rvp_ring_put_words r ws = .done r2 ∧ ring_ok r2 ∧
        ring_unread r2 = ring_unread r ++ ws ∧ r2.r_lastpc = r.r_lastpc ∧
        rvp_ring_nempty r2 = rvp_ring_nempty r - ws.length := by
  induction ws with
  | nil =>
    intro r h _
    exact ⟨r, rfl, h, by simp, rfl, by simp⟩
  | cons w rest ih =>
    intro r h hroom
    simp only [List.length_cons, Nat.cast_add, Nat.cast_one] at hroom
    have h1 : (1 : Int) ≤ rvp_ring_nempty r := by omega
    have hok := commit_ok r (fun _ => w) 1 h (by omega) h1
    have hun := commit_unread r (fun _ => w) 1 h (by omega) h1
    have hnf := commit_nfull r (fun _ => w) 1 h.2 (by omega) h1
    have hne : rvp_ring_nempty (rvp_ring_put_multiple_commit r (fun _ => w) 1) =
        rvp_ring_nempty r - 1 := by
      simp only [rvp_ring_nempty, rvp_ring_capacity, hnf, (commit_fields r (fun _ => w) 1).2.1]
      omega
    obtain ⟨r2, e, hok2, hun2, hpc2, hne2⟩ := ih _ hok (by rw [hne]; omega)
    refine ⟨r2, ?_, hok2, ?_, ?_, ?_⟩
    · simp only [rvp_ring_put_words, rvp_ring_put, if_neg (by omega : ¬ rvp_ring_nempty r < 1),
        rvp_result.bind, e]
    · rw [hun2, hun]
      simp [words_of]
    · rw [hpc2]; rfl
    · rw [hne2, hne]
      simp only [List.length_cons, Nat.cast_add, Nat.cast_one]
      omega

theorem put_words_append (ws vs : List Nat) :
    ∀ (r : rvp_ring_t), rvp_ring_put_words r (ws ++ vs) =
      (rvp_ring_put_words r ws).bind fun r1 => rvp_ring_put_words r1 vs := by
  induction ws with
  | nil => intro r; rfl
  | cons w rest ih =>
    intro r
    simp only [List.cons_append, rvp_ring_put_words]
    cases rvp_ring_put r w with
    | done r1 => simp only [rvp_result.bind]; exact ih r1
    | awaits cs => rfl
    | fault => rfl

/-- What `rvp_ring_put_pc_and_op` appends, in terms of the deltop it computes
from its `int` jump vector: the deltop alone when it is not null, and the
literal PC followed by the deltop for `(0, op)` when it is null; `r_lastpc`
becomes `pc`. -/
theorem put_pc_and_op_appends (cfg : rvp_config) (r : rvp_ring_t) (pc op : Nat)
    (h : ring_ok r) (hroom : ((2 * (cfg.ptr_bits / 32) : Nat) : Int) ≤ rvp_ring_nempty r)
    (hop : rvp_vec_and_op_to_deltop cfg 0 op ≠ NULL) :
    ∃ r2, rvp_ring_put_pc_and_op cfg r pc op = .done r2 ∧ ring_ok r2 ∧
      r2.r_lastpc = pc ∧
      ring_unread r2 = ring_unread r ++
        (if rvp_vec_and_op_to_deltop cfg (rvp_jmpvec cfg pc r.r_lastpc) op = NULL then
          addr_words cfg pc ++ addr_words cfg (rvp_vec_and_op_to_deltop cfg 0 op)
        else
          addr_words cfg (rvp_vec_and_op_to_deltop cfg (rvp_jmpvec cfg pc r.r_lastpc) op)) := by
  have hlen : ∀ a, (addr_words cfg a).length = cfg.ptr_bits / 32 := by
    intro a; simp [addr_words]
  have hok1 : ring_ok { r with r_lastpc := pc } := h
  have hne1 : rvp_ring_nempty { r with r_lastpc := pc } = rvp_ring_nempty r := rfl
  have hun1 : ring_unread { r with r_lastpc := pc } = ring_unread r := rfl
  simp only [Nat.cast_mul, Nat.cast_ofNat] at hroom
  have hnn : (0 : Int) ≤ ((cfg.ptr_bits / 32 : Nat) : Int) := Int.ofNat_nonneg _
  by_cases hd : rvp_vec_and_op_to_deltop cfg (rvp_jmpvec cfg pc r.r_lastpc) op = NULL
  · obtain ⟨r2, e2, hok2, hun2, hpc2, hne2⟩ := put_words_unread (addr_words cfg pc) _ hok1
      (by rw [hlen, hne1]; omega)
    obtain ⟨r3, e3, hok3, hun3, hpc3, _⟩ := put_words_unread
      (addr_words cfg (rvp_vec_and_op_to_deltop cfg 0 op)) r2 hok2
      (by rw [hlen, hne2, hlen, hne1]; omega)
    refine ⟨r3, ?_, hok3, by rw [hpc3, hpc2], ?_⟩
    · simp only [rvp_ring_put_pc_and_op, hd, if_true, rvp_ring_put_addr, e2, rvp_result.bind,
        if_neg hop, e3]
    · rw [hun3, hun2, hun1, if_pos hd, List.append_assoc]
  · obtain ⟨r2, e2, hok2, hun2, hpc2, _⟩ := put_words_unread
      (addr_words cfg (rvp_vec_and_op_to_deltop cfg (rvp_jmpvec cfg pc r.r_lastpc) op)) _ hok1
      (by rw [hlen, hne1]; omega)
    refine ⟨r2, ?_, hok2, by rw [hpc2], ?_⟩
    · simp only [rvp_ring_put_pc_and_op, if_neg hd, rvp_ring_put_addr, e2]
    · rw [hun2, hun1, if_neg hd]

/-- C7 fails on a 64-bit build.  With `r_lastpc = 0x400000` and
`pc = 0x100400000` (both outside the table, `2 ^ 32` apart) the `int` jump
vector is `0`, so `rvp_ring_put_pc_and_op` emits the single deltop for
`(0, op)`, and the replay of the emitted words reconstructs `0x400000`, not
the PC that was passed. -/
theorem rvp_replay_far_pc_wrong :
    config_ok config64 ∧
    rvp_deltop_to_vec_and_op config64 0x400000 = none ∧
    rvp_deltop_to_vec_and_op config64 0x100400000 = none ∧
    rvp_jmpvec config64 0x100400000 0x400000 = 0 ∧
    ∃ r, rvp_ring_put_pc_and_op config64 (ring_idle 8 0x400000) 0x100400000 5 = .done r ∧
      ring_unread r = addr_words config64 (rvp_vec_and_op_to_deltop config64 0 5) ∧
      rvp_replay config64 0x400000 (ptr_stream 2 1 (ring_unread r)) = [(0x400000, 5)] ∧
      r.r_lastpc = 0x100400000 :=
  ⟨by decide, by decide, by decide, by decide, _, rfl, by decide, by decide, by decide⟩
/-- C8 fails on a 64-bit build, by the conversion of the jump vector to `int`
that also breaks C7.  With `r_lastpc = 0x400000` and `pc = 0x100400004` the
difference `2 ^ 32 + 4` does not fit the deltop range `[-128, 128)`, yet
`rvp_ring_put_pc_and_op` appends one pointer-sized word, the deltop for
`(4, op)`, and not the literal PC followed by the deltop for `(0, op)`. -/
theorem rvp_ring_put_pc_and_op_far_pc_one_word :
    config_ok config64 ∧
    ((0x100400004 : Int) - 0x400000 = 2 ^ 32 + 4) ∧
    ¬ ((0x100400004 : Int) - 0x400000 < ((config64.RVP_NJMPS / 2 : Nat) : Int)) ∧
    ∃ r, rvp_ring_put_pc_and_op config64 (ring_idle 8 0x400000) 0x100400004 5 = .done r ∧
      ring_unread r = addr_words config64 (rvp_vec_and_op_to_deltop config64 4 5) ∧
      ring_unread r ≠ addr_words config64 0x100400004 ++
        addr_words config64 (rvp_vec_and_op_to_deltop config64 0 5) ∧
      r.r_lastpc = 0x100400004 :=
  ⟨by decide, by decide, by decide, _, rfl, by decide, by decide, by decide⟩

theorem put_lastpc (r r1 : rvp_ring_t) (w : Nat) (e : rvp_ring_put r w = .done r1) :
    r1.r_lastpc = r.r_lastpc := by
  simp only [rvp_ring_put] at e
  split_ifs at e
  injection e with e
  rw [← e]; rfl

theorem put_words_lastpc (ws : List Nat) :
    ∀ (r r1 : rvp_ring_t), rvp_ring_put_words r ws = .done r1 → r1.r_lastpc = r.r_lastpc := by
  induction ws with
  | nil =>
    intro r r1 e
    simp only [rvp_ring_put_words] at e
    injection e with e
    rw [e]
  | cons w rest ih =>
    intro r r1 e
    simp only [rvp_ring_put_words] at e
    cases hp : rvp_ring_put r w with
    | done r2 =>
      rw [hp] at e
      rw [ih r2 r1 e, put_lastpc r r2 w hp]
    | awaits cs => rw [hp] at e; simp [rvp_result.bind] at e
    | fault => rw [hp] at e; simp [rvp_result.bind] at e

/-- `rvp_ring_put_begin` is the sequence of single-word commits of
`rvp_begin_words`. -/
theorem put_begin_commits (cfg : rvp_config) (r : rvp_ring_t) (id ra : Nat) :
    rvp_ring_put_begin cfg r id ra =
      rvp_ring_put_words { r with r_lastpc := ra } (rvp_begin_words cfg id ra) := by
  simp only [rvp_ring_put_begin, rvp_begin_words, rvp_ring_put_addr, put_words_append]
  cases h2 : rvp_ring_put_words { r with r_lastpc := ra }
      (addr_words cfg (rvp_vec_and_op_to_deltop cfg 0 cfg.RVP_OP_BEGIN)) with
  | done r2 =>
    have hpc2 := put_words_lastpc _ _ _ h2
    simp only [rvp_result.bind, rvp_ring_put_words]
    cases h3 : rvp_ring_put r2 id with
    | done r3 =>
      have hpc3 := put_lastpc _ _ _ h3
      simp only [rvp_result.bind, hpc3, hpc2]
    | awaits cs => rfl
    | fault => rfl
  | awaits cs => rfl
  | fault => rfl

/-- C9 fails: `rvp_ring_put_begin` commits its event one word at a time.  On a
32-bit build the BEGIN event of thread 1 is three words; with a flush after the
first commit the serializer writes the chunk `[deltop]`, which is not a whole
number of events, and the next flush writes the rest, `[tid, pc]`.  On a
64-bit build a flush after the first commit of a deltop writes half of the
pointer-sized word. -/
theorem rvp_flush_splits_events :
    rvp_ring_put_begin config32 (ring_idle 8 0) 1 0x400000 =
      rvp_ring_put_words (ring_idle 8 0x400000) [8192, 1, 0x400000] ∧
    rvp_begin_words config32 1 0x400000 = [8192, 1, 0x400000] ∧
    rvp_run_schedule config32 (thread_at 1 (ring_idle 8 0x400000))
        (rvp_begin_words config32 1 0x400000)
        [.commit, .flush, .commit, .commit, .flush] = [[8192], [1, 0x400000]] ∧
    whole_events [rvp_begin_words config32 1 0x400000] [8192] = false ∧
    rvp_ring_put_pc_and_op config64 (ring_idle 8 0x400000) 0x400004 5 =
      rvp_ring_put_words (ring_idle 8 0x400004) [8325, 0] ∧
    addr_words config64 (rvp_vec_and_op_to_deltop config64 4 5) = [8325, 0] ∧
    rvp_run_schedule config64 (thread_at 1 (ring_idle 8 0x400000))
        (addr_words config64 (rvp_vec_and_op_to_deltop config64 4 5))
        [.commit, .flush, .commit, .flush] = [[8325], [0]] ∧
    whole_events [addr_words config64 (rvp_vec_and_op_to_deltop config64 4 5)] [8325] = false :=
  ⟨by decide, by decide, by decide, by decide, by decide, by decide, by decide, by decide⟩
theorem trace_cogs_append (xs ys : List Nat) :
    ∀ (b : List Nat) (l : Nat), rvp_buf_trace_cogs b l (xs ++ ys) =
      rvp_buf_trace_cogs (rvp_buf_trace_cogs b l xs).1 (rvp_buf_trace_cogs b l xs).2 ys := by
  induction xs with
  | nil => intro b l; rfl
  | cons x rest ih =>
    intro b l
    simp only [List.cons_append, rvp_buf_trace_cogs]
    exact ih _ _

theorem trace_cogs_buf (gens : List Nat) :
    ∀ (b : List Nat) (l : Nat),
      (rvp_buf_trace_cogs b l gens).1 = b ++ (rvp_buf_trace_cogs [] l gens).1 ∧
      (rvp_buf_trace_cogs b l gens).2 = (rvp_buf_trace_cogs [] l gens).2 := by
  induction gens with
  | nil => intro b l; simp [rvp_buf_trace_cogs]
  | cons g rest ih =>
    intro b l
    simp only [rvp_buf_trace_cogs, rvp_buf_trace_cog, cog_record]
    by_cases h : l < g
    · simp only [h, if_true, List.nil_append]
      rw [(ih (b ++ [g]) g).1, (ih (b ++ [g]) g).2, (ih [g] g).1, (ih [g] g).2]
      simp
    · simp only [h, if_false]
      exact ih b l

theorem trace_cogs_sorted (gens : List Nat) :
    ∀ (l : Nat),
      List.Pairwise (· < ·) (rvp_buf_trace_cogs [] l gens).1 ∧
      (∀ g ∈ (rvp_buf_trace_cogs [] l gens).1, l < g) ∧
      (rvp_buf_trace_cogs [] l gens).2 = gens.foldl max l := by
  induction gens with
  | nil => intro l; simp [rvp_buf_trace_cogs]
  | cons g rest ih =>
    intro l
    simp only [rvp_buf_trace_cogs, rvp_buf_trace_cog, cog_record, List.foldl_cons]
    by_cases h : l < g
    · simp only [h, if_true, List.nil_append]
      obtain ⟨h1, h2, h3⟩ := ih g
      rw [(trace_cogs_buf rest [g] g).1, (trace_cogs_buf rest [g] g).2]
      refine ⟨?_, ?_, ?_⟩
      · simp only [List.singleton_append, List.pairwise_cons]
        exact ⟨h2, h1⟩
      · intro x hx
        simp only [List.singleton_append, List.mem_cons] at hx
        rcases hx with hx | hx
        · omega
        · have := h2 x hx; omega
      · rw [h3, Nat.max_eq_right (by omega)]
    · simp only [h, if_false]
      rw [Nat.max_eq_left (by omega)]
      exact ih l

/-- C10: COG monotonicity per ring.  For every initial `lgen` and every
sequence of generation values passed to `rvp_buf_trace_cog` on the same
`lgen`: a COG is emitted for a value exactly when it exceeds the current
`lgen`; the emitted values are strictly increasing; each is greater than the
initial `lgen`; and `lgen` ends as the maximum of its initial value and the
values seen (so the current `lgen` is that maximum at every point). -/
theorem rvp_buf_trace_cog_monotone (lgen : Nat) (gens : List Nat) :
    (∀ (pre post : List Nat) (g : Nat), gens = pre ++ g :: post →
      (rvp_buf_trace_cogs [] lgen (pre ++ [g])).1 =
        (rvp_buf_trace_cogs [] lgen pre).1 ++
          (if (rvp_buf_trace_cogs [] lgen pre).2 < g then [g] else []) ∧
      (rvp_buf_trace_cogs [] lgen pre).2 = pre.foldl max lgen) ∧
    List.Pairwise (· < ·) (rvp_buf_trace_cogs [] lgen gens).1 ∧
    (∀ g ∈ (rvp_buf_trace_cogs [] lgen gens).1, lgen < g) ∧
    (rvp_buf_trace_cogs [] lgen gens).2 = gens.foldl max lgen := by
  obtain ⟨h1, h2, h3⟩ := trace_cogs_sorted gens lgen
  refine ⟨?_, h1, h2, h3⟩
  intro pre post g _
  refine ⟨?_, (trace_cogs_sorted pre lgen).2.2⟩
  rw [trace_cogs_append]
  simp only [rvp_buf_trace_cogs, rvp_buf_trace_cog, cog_record]
  split_ifs <;> simp
theorem put_multiple_done (log2 ggen : Nat) (r : rvp_ring_t) (item : Nat → Nat) (n : Int)
    (h0 : 0 ≤ n) (h1 : n ≤ rvp_ring_nempty r) (hslots : 1 ≤ r.r_last) :
    rvp_ring_put_multiple log2 ggen r item n =
      .done
        { ring := rvp_ring_put_multiple_commit r item n
          ggen :=
            if n ≥ (r.r_last + 1) >>> ((1 + log2) % 2 ^ 32) ∨
                Int.tdiv r.r_producer ((r.r_last + 1) >>> ((1 + log2) % 2 ^ 32)) <
                  Int.tdiv (rvp_ring_put_multiple_commit r item n).r_producer
                    ((r.r_last + 1) >>> ((1 + log2) % 2 ^ 32)) then
              (ggen + 1) % 2 ^ 64
            else ggen
          calls :=
            if Int.tdiv (rvp_ring_nfull (rvp_ring_put_multiple_commit r item n) - n)
                  (Int.tdiv (r.r_last + 1) 2) <
                Int.tdiv (rvp_ring_nfull (rvp_ring_put_multiple_commit r item n))
                  (Int.tdiv (r.r_last + 1) 2) then
              [rvp_ring_request_service (rvp_ring_put_multiple_commit r item n)]
            else [] } := by
  have hne : ¬ (rvp_ring_nempty r < n) := by omega
  have hlast : (rvp_ring_put_multiple_commit r item n).r_last = r.r_last := rfl
  have hst : Int.tdiv (r.r_last + 1) 2 ≠ 0 := service_threshold_pos _ (by omega)
  simp only [rvp_ring_put_multiple, hne, if_false, rvp_ring_capacity, hlast, Int.sub_zero,
    c_div_lt_some _ _ _ hst]
  generalize (r.r_last + 1) >>> ((1 + log2) % 2 ^ 32) = T
  generalize Int.tdiv (r.r_last + 1) 2 = st
  by_cases hT : n ≥ T
  · simp [hT]
  · have hT0 : T ≠ 0 := by omega
    rw [if_neg hT, c_div_lt_some _ _ _ hT0]
    simp [hT]
set_option maxRecDepth 20000 in
/-- C11 fails when the write wraps.  On a ring of one page (1024 slots) with
`rvp_log2_nthreads = 0` the threshold is `T = 512`; a write of one word from
the last slot, 1023, moves the producer to slot 0 across the end of the ring,
slot `1024 = 2 * T`, but neither `nitems >= ggen_threshold` nor
`1023 / 512 < 0 / 512` holds and `rvp_ggen` keeps its value.  The same happens
on a ring of four slots (`T = 2`) from slot 3. -/
theorem rvp_ring_put_multiple_wrap_keeps_ggen :
    ring_ok (ring_at (List.replicate 1024 0) 1023 1000 1) ∧
    ((ring_at (List.replicate 1024 0) 1023 1000 1).r_last + 1) >>> ((1 + 0) % 2 ^ 32) = 512 ∧
    (1 : Int) ≤ rvp_ring_nempty (ring_at (List.replicate 1024 0) 1023 1000 1) ∧
    ((ring_at (List.replicate 1024 0) 1023 1000 1).r_producer < 2 * 512 ∧
      2 * 512 ≤ (ring_at (List.replicate 1024 0) 1023 1000 1).r_producer + 1) ∧
    (∃ res, rvp_ring_put_multiple 0 7 (ring_at (List.replicate 1024 0) 1023 1000 1)
        (fun _ => 42) 1 = .done res ∧ res.ring.r_producer = 0 ∧ res.ggen = 7) ∧
    (∃ res, rvp_ring_put_multiple 0 7 (ring_at [10, 20, 30, 40] 3 1 1) (fun _ => 42) 1 =
        .done res ∧ res.ring.r_producer = 0 ∧ res.ggen = 7) :=
  ⟨by decide, by decide, by decide, by decide, ⟨_, rfl, by decide, by decide⟩,
    ⟨_, rfl, by decide, by decide⟩⟩
theorem put_multiple_ggen_step (log2 ggen : Nat) (r : rvp_ring_t) (item : Nat → Nat) (n : Int)
    (res : rvp_put_t) (e : rvp_ring_put_multiple log2 ggen r item n = .done res) :
    res.ggen = ggen ∨ res.ggen = rvp_increase_ggen ggen := by
  simp only [rvp_ring_put_multiple] at e
  by_cases hw : rvp_ring_nempty r < n
  · simp [hw] at e
  · simp only [hw, if_false] at e
    generalize (if n ≥ _ then some true else c_div_lt _ _ _) = inc at e
    generalize c_div_lt _ _ _ = svc at e
    cases inc with
    | none => simp at e
    | some i =>
      cases svc with
      | none => simp at e
      | some v =>
        simp only [rvp_result.done.injEq] at e
        rw [← e]
        simp only [rvp_increase_ggen]
        cases i
        · exact Or.inl (by simp)
        · exact Or.inr (by simp)

/-- C12: global generation monotonicity.  A call of `rvp_ring_put_multiple`
(or of `rvp_ring_put_buf`) that returns leaves `rvp_ggen` as it was or, below
`2 ^ 64 - 1`, larger by exactly one, the value `rvp_increase_ggen` gives; with
`0 ≤ n ≤ nempty` on a ring of at least two slots it does return; and
`rvp_ggen_before_store`, `rvp_ggen_after_load` and `rvp_buf_trace_cog` (called
by `rvp_buf_trace_load_cog` on the generation read) leave `rvp_ggen` as it
was. -/
theorem rvp_ggen_monotone (log2_nthreads ggen : Nat) (hg : ggen < 2 ^ 64 - 1) :
    (∀ (r : rvp_ring_t) (item : Nat → Nat) (n : Int) (res : rvp_put_t),
      rvp_ring_put_multiple log2_nthreads ggen r item n = .done res →
      ggen ≤ res.ggen ∧ (res.ggen = ggen ∨ res.ggen = ggen + 1)) ∧
    (∀ (r : rvp_ring_t) (b : rvp_buf_t) (res : rvp_put_t),
      rvp_ring_put_buf log2_nthreads ggen r b = .done res →
      ggen ≤ res.ggen ∧ (res.ggen = ggen ∨ res.ggen = ggen + 1)) ∧
    (∀ (r : rvp_ring_t) (item : Nat → Nat) (n : Int),
      0 ≤ n → n ≤ rvp_ring_nempty r → 1 ≤ r.r_last →
      ∃ res, rvp_ring_put_multiple log2_nthreads ggen r item n = .done res ∧
        (res.ggen = ggen ∨ res.ggen = ggen + 1)) ∧
    rvp_increase_ggen ggen = ggen + 1 ∧
    (rvp_ggen_before_store ggen).2 = ggen ∧
    (rvp_ggen_after_load ggen).2 = ggen ∧
    (∀ (b : List Nat) (lgen : Nat),
      (rvp_buf_trace_load_cog cog_record b lgen ggen).2 = ggen ∧
      (rvp_buf_trace_load_cog cog_record b lgen ggen).1 =
        rvp_buf_trace_cog cog_record b lgen ggen) := by
  have hinc : rvp_increase_ggen ggen = ggen + 1 := by
    simp only [rvp_increase_ggen]
    exact Nat.mod_eq_of_lt (by omega)
  have hstep : ∀ (r : rvp_ring_t) (item : Nat → Nat) (n : Int) (res : rvp_put_t),
      rvp_ring_put_multiple log2_nthreads ggen r item n = .done res →
      ggen ≤ res.ggen ∧ (res.ggen = ggen ∨ res.ggen = ggen + 1) := by
    intro r item n res e
    rcases put_multiple_ggen_step log2_nthreads ggen r item n res e with h | h
    · exact ⟨by omega, Or.inl h⟩
    · rw [hinc] at h
      exact ⟨by omega, Or.inr h⟩
  refine ⟨hstep, ?_, ?_, hinc, rfl, rfl, fun b lgen => ⟨rfl, rfl⟩⟩
  · intro r b res e
    exact hstep r _ _ res e
  · intro r item n h0 h1 hslots
    obtain ⟨res, e, _⟩ := (put_shape log2_nthreads ggen r item n h0 h1).1 hslots
    exact ⟨res, e, (hstep r item n res e).2⟩

/-- C12, at the generation 7 and a write that crosses the milestone 512 of a
ring of one page. -/
theorem rvp_ggen_monotone_witness :
    (∀ (r : rvp_ring_t) (item : Nat → Nat) (n : Int) (res : rvp_put_t),
      rvp_ring_put_multiple 0 7 r item n = .done res →
      7 ≤ res.ggen ∧ (res.ggen = 7 ∨ res.ggen = 7 + 1)) ∧
    rvp_increase_ggen 7 = 8 :=
  ⟨(rvp_ggen_monotone 0 7 (by decide)).1, (rvp_ggen_monotone 0 7 (by decide)).2.2.2.1⟩
theorem tdiv_half (a s : Int) (h0 : 0 ≤ a) (hs : 0 < s) (h2 : a < 2 * s) :
    Int.tdiv a s = if a < s then 0 else 1 := by
  rw [Int.tdiv_eq_ediv h0 (by omega)]
  split_ifs with h
  · exact Int.ediv_eq_zero_of_lt h0 h
  · have h1 : 1 ≤ a / s := (Int.le_ediv_iff_mul_le hs).2 (by omega)
    have h3 : a / s < 2 := (Int.ediv_lt_iff_lt_mul hs).2 (by omega)
    omega

/-- C13: half-full wake-up.  On a ring with an even number `S` of slots whose
pointers lie in the array, `rvp_ring_put_multiple` with `0 ≤ n ≤ nempty`
returns, and it calls `rvp_ring_request_service` (once, after the commit)
exactly when `nfull` before the write is below `S / 2` and `nfull` after the
write is at least `S / 2`. -/
theorem rvp_ring_put_multiple_half_full (log2_nthreads ggen : Nat) (r : rvp_ring_t)
    (item : Nat → Nat) (n : Int) (h : ring_inside r) (heven : (r.r_last + 1) % 2 = 0)
    (h0 : 0 ≤ n) (h1 : n ≤ rvp_ring_nempty r) :
    ∃ res, rvp_ring_put_multiple log2_nthreads ggen r item n = .done res ∧
      rvp_ring_nfull res.ring = rvp_ring_nfull r + n ∧
      (res.calls = [rvp_ring_request_service res.ring] ∨ res.calls = []) ∧
      (res.calls = [rvp_ring_request_service res.ring] ↔
        (rvp_ring_nfull r < (rvp_ring_capacity r + 1) / 2 ∧
          (rvp_ring_capacity r + 1) / 2 ≤ rvp_ring_nfull res.ring)) := by
  have hslots : 1 ≤ r.r_last := by
    obtain ⟨hp0, hp1, _, _⟩ := h
    omega
  have hnf := commit_nfull r item n h h0 h1
  have hrange := ring_nfull_range r h
  refine ⟨_, put_multiple_done log2_nthreads ggen r item n h0 h1 hslots, hnf, ?_, ?_⟩
  · simp only
    split_ifs
    · exact Or.inl rfl
    · exact Or.inr rfl
  · simp only [hnf, rvp_ring_capacity, rvp_ring_nempty] at h1 hrange ⊢
    have hs : Int.tdiv (r.r_last + 1) 2 = (r.r_last - 0 + 1) / 2 := by
      rw [Int.tdiv_eq_ediv (by omega) (by omega)]; simp
    rw [hs, Int.add_sub_cancel]
    have hpos : 0 < (r.r_last - 0 + 1) / 2 := by omega
    rw [tdiv_half _ _ hrange.1 hpos (by omega), tdiv_half _ _ (by omega) hpos (by omega)]
    split_ifs <;> simp <;> omega

/-- C13, at a ring of four slots holding one word, with a write of one word
that makes it half full. -/
theorem rvp_ring_put_multiple_half_full_witness :
    ∃ res, rvp_ring_put_multiple 0 0 (ring_at [10, 20, 30, 40] 1 0 1) (fun i => 100 + i) 1 =
        .done res ∧
      rvp_ring_nfull res.ring = rvp_ring_nfull (ring_at [10, 20, 30, 40] 1 0 1) + 1 ∧
      (res.calls = [rvp_ring_request_service res.ring] ∨ res.calls = []) ∧
      (res.calls = [rvp_ring_request_service res.ring] ↔
        (rvp_ring_nfull (ring_at [10, 20, 30, 40] 1 0 1) <
            (rvp_ring_capacity (ring_at [10, 20, 30, 40] 1 0 1) + 1) / 2 ∧
          (rvp_ring_capacity (ring_at [10, 20, 30, 40] 1 0 1) + 1) / 2 ≤
            rvp_ring_nfull res.ring)) :=
  rvp_ring_put_multiple_half_full 0 0 (ring_at [10, 20, 30, 40] 1 0 1) (fun i => 100 + i) 1
    (by decide) (by decide) (by decide) (by decide)
/-- C20: for an interruptions ring whose producer and consumer are slot
indices in `0 .. 7`, `rvp_iring_capacity` is 7, `rvp_iring_nfull` is
`(producer - consumer) mod 8` and lies in `0 .. 7`, `rvp_iring_nfull +
rvp_iring_nempty = 7`, and `rvp_iring_nfull = 0` exactly when producer and
consumer coincide. -/
theorem rvp_iring_counts (ir : rvp_iring_t) (h : iring_inside ir) :
    rvp_iring_capacity ir = 7 ∧
    rvp_iring_nfull ir = (ir.ir_producer - ir.ir_consumer) % 8 ∧
    (0 ≤ rvp_iring_nfull ir ∧ rvp_iring_nfull ir ≤ 7) ∧
    rvp_iring_nfull ir + rvp_iring_nempty ir = 7 ∧
    (rvp_iring_nfull ir = 0 ↔ ir.ir_producer = ir.ir_consumer) := by
  obtain ⟨hp0, hp1, hc0, hc1⟩ := h
  simp only [rvp_iring_capacity, rvp_iring_nempty, rvp_iring_nfull]
  split_ifs <;> omega

/-- C20, at the interruptions ring with the producer on slot 2 and the
consumer on slot 6. -/
theorem rvp_iring_counts_witness :
    iring_inside { iring_idle with ir_producer := 2, ir_consumer := 6 } ∧
    rvp_iring_nfull { iring_idle with ir_producer := 2, ir_consumer := 6 } = (2 - 6) % 8 ∧
    rvp_iring_nfull { iring_idle with ir_producer := 2, ir_consumer := 6 } = 4 :=
  ⟨by decide,
   (rvp_iring_counts { iring_idle with ir_producer := 2, ir_consumer := 6 } (by decide)).2.1,
   by decide⟩
theorem attach_next_id (s : rvp_registry) (p : Nat) (t : rvp_thread_t)
    (h : s.next_id + 1 < 2 ^ 32) :
    rvp_thread_attach s p t =
      { registry := { thread_head := (p, { t with t_id := s.next_id + 1 }) :: s.thread_head,
                      next_id := s.next_id + 1 },
        thread := { t with t_id := s.next_id + 1 }, rc := some 0 } := by
  have e : (s.next_id + 1) % 2 ^ 32 = s.next_id + 1 := Nat.mod_eq_of_lt h
  simp only [rvp_thread_attach, e]
  rw [if_neg (by omega)]

theorem registry_run_tids (ops : List rvp_registry_op) :
    ∀ (s : rvp_registry), s.next_id + attach_count ops < 2 ^ 32 →
      (rvp_registry_run s ops).exited = false ∧
      (rvp_registry_run s ops).tids = List.range' (s.next_id + 1) (attach_count ops) ∧
      (rvp_registry_run s ops).registry.next_id = s.next_id + attach_count ops := by
  induction ops with
  | nil => intro s _; simp [rvp_registry_run, attach_count]
  | cons op rest ih =>
    intro s h
    cases op with
    | attach p t =>
      simp only [attach_count] at h ⊢
      have e := attach_next_id s p t (by omega)
      obtain ⟨h1, h2, h3⟩ := ih (rvp_thread_attach s p t).registry (by rw [e]; simp only; omega)
      simp only [rvp_registry_run]
      rw [e] at h1 h2 h3 ⊢
      simp only at h1 h2 h3 ⊢
      refine ⟨h1, ?_, by rw [h3]; omega⟩
      rw [h2, List.range'_succ]
    | detach tgt =>
      simp only [attach_count] at h ⊢
      simp only [rvp_registry_run]
      exact ih (rvp_thread_detach s tgt).1 h
theorem thread_create_boot (env : rvp_env) (s : rvp_process)
    (hs : s.registry = rvp_registry_boot) (hi : env.calloc_items = true)
    (ht : env.calloc_thread ≠ NULL) :
    rvp_thread_create env s =
      some (env.calloc_thread,
        { s with registry :=
          { thread_head :=
              [(env.calloc_thread,
                { t_pthread := 0, t_id := 1,
                  t_ring := rvp_ring_init (List.replicate (s.pgsz / 4).toNat 0) (s.pgsz / 4) })],
            next_id := 1 } }) := by
  simp only [rvp_thread_create, hi, ht, hs, rvp_registry_boot, if_false, Bool.true_eq_false]
  rw [attach_next_id _ _ _ (by decide)]

/-- C14: thread-id assignment.  From `next_id = 0`, in every sequence of calls
of `rvp_thread_attach` and `rvp_thread_detach` with fewer than `2 ^ 32` calls
of `rvp_thread_attach`, every call returns and the thread ids assigned are
`1, 2, 3, ...` in call order (the `k`-th call assigns `k`): strictly
increasing, never 0, never repeated; and the first record, the one that
`rvp_thread0_create` obtains from `rvp_thread_create` at start-up, gets
thread id 1. -/
theorem rvp_thread_attach_tids (ops : List rvp_registry_op)
    (h : attach_count ops < 2 ^ 32) :
    (rvp_registry_run rvp_registry_boot ops).exited = false ∧
    (rvp_registry_run rvp_registry_boot ops).tids = List.range' 1 (attach_count ops) ∧
    (∀ (k : Nat) (hk : k < (rvp_registry_run rvp_registry_boot ops).tids.length),
      (rvp_registry_run rvp_registry_boot ops).tids.get ⟨k, hk⟩ = k + 1) ∧
    List.Pairwise (· < ·) (rvp_registry_run rvp_registry_boot ops).tids ∧
    0 ∉ (rvp_registry_run rvp_registry_boot ops).tids ∧
    (rvp_registry_run rvp_registry_boot ops).tids.Nodup ∧
    (rvp_registry_run rvp_registry_boot ops).registry.next_id = attach_count ops ∧
    (∀ (env : rvp_env) (s : rvp_process),
      s.registry = rvp_registry_boot → env.calloc_items = true → env.calloc_thread ≠ NULL →
      ∃ t s1, rvp_thread_create env s = some (env.calloc_thread, s1) ∧
        s1.registry.thread_head = [(env.calloc_thread, t)] ∧ t.t_id = 1) := by
  obtain ⟨h1, h2, h3⟩ := registry_run_tids ops rvp_registry_boot
    (by simp only [rvp_registry_boot]; omega)
  simp only [rvp_registry_boot, Nat.zero_add] at h1 h2 h3
  simp only [rvp_registry_boot]
  refine ⟨h1, h2, ?_, ?_, ?_, ?_, h3, ?_⟩
  · intro k hk
    simp only [h2, List.get_eq_getElem, List.getElem_range']
    omega
  · rw [h2]
    exact List.pairwise_lt_range' 1 (attach_count ops)
  · rw [h2]
    simp only [List.mem_range'_1, not_and, not_lt]
    omega
  · rw [h2]
    exact List.nodup_range' 1 (attach_count ops)
  · intro env s hs hi ht
    exact ⟨_, _, thread_create_boot env s hs hi ht, rfl, rfl⟩

/-- C14, at three calls of `rvp_thread_attach` with a call of
`rvp_thread_detach` in between. -/
theorem rvp_thread_attach_tids_witness :
    (rvp_registry_run rvp_registry_boot
      [.attach 100 (thread_at 0 (ring_idle 2 0)), .attach 200 (thread_at 0 (ring_idle 2 0)),
       .detach 100, .attach 300 (thread_at 0 (ring_idle 2 0))]).tids = List.range' 1 3 ∧
    (rvp_registry_run rvp_registry_boot
      [.attach 100 (thread_at 0 (ring_idle 2 0)), .attach 200 (thread_at 0 (ring_idle 2 0)),
       .detach 100, .attach 300 (thread_at 0 (ring_idle 2 0))]).tids = [1, 2, 3] :=
  ⟨(rvp_thread_attach_tids
      [.attach 100 (thread_at 0 (ring_idle 2 0)), .attach 200 (thread_at 0 (ring_idle 2 0)),
       .detach 100, .attach 300 (thread_at 0 (ring_idle 2 0))] (by decide)).2.1,
   by decide⟩
theorem detach_walk_mem (tgt : Nat) (l : List (Nat × rvp_thread_t)) :
    ∀ x ∈ (rvp_thread_detach_walk tgt l).1, x ∈ l := by
  induction l with
  | nil => intro x hx; simp [rvp_thread_detach_walk] at hx
  | cons y rest ih =>
    intro x hx
    simp only [rvp_thread_detach_walk] at hx
    split_ifs at hx
    · exact List.mem_cons_of_mem _ hx
    · simp only [List.mem_cons] at hx ⊢
      rcases hx with hx | hx
      · exact Or.inl hx
      · exact Or.inr (ih x hx)

theorem attach_cases (s : rvp_registry) (p : Nat) (t : rvp_thread_t) :
    ((s.next_id + 1) % 2 ^ 32 = 0 ∧
      rvp_thread_attach s p t =
        { registry := { s with next_id := 0 }, thread := { t with t_id := 0 }, rc := none }) ∨
    ((s.next_id + 1) % 2 ^ 32 ≠ 0 ∧
      rvp_thread_attach s p t =
        { registry :=
            { thread_head := (p, { t with t_id := (s.next_id + 1) % 2 ^ 32 }) :: s.thread_head,
              next_id := (s.next_id + 1) % 2 ^ 32 },
          thread := { t with t_id := (s.next_id + 1) % 2 ^ 32 }, rc := some 0 }) := by
  by_cases h : (s.next_id + 1) % 2 ^ 32 = 0
  · exact Or.inl ⟨h, by simp only [rvp_thread_attach, h, if_true]⟩
  · exact Or.inr ⟨h, by simp only [rvp_thread_attach, if_neg h]⟩

theorem registry_run_tid_nonzero (ops : List rvp_registry_op) :
    ∀ (s : rvp_registry), (∀ x ∈ s.thread_head, x.2.t_id ≠ 0) →
      ∀ x ∈ (rvp_registry_run s ops).registry.thread_head, x.2.t_id ≠ 0 := by
  induction ops with
  | nil => intro s hs; exact hs
  | cons op rest ih =>
    intro s hs
    cases op with
    | attach p t =>
      simp only [rvp_registry_run]
      rcases attach_cases s p t with ⟨h0, e⟩ | ⟨h0, e⟩
      · rw [e]
        exact hs
      · rw [e]
        simp only
        apply ih
        intro x hx
        simp only [List.mem_cons] at hx
        rcases hx with hx | hx
        · rw [hx]; exact h0
        · exact hs x hx
    | detach tgt =>
      simp only [rvp_registry_run]
      apply ih
      intro x hx
      exact hs x (detach_walk_mem tgt s.thread_head x hx)

/-- C15: thread-id overflow is fatal.  `rvp_thread_attach` leaves through
`errx` exactly when `next_id` is `2 ^ 32 - 1` at entry, and then the registry
list is as it was; otherwise it returns 0 with the record, carrying the thread
id `next_id + 1`, pushed onto the list.  So in every sequence of calls of
`rvp_thread_attach` and `rvp_thread_detach` from a registry without a record
of thread id 0, such as the empty one at start-up, no record of the list has
thread id 0. -/
theorem rvp_thread_attach_overflow (s : rvp_registry) (p : Nat) (t : rvp_thread_t)
    (hn : s.next_id < 2 ^ 32) :
    ((rvp_thread_attach s p t).rc = none ↔ s.next_id = 2 ^ 32 - 1) ∧
    ((rvp_thread_attach s p t).rc = none →
      (rvp_thread_attach s p t).registry.thread_head = s.thread_head) ∧
    ((rvp_thread_attach s p t).rc ≠ none →
      (rvp_thread_attach s p t).rc = some 0 ∧
      (rvp_thread_attach s p t).registry.thread_head =
        (p, { t with t_id := s.next_id + 1 }) :: s.thread_head) ∧
    ((∀ x ∈ s.thread_head, x.2.t_id ≠ 0) → ∀ (ops : List rvp_registry_op),
      ∀ x ∈ (rvp_registry_run s ops).registry.thread_head, x.2.t_id ≠ 0) ∧
    (∀ (ops : List rvp_registry_op),
      ∀ x ∈ (rvp_registry_run rvp_registry_boot ops).registry.thread_head, x.2.t_id ≠ 0) := by
  refine ⟨?_, ?_, ?_, fun hs ops => registry_run_tid_nonzero ops s hs,
    fun ops => registry_run_tid_nonzero ops rvp_registry_boot (by simp [rvp_registry_boot])⟩
  · rcases attach_cases s p t with ⟨h0, e⟩ | ⟨h0, e⟩
    · rw [e]
      constructor
      · intro _; omega
      · intro _; rfl
    · rw [e]
      constructor
      · intro h; exact absurd h (by simp)
      · intro h
        exfalso
        apply h0
        rw [h]
        decide
  · rcases attach_cases s p t with ⟨h0, e⟩ | ⟨h0, e⟩
    · rw [e]; intro _; rfl
    · rw [e]; intro h; exact absurd h (by simp)
  · rcases attach_cases s p t with ⟨h0, e⟩ | ⟨h0, e⟩
    · rw [e]; intro h; exact absurd rfl h
    · rw [e]
      intro _
      have hlt : s.next_id + 1 < 2 ^ 32 := by
        by_contra hc
        apply h0
        have : s.next_id + 1 = 2 ^ 32 := by omega
        rw [this]
        decide
      simp only [Nat.mod_eq_of_lt hlt, and_self]

/-- C15, at `next_id = 2 ^ 32 - 1` with one record in the registry. -/
theorem rvp_thread_attach_overflow_witness :
    (rvp_thread_attach
        { thread_head := [(100, thread_at 5 (ring_idle 2 0))], next_id := 2 ^ 32 - 1 } 200
        (thread_at 0 (ring_idle 2 0))).rc = none ∧
    (rvp_thread_attach
        { thread_head := [(100, thread_at 5 (ring_idle 2 0))], next_id := 2 ^ 32 - 1 } 200
        (thread_at 0 (ring_idle 2 0))).registry.thread_head =
      [(100, thread_at 5 (ring_idle 2 0))] :=
  ⟨((rvp_thread_attach_overflow
      { thread_head := [(100, thread_at 5 (ring_idle 2 0))], next_id := 2 ^ 32 - 1 } 200
      (thread_at 0 (ring_idle 2 0)) (by decide)).1).2 rfl,
   by decide⟩
/-- C17 fails for 8-byte pointers: on a 64-bit build the thread-switch marker
that `rvp_thread_flush_to_fd` hands to `writev` is 12 bytes, three 32-bit
words: the two halves of the deltop for `(0, RVP_OP_SWITCH)` and the thread
id. -/
theorem rvp_switch_marker_64_three_words :
    (rvp_thread_flush_to_fd config64 (thread_at 1 (ring_at [10, 20, 30, 40] 1 0 1)) true
        writev_all).iov.head? = some { iov_base := .threadswitch, iov_len := 12 } ∧
    iov_words config64 (thread_at 1 (ring_at [10, 20, 30, 40] 1 0 1))
        { iov_base := .threadswitch, iov_len := 12 } = [8195, 0, 1] ∧
    ¬ ((12 : Int) = 8) := by
  decide

theorem deltop_lt (cfg : rvp_config) (jmpvec : Int) (op : Nat) :
    rvp_vec_and_op_to_deltop cfg jmpvec op < 2 ^ cfg.ptr_bits := by
  simp only [rvp_vec_and_op_to_deltop, NULL]
  split_ifs
  · exact Nat.pow_pos (by decide)
  · have hpos : (0 : Int) < ((2 ^ cfg.ptr_bits : Nat) : Int) := by
      exact_mod_cast Nat.pow_pos (n := cfg.ptr_bits) (by decide : 0 < 2)
    have h1 := Int.emod_lt_of_pos ((cfg.deltops : Int) +
      ((((cfg.RVP_NJMPS / 2 : Nat) : Int) + jmpvec) * (cfg.RVP_NOPS : Int) + (op : Int)) *
        (cfg.deltop_size : Int)) hpos
    have h0 := Int.emod_nonneg ((cfg.deltops : Int) +
      ((((cfg.RVP_NJMPS / 2 : Nat) : Int) + jmpvec) * (cfg.RVP_NOPS : Int) + (op : Int)) *
        (cfg.deltop_size : Int)) (by omega : ((2 ^ cfg.ptr_bits : Nat) : Int) ≠ 0)
    omega

theorem ptr_of_addr_words (cfg : rvp_config) (a : Nat)
    (hw : cfg.ptr_bits = 32 ∨ cfg.ptr_bits = 64) (ha : a < 2 ^ cfg.ptr_bits) :
    ptr_of_words (addr_words cfg a) = a := by
  rcases hw with hw | hw
  · rw [hw] at ha
    simp only [addr_words, hw, ptr_of_words]
    have : List.range (32 / 32) = [0] := by decide
    rw [this]
    simp only [List.map_cons, List.map_nil, List.foldr_cons, List.foldr_nil]
    omega
  · rw [hw] at ha
    simp only [addr_words, hw, ptr_of_words]
    have : List.range (64 / 32) = [0, 1] := by decide
    rw [this]
    simp only [List.map_cons, List.map_nil, List.foldr_cons, List.foldr_nil]
    omega

/-- C17 as amended: for pointers of 4 or 8 bytes, the first iovec that
`rvp_thread_flush_to_fd` with `trace_switch = true` hands to `writev` on a
ring that is not empty is the thread-switch marker, of `sizeof(uintptr_t) + 4`
bytes: the pointer-sized deltop for `(0, RVP_OP_SWITCH)` followed by the
thread id.  That is two 32-bit words (8 bytes) for 4-byte pointers and three
(12 bytes) for 8-byte pointers. -/
theorem rvp_switch_marker_layout (cfg : rvp_config) (t : rvp_thread_t)
    (writev : List iovec → Int) (hw : cfg.ptr_bits = 32 ∨ cfg.ptr_bits = 64)
    (hne : t.t_ring.r_consumer ≠ t.t_ring.r_producer) :
    (∃ data, (rvp_thread_flush_to_fd cfg t true writev).iov =
      { iov_base := .threadswitch, iov_len := sizeof_threadswitch cfg } :: data) ∧
    sizeof_threadswitch cfg = (cfg.ptr_bits / 8 : Nat) + 4 ∧
    iov_words cfg t { iov_base := .threadswitch, iov_len := sizeof_threadswitch cfg } =
      addr_words cfg (rvp_vec_and_op_to_deltop cfg 0 cfg.RVP_OP_SWITCH) ++ [t.t_id] ∧
    ptr_of_words (addr_words cfg (rvp_vec_and_op_to_deltop cfg 0 cfg.RVP_OP_SWITCH)) =
      rvp_vec_and_op_to_deltop cfg 0 cfg.RVP_OP_SWITCH ∧
    (cfg.ptr_bits = 32 → sizeof_threadswitch cfg = 8 ∧
      (iov_words cfg t
        { iov_base := .threadswitch, iov_len := sizeof_threadswitch cfg }).length = 2) ∧
    (cfg.ptr_bits = 64 → sizeof_threadswitch cfg = 12 ∧
      (iov_words cfg t
        { iov_base := .threadswitch, iov_len := sizeof_threadswitch cfg }).length = 3) := by
  have hiov := flush_iov cfg t true writev hne
  have hlen : ∀ a, (addr_words cfg a).length = cfg.ptr_bits / 32 := by
    intro a; simp [addr_words]
  have hwords : iov_words cfg t
      { iov_base := .threadswitch, iov_len := sizeof_threadswitch cfg } =
      addr_words cfg (rvp_vec_and_op_to_deltop cfg 0 cfg.RVP_OP_SWITCH) ++ [t.t_id] := by
    simp only [iov_words, sizeof_threadswitch]
    apply List.take_of_length_le
    simp only [List.length_append, hlen, List.length_singleton]
    rcases hw with hw | hw <;> rw [hw] <;> decide
  refine ⟨⟨_, by rw [hiov]; rfl⟩, rfl, hwords, ?_, ?_, ?_⟩
  · exact ptr_of_addr_words cfg _ hw (deltop_lt cfg 0 cfg.RVP_OP_SWITCH)
  · intro h32
    rw [hwords]
    simp only [sizeof_threadswitch, List.length_append, hlen, List.length_singleton, h32]
    decide
  · intro h64
    rw [hwords]
    simp only [sizeof_threadswitch, List.length_append, hlen, List.length_singleton, h64]
    decide

/-- C17 as amended, at a 32-bit build and a ring of four slots holding one
word. -/
theorem rvp_switch_marker_layout_witness :
    sizeof_threadswitch config32 = 8 ∧
    (iov_words config32 (thread_at 1 (ring_at [10, 20, 30, 40] 1 0 1))
      { iov_base := .threadswitch, iov_len := sizeof_threadswitch config32 }).length = 2 :=
  (rvp_switch_marker_layout config32 (thread_at 1 (ring_at [10, 20, 30, 40] 1 0 1)) writev_all
    (by decide) (by decide)).2.2.2.2.1 rfl
/-- C19 fails: the body of `__rvpredict_pthread_exit` calls `pthread_exit`
first, which does not return, so `rvp_trace_end` is never reached.  For every
ring the thread terminates with its ring as it was, no END event appended;
on the sample ring `rvp_trace_end` itself would have appended the END
deltop. -/
theorem rvpredict_pthread_exit_emits_no_end (cfg : rvp_config) (r : rvp_ring_t)
    (retval ra : Nat) :
    __rvpredict_pthread_exit cfg r retval ra = .exits retval (.done r) ∧
    (∃ r2, rvp_trace_end config32 (ring_idle 8 0x400000) 0x400010 = .done r2 ∧
      ring_unread r2 = addr_words config32
        (rvp_vec_and_op_to_deltop config32 16 config32.RVP_OP_END) ∧
      ring_unread r2 ≠ ring_unread (ring_idle 8 0x400000)) ∧
    __rvpredict_pthread_exit config32 (ring_idle 8 0x400000) 0 0x400010 =
      .exits 0 (.done (ring_idle 8 0x400000)) :=
  ⟨rfl, ⟨_, rfl, by decide, by decide⟩, rfl⟩

theorem serialize_for_switch (cfg : rvp_config) (writev : List iovec → Int)
    (l : List (Nat × rvp_thread_t)) :
    ∀ (last_t : Nat) (pass : rvp_pass_t),
      (∀ x ∈ l, x.1 ≠ last_t) → (l.map Prod.fst).Nodup →
      rvp_serialize_for cfg writev l last_t = some pass →
      ∀ x ∈ pass.flushed, x.trace_switch = true := by
  induction l with
  | nil =>
    intro last_t pass _ _ e
    simp only [rvp_serialize_for, Option.some.injEq] at e
    rw [← e]
    simp
  | cons y rest ih =>
    intro last_t pass hne hnd e
    obtain ⟨p, t⟩ := y
    have hp : p ≠ last_t := hne (p, t) (List.mem_cons_self _ _)
    simp only [List.map_cons, List.nodup_cons, List.mem_map, not_exists, not_and] at hnd
    simp only [rvp_serialize_for] at e
    cases hret : (rvp_thread_flush_to_fd cfg t (decide (p ≠ last_t)) writev).ret with
    | none => rw [hret] at e; simp at e
    | some flushed =>
      rw [hret] at e
      simp only at e
      cases hrest : rvp_serialize_for cfg writev rest (if flushed = true then p else last_t) with
      | none => rw [hrest] at e; simp at e
      | some pass2 =>
        rw [hrest] at e
        simp only [Option.some.injEq] at e
        have h2 := ih _ pass2 (by
          intro x hx
          split_ifs
          · intro hxp
            exact hnd.1 x hx hxp
          · exact hne x (List.mem_cons_of_mem _ hx)) hnd.2 hrest
        rw [← e]
        intro x hx
        simp only [List.mem_append] at hx
        rcases hx with hx | hx
        · split_ifs at hx
          · simp only [List.mem_singleton] at hx
            rw [hx]
            simp [hp]
          · simp at hx
        · exact h2 x hx
set_option maxRecDepth 100000 in
/-- C16 fails: `last_t` is declared inside the `do ... while` body of
`serialize`, so it is `NULL` at the start of every pass and `t != last_t`
holds at every flush.  On a 32-bit build with a single thread: `rvp_init`
writes the BEGIN event of thread 1 without a marker; the thread then traces an
event at `pc = 0x400004`; the next wake-up of the serializer flushes the ring
of thread 1 with `trace_switch = true` and writes a thread-switch marker for
thread 1 before the event, between two runs of events of the same thread. -/
theorem rvp_serialize_marker_same_thread :
    rvp_startup_then_wakeup config32 env_ok 0x400004 7 =
      some
        ([.header (header config32), .words [8192, 1, 0x400000]],
         [{ tid := 1, trace_switch := true, words := [8195, 1, 8327] }]) ∧
    addr_words config32 (rvp_vec_and_op_to_deltop config32 0 config32.RVP_OP_SWITCH) ++ [1] =
      [8195, 1] ∧
    rvp_begin_words config32 1 0x400000 = [8192, 1, 0x400000] := by
  decide
theorem put_words_done_room (r r2 : rvp_ring_t) (w : Nat) (ws : List Nat)
    (e : rvp_ring_put_words r (w :: ws) = .done r2) : 1 ≤ rvp_ring_nempty r := by
  by_contra hc
  have hlt : rvp_ring_nempty r < 1 := by omega
  simp [rvp_ring_put_words, rvp_ring_put, hlt, rvp_result.bind] at e

theorem put_words_done_unread (ws : List Nat) :
    ∀ (r r2 : rvp_ring_t), ring_ok r → rvp_ring_put_words r ws = .done r2 →
      ring_ok r2 ∧ ring_unread r2 = ring_unread r ++ ws ∧ r2.r_last = r.r_last := by
  induction ws with
  | nil =>
    intro r r2 h e
    simp only [rvp_ring_put_words, rvp_result.done.injEq] at e
    rw [← e]
    exact ⟨h, by simp, rfl⟩
  | cons w rest ih =>
    intro r r2 h e
    have h1 := put_words_done_room r r2 w rest e
    have hok := commit_ok r (fun _ => w) 1 h (by omega) h1
    have hun := commit_unread r (fun _ => w) 1 h (by omega) h1
    simp only [rvp_ring_put_words, rvp_ring_put, if_neg (by omega : ¬ rvp_ring_nempty r < 1),
      rvp_result.bind] at e
    obtain ⟨hok2, hun2, hl2⟩ := ih _ r2 hok e
    refine ⟨hok2, ?_, ?_⟩
    · rw [hun2, hun]
      simp [words_of]
    · rw [hl2]; rfl

theorem flush_nonempty_eq (cfg : rvp_config) (t : rvp_thread_t) (sw : Bool)
    (writev : List iovec → Int) (hne : t.t_ring.r_consumer ≠ t.t_ring.r_producer) :
    rvp_thread_flush_to_fd cfg t sw writev =
      if writev (rvp_thread_flush_to_fd cfg t sw writev).iov -
          iov_total (rvp_thread_flush_to_fd cfg t sw writev).iov = 0 then
        { ret := some true, iov := (rvp_thread_flush_to_fd cfg t sw writev).iov,
          thread := { t with t_ring := { t.t_ring with r_consumer := t.t_ring.r_producer } } }
      else
        { ret := none, iov := (rvp_thread_flush_to_fd cfg t sw writev).iov, thread := t } := by
  rw [flush_iov cfg t sw writev hne]
  simp only [rvp_thread_flush_to_fd, hne, if_false]

theorem flush_ret_nonempty (cfg : rvp_config) (t : rvp_thread_t) (sw b : Bool)
    (writev : List iovec → Int) (hne : t.t_ring.r_consumer ≠ t.t_ring.r_producer)
    (e : (rvp_thread_flush_to_fd cfg t sw writev).ret = some b) :
    b = true ∧
    (rvp_thread_flush_to_fd cfg t sw writev).thread =
      { t with t_ring := { t.t_ring with r_consumer := t.t_ring.r_producer } } := by
  have h := flush_nonempty_eq cfg t sw writev hne
  by_cases hz : writev (rvp_thread_flush_to_fd cfg t sw writev).iov -
      iov_total (rvp_thread_flush_to_fd cfg t sw writev).iov = 0
  · rw [if_pos hz] at h
    rw [h] at e ⊢
    simp only [Option.some.injEq] at e
    exact ⟨e.symm, rfl⟩
  · rw [if_neg hz] at h
    rw [h] at e
    simp at e

theorem trace_open_file (cfg : rvp_config) (env : rvp_env) (fd : Int)
    (file : List rvp_written) (e : rvp_trace_open cfg env = some (fd, file)) (hfd : fd ≠ -1) :
    file = [.header (header cfg)] := by
  simp only [rvp_trace_open] at e
  split_ifs at e with h1
  · simp only [Option.some.injEq, Prod.mk.injEq] at e
    exact absurd e.1.symm hfd
  · cases hw : writeall env.write sizeof_header with
    | none => rw [hw] at e; simp at e
    | some w =>
      rw [hw] at e
      simp only at e
      split_ifs at e
      · simp only [Option.some.injEq, Prod.mk.injEq] at e
        exact absurd e.1.symm hfd
      · simp only [Option.some.injEq, Prod.mk.injEq] at e
        exact e.2.symm

theorem trace_open_complete (cfg : rvp_config) (env : rvp_env)
    (hw : env.write sizeof_header = sizeof_header) (hfd : env.open_fd ≠ -1) :
    rvp_trace_open cfg env = some (env.open_fd, [.header (header cfg)]) := by
  have e : writeall env.write sizeof_header = some sizeof_header := by
    simp only [writeall, sizeof_header] at hw ⊢
    have : Int.toNat 20 + 1 = 1 + 1 + 19 := by decide
    rw [this]
    simp only [writeall_loop, hw]
    simp
  simp only [rvp_trace_open, hfd, if_false, e]
  simp [sizeof_header]
theorem thread0_create_boot (cfg : rvp_config) (env : rvp_env) (s s1 : rvp_process)
    (hs : s.registry = rvp_registry_boot) (e : rvp_thread0_create cfg env s = some s1) :
    ∃ r, rvp_ring_put_begin cfg
        (rvp_ring_init (List.replicate (s.pgsz / 4).toNat 0) (s.pgsz / 4)) 1
        env.return_address = .done r ∧
      s1 = { s with
        curthr := env.calloc_thread
        registry :=
          { thread_head :=
              [(env.calloc_thread, { t_pthread := env.pthread_self, t_id := 1, t_ring := r })],
            next_id := 1 } } := by
  by_cases hi : env.calloc_items = true
  · by_cases ht : env.calloc_thread = NULL
    · simp [rvp_thread0_create, rvp_thread_create, hi, ht] at e
    · rw [rvp_thread0_create, thread_create_boot env s hs hi ht] at e
      simp only [ht, if_false] at e
      split_ifs at e with h1
      cases hb : rvp_ring_put_begin cfg
          (rvp_ring_init (List.replicate (s.pgsz / 4).toNat 0) (s.pgsz / 4)) 1
          env.return_address with
      | done r =>
        rw [hb] at e
        simp only [Option.some.injEq] at e
        exact ⟨r, rfl, e.symm⟩
      | awaits cs => rw [hb] at e; simp at e
      | fault => rw [hb] at e; simp at e
  · simp [rvp_thread0_create, rvp_thread_create, hi, NULL] at e

theorem thread0_create_complete (cfg : rvp_config) (env : rvp_env) (s : rvp_process)
    (r : rvp_ring_t) (hs : s.registry = rvp_registry_boot) (hi : env.calloc_items = true)
    (ht : env.calloc_thread ≠ NULL) (hk : env.rc_setspecific = 0)
    (hb : rvp_ring_put_begin cfg
        (rvp_ring_init (List.replicate (s.pgsz / 4).toNat 0) (s.pgsz / 4)) 1
        env.return_address = .done r) :
    rvp_thread0_create cfg env s =
      some { s with
        curthr := env.calloc_thread
        registry :=
          { thread_head :=
              [(env.calloc_thread, { t_pthread := env.pthread_self, t_id := 1, t_ring := r })],
            next_id := 1 } } := by
  rw [rvp_thread0_create, thread_create_boot env s hs hi ht]
  simp only [ht, if_false, hk, ne_eq, not_true_eq_false, hb]
theorem ring_init_nempty (k : Int) :
    rvp_ring_nempty { rvp_ring_init (List.replicate k.toNat 0) k with r_lastpc := 0 } = k - 1 ∧
    ∀ ra, rvp_ring_nempty { rvp_ring_init (List.replicate k.toNat 0) k with r_lastpc := ra } =
      k - 1 := by
  constructor
  · simp [rvp_ring_nempty, rvp_ring_capacity, rvp_ring_nfull, rvp_ring_init]
  · intro ra
    simp [rvp_ring_nempty, rvp_ring_capacity, rvp_ring_nfull, rvp_ring_init]

theorem ring_init_ok (k : Int) (ra : Nat) (hk : 1 ≤ k) :
    ring_ok { rvp_ring_init (List.replicate k.toNat 0) k with r_lastpc := ra } ∧
    ring_unread { rvp_ring_init (List.replicate k.toNat 0) k with r_lastpc := ra } = [] := by
  refine ⟨⟨?_, ?_⟩, ?_⟩
  · simp only [rvp_ring_init, List.length_replicate]
    omega
  · simp only [ring_inside, rvp_ring_init]
    omega
  · simp [ring_unread, rvp_ring_nfull, rvp_ring_init]

theorem begin_words_length (cfg : rvp_config) (id ra : Nat) :
    (rvp_begin_words cfg id ra).length = 2 * (cfg.ptr_bits / 32) + 1 := by
  simp [rvp_begin_words, addr_words]
  omega

theorem put_begin_on_init (cfg : rvp_config) (k : Int) (id ra : Nat) (r : rvp_ring_t)
    (e : rvp_ring_put_begin cfg (rvp_ring_init (List.replicate k.toNat 0) k) id ra = .done r) :
    ring_ok r ∧ ring_unread r = rvp_begin_words cfg id ra ∧
      r.r_consumer ≠ r.r_producer := by
  rw [put_begin_commits] at e
  have hlen := begin_words_length cfg id ra
  cases hbw : rvp_begin_words cfg id ra with
  | nil => rw [hbw] at hlen; simp at hlen
  | cons w ws =>
    rw [hbw] at e
    have hroom := put_words_done_room _ _ _ _ e
    rw [(ring_init_nempty k).2 ra] at hroom
    obtain ⟨hok, hun⟩ := ring_init_ok k ra (by omega)
    obtain ⟨hok2, hun2, _⟩ := put_words_done_unread _ _ _ hok e
    rw [hun, List.nil_append] at hun2
    refine ⟨hok2, hun2, ?_⟩
    intro hcp
    have hz := (ring_nfull_zero_iff r hok2.2).2 hcp.symm
    have : ring_unread r = [] := by simp [ring_unread, hz]
    rw [this] at hun2
    simp at hun2

theorem put_begin_on_init_room (cfg : rvp_config) (k : Int) (id ra : Nat)
    (hk : ((2 * (cfg.ptr_bits / 32) + 2 : Nat) : Int) ≤ k) :
    ∃ r, rvp_ring_put_begin cfg (rvp_ring_init (List.replicate k.toNat 0) k) id ra =
      .done r := by
  rw [put_begin_commits]
  obtain ⟨hok, _⟩ := ring_init_ok k ra (by omega)
  obtain ⟨r, e, _⟩ := put_words_unread (rvp_begin_words cfg id ra) _ hok (by
    rw [begin_words_length, (ring_init_nempty k).2 ra]
    omega)
  exact ⟨r, e⟩
theorem serializer_create_file (cfg : rvp_config) (env : rvp_env) (s st : rvp_process)
    (p : Nat) (t : rvp_thread_t) (hl : s.registry.thread_head = [(p, t)])
    (hok : ring_ok t.t_ring) (hne : t.t_ring.r_consumer ≠ t.t_ring.r_producer)
    (e : rvp_serializer_create cfg env s = some st) :
    st.file = [.header (header cfg), .words (ring_unread t.t_ring)] ∧
    st.registry.thread_head =
      [(p, { t with t_ring := { t.t_ring with r_consumer := t.t_ring.r_producer } })] ∧
    (rvp_thread_flush_to_fd cfg t false env.writev).iov.all
      (fun v => decide (v.iov_base ≠ .threadswitch)) = true := by
  cases ho : rvp_trace_open cfg env with
  | none => simp [rvp_serializer_create, ho] at e
  | some x =>
    obtain ⟨fd, file⟩ := x
    by_cases hfd : fd = -1
    · simp [rvp_serializer_create, ho, hfd] at e
    · have hfile := trace_open_file cfg env fd file ho hfd
      cases hret : (rvp_thread_flush_to_fd cfg t false env.writev).ret with
      | none => simp [rvp_serializer_create, ho, hfd, hl, hret] at e
      | some b =>
        by_cases hpc : env.rc_pthread_create ≠ 0
        · simp [rvp_serializer_create, ho, hfd, hl, hret, hpc] at e
        · simp only [rvp_serializer_create, ho, hfd, hl, hret, hpc, if_false,
            Option.some.injEq] at e
          obtain ⟨hb, hth⟩ := flush_ret_nonempty cfg t false b env.writev hne hret
          have hw : iovs_words cfg t (rvp_thread_flush_to_fd cfg t false env.writev).iov =
              ring_unread t.t_ring := by
            rw [flush_iov cfg t false env.writev hne]
            simp only [Bool.false_eq_true, if_false, List.nil_append]
            exact data_iov_words cfg t hok hne
          rw [← e]
          refine ⟨?_, ?_, ?_⟩
          · simp only [hb, if_true, hw, hfile, List.singleton_append]
          · simp only [hth]
          · rw [flush_iov cfg t false env.writev hne]
            simp only [Bool.false_eq_true, if_false, List.nil_append]
            split_ifs <;> simp

theorem serializer_create_complete (cfg : rvp_config) (env : rvp_env) (s : rvp_process)
    (p : Nat) (t : rvp_thread_t) (hl : s.registry.thread_head = [(p, t)])
    (hw : env.write sizeof_header = sizeof_header) (hfd : env.open_fd ≠ -1)
    (hv : ∀ iov, env.writev iov = iov_total iov) (hpc : env.rc_pthread_create = 0) :
    ∃ st, rvp_serializer_create cfg env s = some st := by
  simp only [rvp_serializer_create, trace_open_complete cfg env hw hfd, hfd, if_false, hl]
  by_cases hne : t.t_ring.r_consumer = t.t_ring.r_producer
  · rw [flush_iov_empty cfg t false env.writev hne]
    simp [hpc]
  · have h := flush_nonempty_eq cfg t false env.writev hne
    rw [if_pos (by rw [hv]; omega)] at h
    rw [h]
    simp [hpc]
theorem init_boot_eq (cfg : rvp_config) (env : rvp_env) (st : rvp_process)
    (e : rvp_init cfg env rvp_process_boot = some st) :
    ∃ s1, rvp_thread0_create cfg env { rvp_process_boot with pgsz := env.sysconf_pagesize } =
        some s1 ∧
      rvp_serializer_create cfg env s1 = some st := by
  simp only [rvp_init] at e
  have hp : rvp_process_boot.pgsz = 0 := rfl
  simp only [hp, if_true, true_and] at e
  by_cases h1 : env.sysconf_pagesize = -1
  · simp [h1] at e
  · by_cases h2 : env.rc_key_create ≠ 0
    · simp [h1, h2] at e
    · by_cases h3 : env.rc_mutex_init ≠ 0
      · simp [h1, h2, h3] at e
      · by_cases h4 : env.rc_cond_init ≠ 0
        · simp [h1, h2, h3, h4] at e
        · simp only [h1, h2, h3, h4, if_false] at e
          cases h5 : rvp_thread0_create cfg env
              { rvp_process_boot with pgsz := env.sysconf_pagesize } with
          | none => rw [h5] at e; simp at e
          | some s1 =>
            rw [h5] at e
            exact ⟨s1, rfl, e⟩

/-- C18: when `rvp_init` completes, the trace file holds exactly the fixed
header (magic "RVP_", version 0, byte-order word `0x33323130`, the pointer
width, data width 4) followed by the BEGIN event of thread 1 (the deltop for
`(0, RVP_OP_BEGIN)`, the thread id 1, the anchoring PC) with nothing before
it, and the ring of thread 1, the only record of the registry, is empty.
`rvp_init` does complete when every call succeeds, the writes are complete
and a page holds the BEGIN event and one more word. -/
theorem rvp_init_trace_file (cfg : rvp_config) (env : rvp_env) :
    (∀ st, rvp_init cfg env rvp_process_boot = some st →
      st.file =
        [.header (header cfg), .words (rvp_begin_words cfg 1 env.return_address)] ∧
      rvp_begin_words cfg 1 env.return_address =
        addr_words cfg (rvp_vec_and_op_to_deltop cfg 0 cfg.RVP_OP_BEGIN) ++ [1] ++
          addr_words cfg env.return_address ∧
      ∃ p t, st.registry.thread_head = [(p, t)] ∧ t.t_id = 1 ∧
        rvp_ring_nfull t.t_ring = 0 ∧ t.t_ring.r_consumer = t.t_ring.r_producer) ∧
    ((header cfg).th_magic = ['R', 'V', 'P', '_'] ∧ (header cfg).th_version = 0 ∧
      (header cfg).th_byteorder = 0x33323130 ∧
      (header cfg).th_pointer_width = cfg.ptr_bits / 8 ∧ (header cfg).th_data_width = 4) ∧
    (config_ok cfg → 2 ≤ cfg.RVP_NJMPS → cfg.RVP_OP_BEGIN < cfg.RVP_NOPS →
      rvp_deltop_to_vec_and_op cfg (rvp_vec_and_op_to_deltop cfg 0 cfg.RVP_OP_BEGIN) =
        some (0, cfg.RVP_OP_BEGIN)) ∧
    (((2 * (cfg.ptr_bits / 32) + 2 : Nat) : Int) * 4 ≤ env.sysconf_pagesize →
      env.rc_key_create = 0 → env.rc_mutex_init = 0 → env.rc_cond_init = 0 →
      env.rc_setspecific = 0 → env.rc_pthread_create = 0 →
      env.calloc_items = true → env.calloc_thread ≠ NULL → env.open_fd ≠ -1 →
      env.write sizeof_header = sizeof_header → (∀ iov, env.writev iov = iov_total iov) →
      ∃ st, rvp_init cfg env rvp_process_boot = some st) := by
  refine ⟨?_, ⟨rfl, rfl, by simp only [header]; decide, rfl, rfl⟩, ?_, ?_⟩
  · intro st e
    obtain ⟨s1, e1, e2⟩ := init_boot_eq cfg env st e
    obtain ⟨r, hb, hs1⟩ := thread0_create_boot cfg env _ s1 rfl e1
    obtain ⟨hok, hun, hne⟩ := put_begin_on_init cfg _ 1 env.return_address r hb
    obtain ⟨hfile, hhead, _⟩ := serializer_create_file cfg env s1 st env.calloc_thread
      { t_pthread := env.pthread_self, t_id := 1, t_ring := r } (by rw [hs1]) hok hne e2
    refine ⟨by rw [hfile, hun], rfl, _, _, hhead, rfl, ?_, rfl⟩
    simp [rvp_ring_nfull]
  · intro hc hn ho
    exact (deltop_decode_in_range cfg hc 0 cfg.RVP_OP_BEGIN (by omega) (by omega) ho).2.2.2
  · intro hpg h1 h2 h3 h4 h5 hi ht hfd hw hv
    obtain ⟨r, hb⟩ := put_begin_on_init_room cfg (env.sysconf_pagesize / 4) 1
      env.return_address (by omega)
    have e1 := thread0_create_complete cfg env
      { rvp_process_boot with pgsz := env.sysconf_pagesize } r rfl hi ht h4 hb
    obtain ⟨st, e2⟩ := serializer_create_complete cfg env
      { { rvp_process_boot with pgsz := env.sysconf_pagesize } with
        curthr := env.calloc_thread
        registry :=
          { thread_head :=
              [(env.calloc_thread,
                { t_pthread := env.pthread_self, t_id := 1, t_ring := r })],
            next_id := 1 } } env.calloc_thread
      { t_pthread := env.pthread_self, t_id := 1, t_ring := r } rfl hw hfd hv h5
    refine ⟨st, ?_⟩
    have hp : rvp_process_boot.pgsz = 0 := rfl
    have hneg : ¬ (env.sysconf_pagesize = -1) := by omega
    simp only [rvp_init, hp, if_true, true_and, hneg, h1, h2, h3, ne_eq, not_true_eq_false,
      if_false, e1]
    exact e2

/-- C18, at the 32-bit sample build with pages of 4096 bytes, every call
succeeding. -/
theorem rvp_init_trace_file_witness :
    ∃ st, rvp_init config32 env_ok rvp_process_boot = some st ∧
      st.file = [.header (header config32), .words [8192, 1, 0x400000]] :=
  let ⟨st, e⟩ := (rvp_init_trace_file config32 env_ok).2.2.2 (by decide) rfl rfl rfl rfl rfl rfl
    (by decide) (by decide) rfl (fun _ => rfl)
  ⟨st, e, ((rvp_init_trace_file config32 env_ok).1 st e).1⟩
/-- What the generation test of `rvp_ring_put_multiple` does for a write that
does not wrap: with a positive threshold `T`, if a multiple of `T` lies in
`(p, p + n]` then `rvp_ggen` is increased. -/
theorem put_multiple_ggen_no_wrap (log2 ggen : Nat) (r : rvp_ring_t) (item : Nat → Nat)
    (n k : Int) (h : ring_inside r) (h0 : 0 ≤ n) (h1 : n ≤ rvp_ring_nempty r)
    (hslots : 1 ≤ r.r_last) (hnw : r.r_producer + n ≤ r.r_last)
    (hT : 0 < (r.r_last + 1) >>> ((1 + log2) % 2 ^ 32))
    (hk0 : r.r_producer < k * ((r.r_last + 1) >>> ((1 + log2) % 2 ^ 32)))
    (hk1 : k * ((r.r_last + 1) >>> ((1 + log2) % 2 ^ 32)) ≤ r.r_producer + n) :
    ∃ res, rvp_ring_put_multiple log2 ggen r item n = .done res ∧
      res.ggen = rvp_increase_ggen ggen := by
  refine ⟨_, put_multiple_done log2 ggen r item n h0 h1 hslots, ?_⟩
  obtain ⟨hp0, hp1, _, _⟩ := h
  have hprod : (rvp_ring_put_multiple_commit r item n).r_producer = r.r_producer + n := by
    rw [(commit_fields r item n).2.2.2, if_pos hnw]
  simp only [hprod, rvp_increase_ggen]
  generalize (r.r_last + 1) >>> ((1 + log2) % 2 ^ 32) = T at hT hk0 hk1 ⊢
  have ha : Int.tdiv r.r_producer T < k := by
    rw [Int.tdiv_eq_ediv hp0 (by omega)]
    exact (Int.ediv_lt_iff_lt_mul hT).2 hk0
  have hb : k ≤ Int.tdiv (r.r_producer + n) T := by
    rw [Int.tdiv_eq_ediv (by omega) (by omega)]
    exact (Int.le_ediv_iff_mul_le hT).2 hk1
  rw [if_pos (Or.inr (by omega))]
theorem last_deltop_offset (N P E : Nat) (hN : 0 < N) (hP : 0 < P) :
    ((N - 1) * P + (P - 1)) * E + E = N * P * E := by
  have e1 : (N - 1) * P + (P - 1) + 1 = N * P := by
    have : (N - 1) * P + P = N * P := by
      rw [← Nat.succ_mul]; congr 1; omega
    omega
  rw [← e1]; ring

theorem emod_neg_wrap (x S : Int) (h : -S ≤ x) (h2 : x < 0) : x % S = x + S := by
  rw [← Int.add_emod_self]
  exact Int.emod_eq_of_lt (by omega) (by omega)

theorem deltop_null_of_outside (cfg : rvp_config) (h : config_ok cfg)
    (hroom : (cfg.RVP_NJMPS + 2 ^ 31) * cfg.RVP_NOPS * cfg.deltop_size ≤ 2 ^ cfg.ptr_bits)
    (jmpvec : Int) (op : Nat) (hlo : -(2 : Int) ^ 31 ≤ jmpvec) (hhi : jmpvec < 2 ^ 31)
    (hop : op < cfg.RVP_NOPS)
    (hout : jmpvec < -((cfg.RVP_NJMPS / 2 : Nat) : Int) ∨
      ((cfg.RVP_NJMPS - cfg.RVP_NJMPS / 2 : Nat) : Int) ≤ jmpvec) :
    rvp_vec_and_op_to_deltop cfg jmpvec op = NULL := by
  obtain ⟨hb, he, hnj, hno, hfit⟩ := h
  have hlast := last_deltop_offset cfg.RVP_NJMPS cfg.RVP_NOPS cfg.deltop_size hnj hno
  simp only [rvp_vec_and_op_to_deltop]
  generalize hL : ((cfg.RVP_NJMPS - 1) * cfg.RVP_NOPS + (cfg.RVP_NOPS - 1)) * cfg.deltop_size = L
    at hlast
  generalize hrow : ((cfg.RVP_NJMPS / 2 : Nat) : Int) + jmpvec = row
  generalize hM : 2 ^ cfg.ptr_bits = M at hroom hfit
  -- the stride of a row and the size of the table, as integers
  have hK : (0 : Int) < (cfg.RVP_NOPS : Int) * cfg.deltop_size :=
    Int.mul_pos (by omega) (by omega)
  generalize hKdef : (cfg.RVP_NOPS : Int) * cfg.deltop_size = K at hK
  have hX : (row * (cfg.RVP_NOPS : Int) + (op : Int)) * (cfg.deltop_size : Int) =
      row * K + (op : Int) * cfg.deltop_size := by rw [← hKdef]; ring
  have hc0 : (0 : Int) ≤ (op : Int) * cfg.deltop_size :=
    Int.mul_nonneg (by omega) (by omega)
  have hc1 : (op : Int) * cfg.deltop_size + cfg.deltop_size ≤ K := by
    rw [← hKdef]
    have : ((op : Int) + 1) * cfg.deltop_size ≤ (cfg.RVP_NOPS : Int) * cfg.deltop_size :=
      Int.mul_le_mul_of_nonneg_right (by omega) (by omega)
    linarith
  generalize (op : Int) * cfg.deltop_size = c at hX hc0 hc1
  have hNK : ((cfg.RVP_NJMPS * cfg.RVP_NOPS * cfg.deltop_size : Nat) : Int) =
      (cfg.RVP_NJMPS : Int) * K := by rw [← hKdef]; push_cast; ring
  have hroomI : (cfg.RVP_NJMPS : Int) * K + 2 ^ 31 * K ≤ (M : Int) := by
    have : (((cfg.RVP_NJMPS + 2 ^ 31) * cfg.RVP_NOPS * cfg.deltop_size : Nat) : Int) ≤ M := by
      exact_mod_cast hroom
    rw [← hKdef]; push_cast at this; linarith
  have hlastI : (L : Int) + cfg.deltop_size = (cfg.RVP_NJMPS : Int) * K := by
    rw [← hNK]; exact_mod_cast hlast
  rw [hX]
  have hhalf : ((cfg.RVP_NJMPS / 2 : Nat) : Int) ≤ cfg.RVP_NJMPS := by omega
  rcases hout with hneg | hpos
  · -- rows before the table: the address is below the table, or wraps above it
    have hr1 : row ≤ -1 := by omega
    have hr0 : -(2 : Int) ^ 31 ≤ row := by omega
    have ha1 : row * K ≤ -K := by
      have := Int.mul_le_mul_of_nonneg_right hr1 (Int.le_of_lt hK)
      omega
    have ha0 : -(2 ^ 31 * K) ≤ row * K := by
      have := Int.mul_le_mul_of_nonneg_right hr0 (Int.le_of_lt hK)
      rw [Int.neg_mul] at this
      exact this
    generalize row * K = a at ha0 ha1
    by_cases hv : 0 ≤ (cfg.deltops : Int) + (a + c)
    · rw [Int.emod_eq_of_lt hv (by omega)]
      rw [if_pos (by omega)]
    · rw [emod_neg_wrap _ _ (by omega) (by omega)]
      rw [if_pos (by omega)]
  · -- rows after the table: the address is above the table, or wraps below it
    have hr0 : (cfg.RVP_NJMPS : Int) ≤ row := by omega
    have hr1 : row ≤ (cfg.RVP_NJMPS : Int) + 2 ^ 31 - 1 := by omega
    have ha0 : (cfg.RVP_NJMPS : Int) * K ≤ row * K :=
      Int.mul_le_mul_of_nonneg_right hr0 (Int.le_of_lt hK)
    have ha1 : row * K ≤ (cfg.RVP_NJMPS : Int) * K + 2 ^ 31 * K - K := by
      have := Int.mul_le_mul_of_nonneg_right hr1 (Int.le_of_lt hK)
      have e : ((cfg.RVP_NJMPS : Int) + 2 ^ 31 - 1) * K =
          (cfg.RVP_NJMPS : Int) * K + 2 ^ 31 * K - K := by ring
      rw [e] at this
      exact this
    generalize row * K = a at ha0 ha1
    by_cases hv : (cfg.deltops : Int) + (a + c) < M
    · rw [Int.emod_eq_of_lt (by omega) hv]
      rw [if_pos (by omega)]
    · rw [emod_wrap _ _ (by omega) (by omega)]
      rw [if_pos (by omega)]

theorem deltop_not_null_of_inside (cfg : rvp_config) (h : config_ok cfg) (jmpvec : Int)
    (op : Nat) (hj0 : -((cfg.RVP_NJMPS / 2 : Nat) : Int) ≤ jmpvec)
    (hj1 : jmpvec < ((cfg.RVP_NJMPS - cfg.RVP_NJMPS / 2 : Nat) : Int))
    (hop : op < cfg.RVP_NOPS) :
    rvp_vec_and_op_to_deltop cfg jmpvec op ≠ NULL := by
  obtain ⟨hb, he, hnj, hno, hfit⟩ := h
  generalize hrow : (((cfg.RVP_NJMPS / 2 : Nat) : Int) + jmpvec).toNat = row
  have hrowI : ((cfg.RVP_NJMPS / 2 : Nat) : Int) + jmpvec = (row : Int) := by omega
  have hrowlt : row < cfg.RVP_NJMPS := by omega
  have hidx : row * cfg.RVP_NOPS + op ≤ (cfg.RVP_NJMPS - 1) * cfg.RVP_NOPS + (cfg.RVP_NOPS - 1) := by
    have : row * cfg.RVP_NOPS ≤ (cfg.RVP_NJMPS - 1) * cfg.RVP_NOPS :=
      Nat.mul_le_mul_right _ (by omega)
    omega
  have hidx2 : (row * cfg.RVP_NOPS + op) * cfg.deltop_size ≤
      ((cfg.RVP_NJMPS - 1) * cfg.RVP_NOPS + (cfg.RVP_NOPS - 1)) * cfg.deltop_size :=
    Nat.mul_le_mul_right _ hidx
  have hlast := last_deltop_offset cfg.RVP_NJMPS cfg.RVP_NOPS cfg.deltop_size hnj hno
  simp only [rvp_vec_and_op_to_deltop, hrowI, NULL]
  have hcast : ((cfg.deltops : Int) + ((row : Int) * (cfg.RVP_NOPS : Int) + (op : Int)) *
      (cfg.deltop_size : Int)) =
      ((cfg.deltops + (row * cfg.RVP_NOPS + op) * cfg.deltop_size : Nat) : Int) := by
    push_cast; ring
  rw [hcast, ← Int.natCast_mod, Int.toNat_ofNat, Nat.mod_eq_of_lt (by omega)]
  rw [if_neg (by omega)]
  omega

/-- Where the address arithmetic cannot wrap into the table, that is where
`(RVP_NJMPS + 2 ^ 31)` rows fit the address space (64-bit builds), the
result of `rvp_vec_and_op_to_deltop` for an `int` jump vector and a valid
opcode is null exactly for the jump vectors that select no row of the table:
those outside `[-RVP_NJMPS/2, RVP_NJMPS - RVP_NJMPS/2)`, which for an even
`RVP_NJMPS` is `[-RVP_NJMPS/2, RVP_NJMPS/2)`. -/
theorem deltop_null_iff (cfg : rvp_config) (h : config_ok cfg)
    (hroom : (cfg.RVP_NJMPS + 2 ^ 31) * cfg.RVP_NOPS * cfg.deltop_size ≤ 2 ^ cfg.ptr_bits)
    (jmpvec : Int) (op : Nat) (hlo : -(2 : Int) ^ 31 ≤ jmpvec) (hhi : jmpvec < 2 ^ 31)
    (hop : op < cfg.RVP_NOPS) :
    rvp_vec_and_op_to_deltop cfg jmpvec op = NULL ↔
      (jmpvec < -((cfg.RVP_NJMPS / 2 : Nat) : Int) ∨
        ((cfg.RVP_NJMPS - cfg.RVP_NJMPS / 2 : Nat) : Int) ≤ jmpvec) := by
  constructor
  · intro e
    by_contra hin
    exact deltop_not_null_of_inside cfg h jmpvec op (by omega) (by omega) hop e
  · exact deltop_null_of_outside cfg h hroom jmpvec op hlo hhi hop

theorem deltop_null_iff_config64 (jmpvec : Int) (op : Nat) (hlo : -(2 : Int) ^ 31 ≤ jmpvec)
    (hhi : jmpvec < 2 ^ 31) (hop : op < 32) :
    rvp_vec_and_op_to_deltop config64 jmpvec op = NULL ↔ (jmpvec < -128 ∨ 128 ≤ jmpvec) :=
  deltop_null_iff config64 (by decide) (by decide) jmpvec op hlo hhi hop

/-- C21 fails.  On a 32-bit build (a table of 256 rows of 32 one-byte deltops
at `0x1000`) the jump vector `2 ^ 27` is an `int` outside `[-128, 128)`, yet
`rvp_vec_and_op_to_deltop (2 ^ 27, 5)` is not null: row `128 + 2 ^ 27` lies
`2 ^ 32 + 4096` bytes after the table base, the 32-bit address arithmetic
wraps, and the result is the deltop of `(0, 5)`.  So `rvp_ring_put_pc_and_op`
with `pc = r_lastpc + 2 ^ 27` appends that deltop alone and no literal PC,
and the words replay to the old PC.  On a 64-bit build the fallback is
missed for the delta `2 ^ 32 + 4`, whose conversion to `int` is 4. -/
theorem rvp_vec_and_op_to_deltop_wraps_into_table :
    config_ok config32 ∧ 5 < config32.RVP_NOPS ∧
    (-(2 : Int) ^ 31 ≤ 2 ^ 27 ∧ (2 : Int) ^ 27 < 2 ^ 31) ∧
    ¬ ((2 : Int) ^ 27 < ((config32.RVP_NJMPS / 2 : Nat) : Int)) ∧
    rvp_vec_and_op_to_deltop config32 (2 ^ 27) 5 ≠ NULL ∧
    rvp_vec_and_op_to_deltop config32 (2 ^ 27) 5 = rvp_vec_and_op_to_deltop config32 0 5 ∧
    rvp_jmpvec config32 (0x400000 + 2 ^ 27) 0x400000 = 2 ^ 27 ∧
    (∃ r, rvp_ring_put_pc_and_op config32 (ring_idle 8 0x400000) (0x400000 + 2 ^ 27) 5 =
        .done r ∧
      ring_unread r = addr_words config32 (rvp_vec_and_op_to_deltop config32 0 5) ∧
      ring_unread r ≠ addr_words config32 (0x400000 + 2 ^ 27) ++
        addr_words config32 (rvp_vec_and_op_to_deltop config32 0 5) ∧
      rvp_replay config32 0x400000 (ptr_stream 1 1 (ring_unread r)) = [(0x400000, 5)]) ∧
    config_ok config64 ∧
    ¬ ((0x100400004 : Int) - 0x400000 < ((config64.RVP_NJMPS / 2 : Nat) : Int)) ∧
    (∃ r, rvp_ring_put_pc_and_op config64 (ring_idle 8 0x400000) 0x100400004 5 = .done r ∧
      ring_unread r ≠ addr_words config64 0x100400004 ++
        addr_words config64 (rvp_vec_and_op_to_deltop config64 0 5)) :=
  ⟨by decide, by decide, by decide, by decide, by decide, by decide, by decide,
    ⟨_, rfl, by decide, by decide, by decide⟩, by decide, by decide, ⟨_, rfl, by decide⟩⟩

theorem iring_next_step (r : rvp_ring_t) (h : iring_inside r.r_iring) (i : Int) (h0 : 0 ≤ i)
    (h1 : i < rvp_iring_nfull r.r_iring) :
    rvp_ring_next_interruption r ((r.r_iring.ir_consumer + i) % 8) =
      if i + 1 = rvp_iring_nfull r.r_iring then none
      else some ((r.r_iring.ir_consumer + (i + 1)) % 8) := by
  obtain ⟨hp0, hp1, hc0, hc1⟩ := h
  simp only [rvp_iring_nfull] at h1 ⊢
  simp only [rvp_ring_next_interruption, rvp_iring_last]
  split_ifs <;> first | rfl | omega | (congr 1; omega)

theorem iring_visit_from (r : rvp_ring_t) (h : iring_inside r.r_iring) :
    ∀ (n : Nat) (i : Int) (fuel : Nat), 0 ≤ i → i + n = rvp_iring_nfull r.r_iring →
      0 < n → n ≤ fuel →
      rvp_iring_visit r fuel (some ((r.r_iring.ir_consumer + i) % 8)) =
        (List.range n).map (fun (j : Nat) => (r.r_iring.ir_consumer + (i + j)) % 8) := by
  intro n
  induction n with
  | zero => intro i fuel _ _ hn; omega
  | succ m ih =>
    intro i fuel h0 hk _ hf
    obtain ⟨f, rfl⟩ : ∃ f, fuel = f + 1 := ⟨fuel - 1, by omega⟩
    rw [rvp_iring_visit, iring_next_step r h i h0 (by omega)]
    rw [List.range_succ_eq_map, List.map_cons, List.map_map]
    by_cases hm : m = 0
    · subst hm
      rw [if_pos (by omega)]
      cases f <;> simp [rvp_iring_visit]
    · rw [if_neg (by omega), ih (i + 1) f (by omega) (by omega) (by omega) (by omega)]
      simp only [Nat.cast_zero, Int.add_zero, List.cons.injEq, true_and]
      apply List.map_congr_left
      intro j _
      simp only [Function.comp, Nat.succ_eq_add_one, Nat.cast_add, Nat.cast_one]
      congr 1; omega

/-- C22: draining the interruptions ring.  For a ring whose producer and
consumer are slot indices in `0 .. 7`, with `k = rvp_iring_nfull` records:
`rvp_ring_first_interruption` is `NULL` exactly when `k = 0` and is the
consumer slot otherwise; `rvp_ring_next_interruption` of the slot
`consumer + i (mod 8)` is the slot `consumer + i + 1 (mod 8)` for
`i + 1 < k` and is `NULL` for `i + 1 = k`, so the loop from the first record
visits the `k` slots `consumer, ..., consumer + k - 1 (mod 8)` in that order
and stops on `NULL` before its eighth step; and on a non-empty ring
`rvp_ring_drop_interruption` returns, changes only `ir_consumer`, lowers
`rvp_iring_nfull` by one, and makes `rvp_ring_first_interruption` return
what `rvp_ring_next_interruption` of the old first record returned. -/
theorem rvp_iring_drain_fifo (r : rvp_ring_t) (h : iring_inside r.r_iring) :
    (rvp_ring_first_interruption r = none ↔ rvp_iring_nfull r.r_iring = 0) ∧
    (rvp_iring_nfull r.r_iring ≠ 0 →
      rvp_ring_first_interruption r = some r.r_iring.ir_consumer) ∧
    (∀ i : Int, 0 ≤ i → i + 1 < rvp_iring_nfull r.r_iring →
      rvp_ring_next_interruption r ((r.r_iring.ir_consumer + i) % 8) =
        some ((r.r_iring.ir_consumer + (i + 1)) % 8)) ∧
    (0 < rvp_iring_nfull r.r_iring →
      rvp_ring_next_interruption r
        ((r.r_iring.ir_consumer + (rvp_iring_nfull r.r_iring - 1)) % 8) = none) ∧
    rvp_iring_visit r 8 (rvp_ring_first_interruption r) =
      (List.range (rvp_iring_nfull r.r_iring).toNat).map
        (fun (j : Nat) => (r.r_iring.ir_consumer + j) % 8) ∧
    ((rvp_iring_visit r 8 (rvp_ring_first_interruption r)).length < 8) ∧
    (rvp_iring_nfull r.r_iring ≠ 0 →
      ∃ r1, rvp_ring_drop_interruption r = .done r1 ∧
        r1 = { r with r_iring := { r.r_iring with ir_consumer := r1.r_iring.ir_consumer } } ∧
        iring_inside r1.r_iring ∧
        rvp_iring_nfull r1.r_iring = rvp_iring_nfull r.r_iring - 1 ∧
        rvp_ring_first_interruption r1 =
          rvp_ring_next_interruption r r.r_iring.ir_consumer) := by
  have hin := h
  obtain ⟨hp0, hp1, hc0, hc1⟩ := h
  have hk : 0 ≤ rvp_iring_nfull r.r_iring ∧ rvp_iring_nfull r.r_iring ≤ 7 ∧
      (rvp_iring_nfull r.r_iring = 0 ↔ r.r_iring.ir_producer = r.r_iring.ir_consumer) := by
    simp only [rvp_iring_nfull]
    split_ifs <;> omega
  have hvisit : rvp_iring_visit r 8 (rvp_ring_first_interruption r) =
      (List.range (rvp_iring_nfull r.r_iring).toNat).map
        (fun (j : Nat) => (r.r_iring.ir_consumer + j) % 8) := by
    by_cases h0 : rvp_iring_nfull r.r_iring = 0
    · have e : r.r_iring.ir_consumer = r.r_iring.ir_producer := (hk.2.2.1 h0).symm
      simp only [rvp_ring_first_interruption, e, if_true, h0]
      rfl
    · have e : ¬ r.r_iring.ir_consumer = r.r_iring.ir_producer := fun e => h0 (hk.2.2.2 e.symm)
      simp only [rvp_ring_first_interruption, e, if_false]
      have hc : r.r_iring.ir_consumer = (r.r_iring.ir_consumer + 0) % 8 := by omega
      have := iring_visit_from r hin (rvp_iring_nfull r.r_iring).toNat 0 8 (by omega)
        (by omega) (by omega) (by omega)
      rw [← hc] at this
      rw [this]
      apply List.map_congr_left
      intro j _
      congr 1; omega
  refine ⟨?_, ?_, ?_, ?_, hvisit, ?_, ?_⟩
  · rw [hk.2.2]
    simp only [rvp_ring_first_interruption]
    split_ifs with e
    · exact ⟨fun _ => e.symm, fun _ => rfl⟩
    · exact ⟨fun x => (by cases x), fun x => absurd x.symm e⟩
  · intro h0
    have e : ¬ r.r_iring.ir_consumer = r.r_iring.ir_producer := fun e => h0 (hk.2.2.2 e.symm)
    simp only [rvp_ring_first_interruption, e, if_false]
  · intro i hi0 hi1
    rw [iring_next_step r hin i hi0 (by omega), if_neg (by omega)]
  · intro hpos
    rw [iring_next_step r hin _ (by omega) (by omega), if_pos (by omega)]
  · rw [hvisit, List.length_map, List.length_range]
    omega
  · intro h0
    have e : ¬ r.r_iring.ir_consumer = r.r_iring.ir_producer := fun e => h0 (hk.2.2.2 e.symm)
    have hd : rvp_ring_drop_interruption r =
        .done { r with r_iring := { r.r_iring with
          ir_consumer := if r.r_iring.ir_consumer = rvp_iring_last r.r_iring then 0
            else r.r_iring.ir_consumer + 1 } } := by
      simp only [rvp_ring_drop_interruption, e, if_false]
    refine ⟨_, hd, rfl, ?_, ?_, ?_⟩
    · simp only [iring_inside, rvp_iring_last]
      split_ifs <;> omega
    · simp only [rvp_iring_nfull, rvp_iring_last]
      split_ifs <;> omega
    · simp only [rvp_ring_first_interruption, rvp_ring_next_interruption, rvp_iring_last]

/-- C22, at the interruptions ring with the producer on slot 2 and the
consumer on slot 6: the drain visits slots 6, 7, 0, 1. -/
theorem rvp_iring_drain_fifo_witness :
    iring_inside ring_interrupted.r_iring ∧
    rvp_iring_nfull ring_interrupted.r_iring = 4 ∧
    rvp_iring_visit ring_interrupted 8 (rvp_ring_first_interruption ring_interrupted) =
      [6, 7, 0, 1] ∧
    rvp_iring_visit ring_interrupted 8 (rvp_ring_first_interruption ring_interrupted) =
      (List.range (rvp_iring_nfull ring_interrupted.r_iring).toNat).map
        (fun (j : Nat) => (ring_interrupted.r_iring.ir_consumer + j) % 8) :=
  ⟨by decide, by decide, by decide,
   (rvp_iring_drain_fifo ring_interrupted (by decide)).2.2.2.2.1⟩
theorem detach_walk_absent (tgt : Nat) (l : List (Nat × rvp_thread_t))
    (h : tgt ∉ l.map Prod.fst) : rvp_thread_detach_walk tgt l = (l, ENOENT) := by
  induction l with
  | nil => rfl
  | cons x rest ih =>
    simp only [List.map_cons, List.mem_cons, not_or] at h
    have hx : ¬ x.1 = tgt := fun e => h.1 e.symm
    simp only [rvp_thread_detach_walk, if_neg hx, ih h.2]

theorem detach_walk_present (tgt : Nat) (l : List (Nat × rvp_thread_t))
    (h : tgt ∈ l.map Prod.fst) :
    ∃ l1 x l2, l = l1 ++ x :: l2 ∧ x.1 = tgt ∧ tgt ∉ l1.map Prod.fst ∧
      rvp_thread_detach_walk tgt l = (l1 ++ l2, 0) := by
  induction l with
  | nil => simp at h
  | cons y rest ih =>
    by_cases hy : y.1 = tgt
    · exact ⟨[], y, rest, rfl, hy, by simp, by simp only [rvp_thread_detach_walk, if_pos hy]; rfl⟩
    · simp only [List.map_cons, List.mem_cons] at h
      rcases h with h | h
      · exact absurd h.symm hy
      · obtain ⟨l1, x, l2, e, hx, hn, hw⟩ := ih h
        refine ⟨y :: l1, x, l2, by rw [e]; rfl, hx, ?_, ?_⟩
        · simp only [List.map_cons, List.mem_cons, not_or]
          exact ⟨fun e => hy e.symm, hn⟩
        · simp only [rvp_thread_detach_walk, if_neg hy, hw]
          rfl

theorem detach_walk_filter (tgt : Nat) (l : List (Nat × rvp_thread_t))
    (h : (l.map Prod.fst).Nodup) :
    (rvp_thread_detach_walk tgt l).1 = l.filter (fun x => decide (x.1 ≠ tgt)) := by
  induction l with
  | nil => rfl
  | cons y rest ih =>
    simp only [List.map_cons, List.nodup_cons] at h
    by_cases hy : y.1 = tgt
    · simp only [rvp_thread_detach_walk, if_pos hy]
      rw [List.filter_cons_of_neg (by simp [hy])]
      have hn : tgt ∉ rest.map Prod.fst := by rw [← hy]; exact h.1
      symm
      rw [List.filter_eq_self]
      intro x hx
      have : x.1 ≠ tgt := fun e => hn (by rw [← e]; exact List.mem_map_of_mem _ hx)
      simp [this]
    · simp only [rvp_thread_detach_walk, if_neg hy]
      rw [List.filter_cons_of_pos (by simp [hy]), ih h.2]

/-- C23: the registry list.  A call of `rvp_thread_attach` that returns
(it leaves through `errx` exactly when the new id is 0) makes the list the
record, with its new id, followed by the old list.  `rvp_thread_detach`
never changes `next_id`; when a record with address `tgt` is in the list it
returns 0 and the list loses that record (the first one with that address;
with distinct addresses, all records with an address other than `tgt` are
kept, in their order); when none is in the list it returns `ENOENT` and the
registry is unchanged.  So detaching the record just attached gives back the
previous list. -/
theorem rvp_registry_list_ops (s : rvp_registry) (p tgt : Nat) (t : rvp_thread_t) :
    ((rvp_thread_attach s p t).rc ≠ none ↔ (s.next_id + 1) % 2 ^ 32 ≠ 0) ∧
    ((rvp_thread_attach s p t).rc ≠ none →
      (rvp_thread_attach s p t).rc = some 0 ∧
      (rvp_thread_attach s p t).thread = { t with t_id := (s.next_id + 1) % 2 ^ 32 } ∧
      (rvp_thread_attach s p t).registry.thread_head =
        (p, (rvp_thread_attach s p t).thread) :: s.thread_head) ∧
    (rvp_thread_detach s tgt).1.next_id = s.next_id ∧
    (tgt ∈ s.thread_head.map Prod.fst →
      (rvp_thread_detach s tgt).2 = 0 ∧
      ∃ l1 x l2, s.thread_head = l1 ++ x :: l2 ∧ x.1 = tgt ∧ tgt ∉ l1.map Prod.fst ∧
        (rvp_thread_detach s tgt).1.thread_head = l1 ++ l2) ∧
    ((s.thread_head.map Prod.fst).Nodup →
      (rvp_thread_detach s tgt).1.thread_head =
        s.thread_head.filter (fun x => decide (x.1 ≠ tgt))) ∧
    (tgt ∉ s.thread_head.map Prod.fst → rvp_thread_detach s tgt = (s, ENOENT)) ∧
    ((rvp_thread_attach s p t).rc ≠ none →
      (rvp_thread_detach (rvp_thread_attach s p t).registry p).2 = 0 ∧
      (rvp_thread_detach (rvp_thread_attach s p t).registry p).1.thread_head =
        s.thread_head) := by
  refine ⟨?_, ?_, rfl, ?_, ?_, ?_, ?_⟩
  · rcases attach_cases s p t with ⟨h, e⟩ | ⟨h, e⟩
    · rw [e]; exact ⟨fun x => absurd rfl x, fun x => absurd h x⟩
    · rw [e]; exact ⟨fun _ => h, fun _ x => by cases x⟩
  · intro hrc
    rcases attach_cases s p t with ⟨h, e⟩ | ⟨h, e⟩
    · rw [e] at hrc; exact absurd rfl hrc
    · rw [e]; exact ⟨rfl, rfl, rfl⟩
  · intro hmem
    obtain ⟨l1, x, l2, e, hx, hn, hw⟩ := detach_walk_present tgt s.thread_head hmem
    simp only [rvp_thread_detach, hw]
    exact ⟨trivial, l1, x, l2, e, hx, hn, rfl⟩
  · intro hnd
    exact detach_walk_filter tgt s.thread_head hnd
  · intro hmem
    simp only [rvp_thread_detach, detach_walk_absent tgt s.thread_head hmem]
  · intro hrc
    rcases attach_cases s p t with ⟨h, e⟩ | ⟨h, e⟩
    · rw [e] at hrc; exact absurd rfl hrc
    · rw [e]
      simp only [rvp_thread_detach, rvp_thread_detach_walk, if_true]
      exact ⟨trivial, trivial⟩

/-- C23, at a registry with the records at addresses `0x7000` and `0x7100`:
detaching `0x7100` leaves the record at `0x7000`, and attaching a record at
`0x7200` and detaching it gives back the list. -/
theorem rvp_registry_list_ops_witness :
    (rvp_thread_detach
      { thread_head := [(0x7000, thread_at 2 (ring_idle 8 0)), (0x7100, thread_at 1 (ring_idle 8 0))],
        next_id := 2 } 0x7100).1.thread_head = [(0x7000, thread_at 2 (ring_idle 8 0))] ∧
    (rvp_thread_detach
      (rvp_thread_attach
        { thread_head :=
            [(0x7000, thread_at 2 (ring_idle 8 0)), (0x7100, thread_at 1 (ring_idle 8 0))],
          next_id := 2 } 0x7200 (thread_at 0 (ring_idle 8 0))).registry 0x7200).1.thread_head =
      [(0x7000, thread_at 2 (ring_idle 8 0)), (0x7100, thread_at 1 (ring_idle 8 0))] :=
  ⟨by decide,
   ((rvp_registry_list_ops
      { thread_head :=
          [(0x7000, thread_at 2 (ring_idle 8 0)), (0x7100, thread_at 1 (ring_idle 8 0))],
        next_id := 2 } 0x7200 0x7100 (thread_at 0 (ring_idle 8 0))).2.2.2.2.2.2 (by decide)).2⟩
theorem put_multiple_calls (log2 ggen : Nat) (r : rvp_ring_t) (item : Nat → Nat) (n : Int) :
    (∀ cs, rvp_ring_put_multiple log2 ggen r item n = .awaits cs →
      cs = [rvp_ring_request_service r]) ∧
    (∀ res, rvp_ring_put_multiple log2 ggen r item n = .done res →
      res.ring = rvp_ring_put_multiple_commit r item n ∧
      (res.calls = [] ∨ res.calls = [rvp_ring_request_service res.ring])) := by
  simp only [rvp_ring_put_multiple]
  by_cases hne : rvp_ring_nempty r < n
  · simp only [hne, if_true]
    exact ⟨fun cs e => (by injection e with e; exact e.symm), fun res e => (by cases e)⟩
  · simp only [hne, if_false]
    generalize (if n ≥ _ then some true else c_div_lt _ _ _) = inc
    generalize c_div_lt _ _ _ = svc
    cases inc with
    | none => exact ⟨fun cs e => (by cases e), fun res e => (by cases e)⟩
    | some i =>
      cases svc with
      | none => exact ⟨fun cs e => (by cases e), fun res e => (by cases e)⟩
      | some v =>
        refine ⟨fun cs e => (by cases e), fun res e => ?_⟩
        injection e with e
        subst e
        refine ⟨rfl, ?_⟩
        cases v
        · exact Or.inl rfl
        · exact Or.inr rfl

/-- C24: signal-safe service requests.  `rvp_ring_request_service` calls
`rvp_wake_transmitter`, the call that takes `thread_mutex`, exactly when
`r_idepth` is 0, and calls `rvp_wake_relay` exactly when `r_idepth > 0`.
So on a ring at interruption depth above 0 every wake-up call of
`rvp_ring_put_multiple` (the one before it waits for room, and the one after
the write, which leaves `r_idepth` as it was) and the one of
`rvp_iring_await_one_empty` is `rvp_wake_relay`: `rvp_wake_transmitter` is
not called. -/
theorem rvp_ring_request_service_signal_safe (log2 ggen : Nat) (r : rvp_ring_t)
    (item : Nat → Nat) (n : Int) :
    (rvp_ring_request_service r = .wake_transmitter ↔ r.r_idepth = 0) ∧
    (rvp_ring_request_service r = .wake_relay ↔ 0 < r.r_idepth) ∧
    (0 < r.r_idepth →
      (∀ cs, rvp_ring_put_multiple log2 ggen r item n = .awaits cs → cs = [.wake_relay]) ∧
      (∀ res, rvp_ring_put_multiple log2 ggen r item n = .done res →
        res.ring.r_idepth = r.r_idepth ∧
        (res.calls = [] ∨ res.calls = [.wake_relay]) ∧
        rvp_call.wake_transmitter ∉ res.calls) ∧
      (rvp_iring_await_one_empty r = .done [.wake_relay] ∨
        rvp_iring_await_one_empty r = .awaits [.wake_relay])) := by
  have hreq : ∀ q : rvp_ring_t, 0 < q.r_idepth → rvp_ring_request_service q = .wake_relay := by
    intro q hq
    simp only [rvp_ring_request_service]
    rw [if_neg (by omega)]
  refine ⟨?_, ?_, ?_⟩
  · simp only [rvp_ring_request_service]
    split_ifs with h
    · exact ⟨fun _ => h, fun _ => rfl⟩
    · exact ⟨fun x => (by cases x), fun x => absurd x h⟩
  · simp only [rvp_ring_request_service]
    split_ifs with h
    · exact ⟨fun x => (by cases x), fun x => (by omega)⟩
    · exact ⟨fun _ => (by omega), fun _ => rfl⟩
  · intro hd
    obtain ⟨ha, hdone⟩ := put_multiple_calls log2 ggen r item n
    refine ⟨?_, ?_, ?_⟩
    · intro cs e
      rw [ha cs e, hreq r hd]
    · intro res e
      obtain ⟨hring, hcalls⟩ := hdone res e
      have hdepth : res.ring.r_idepth = r.r_idepth := by rw [hring]; rfl
      have hcalls2 : res.calls = [] ∨ res.calls = [.wake_relay] := by
        rcases hcalls with hc | hc
        · exact Or.inl hc
        · rw [hreq res.ring (by omega)] at hc; exact Or.inr hc
      refine ⟨hdepth, hcalls2, ?_⟩
      rcases hcalls2 with hc | hc <;> rw [hc] <;> simp
    · simp only [rvp_iring_await_one_empty, rvp_iring_wait_for_one_empty, hreq r hd]
      split_ifs
      · exact Or.inr rfl
      · exact Or.inl rfl


/-- C24, at a ring of four slots at interruption depth 1: the write that
makes the ring half full requests service through `rvp_wake_relay`. -/
theorem rvp_ring_request_service_signal_safe_witness :
    0 < ring_in_signal.r_idepth ∧
    ∃ res, rvp_ring_put_multiple 0 0 ring_in_signal (fun i => 100 + i) 1 = .done res ∧
      res.calls = [.wake_relay] ∧
      rvp_call.wake_transmitter ∉ res.calls :=
  ⟨by decide, _, rfl, by decide,
   (((rvp_ring_request_service_signal_safe 0 0 ring_in_signal (fun i => 100 + i) 1).2.2
      (by decide)).2.1 _ rfl).2.2⟩
/-- C25: no division by zero in `rvp_ring_put_multiple`.  On a ring with at
least two slots, for every `rvp_log2_nthreads` (so for those with
`1 + rvp_log2_nthreads < 32`) and `nitems ≥ 0`, the call never stops on a
division by zero: it waits for room, or it returns.
`service_threshold = nslots / 2` is at least 1.  When
`ggen_threshold = nslots >> (1 + rvp_log2_nthreads)` is 0, the test
`nitems >= ggen_threshold` holds, so the decision to increase the generation
is taken without evaluating the two divisions by `ggen_threshold`, and every
call that writes increments `rvp_ggen`. -/
theorem rvp_ring_put_multiple_no_division_by_zero (log2 ggen : Nat) (r : rvp_ring_t)
    (item : Nat → Nat) (n : Int) (hslots : 1 ≤ r.r_last) (h0 : 0 ≤ n) :
    rvp_ring_put_multiple log2 ggen r item n ≠ .fault ∧
    (rvp_ring_nempty r < n →
      rvp_ring_put_multiple log2 ggen r item n = .awaits [rvp_ring_request_service r]) ∧
    (n ≤ rvp_ring_nempty r → ∃ res, rvp_ring_put_multiple log2 ggen r item n = .done res) ∧
    1 ≤ Int.tdiv (rvp_ring_capacity r + 1) 2 ∧
    ((rvp_ring_capacity r + 1) >>> ((1 + log2) % 2 ^ 32) = 0 →
      n ≥ (rvp_ring_capacity r + 1) >>> ((1 + log2) % 2 ^ 32) ∧
      (if n ≥ (rvp_ring_capacity r + 1) >>> ((1 + log2) % 2 ^ 32) then some true
        else c_div_lt (r.r_producer - 0) ((rvp_ring_put_multiple_commit r item n).r_producer - 0)
          ((rvp_ring_capacity r + 1) >>> ((1 + log2) % 2 ^ 32))) = some true ∧
      (n ≤ rvp_ring_nempty r →
        ∃ res, rvp_ring_put_multiple log2 ggen r item n = .done res ∧
          res.ggen = (ggen + 1) % 2 ^ 64)) := by
  have hst : 1 ≤ Int.tdiv (rvp_ring_capacity r + 1) 2 := by
    simp only [rvp_ring_capacity]
    rw [Int.tdiv_eq_ediv (by omega) (by omega)]
    omega
  have hawait : rvp_ring_nempty r < n →
      rvp_ring_put_multiple log2 ggen r item n = .awaits [rvp_ring_request_service r] := by
    intro hlt
    simp only [rvp_ring_put_multiple, hlt, if_true]
  refine ⟨?_, hawait, ?_, hst, ?_⟩
  · by_cases hne : rvp_ring_nempty r < n
    · rw [hawait hne]
      intro e; cases e
    · rw [put_multiple_done log2 ggen r item n h0 (by omega) hslots]
      intro e; cases e
  · intro h1
    exact ⟨_, put_multiple_done log2 ggen r item n h0 h1 hslots⟩
  · intro hT
    have hge : n ≥ (rvp_ring_capacity r + 1) >>> ((1 + log2) % 2 ^ 32) := by
      rw [hT]; exact h0
    refine ⟨hge, by rw [if_pos hge], ?_⟩
    intro h1
    refine ⟨_, put_multiple_done log2 ggen r item n h0 h1 hslots, ?_⟩
    simp only [rvp_ring_capacity, Int.sub_zero] at hge
    simp only []
    rw [if_pos (Or.inl hge)]

/-- C25, at a ring of four slots with `rvp_log2_nthreads = 2`:
`ggen_threshold = 4 >> 3 = 0`, and a write of one word returns with the
generation increased. -/
theorem rvp_ring_put_multiple_no_division_by_zero_witness :
    (1 : Int) ≤ (ring_at [10, 20, 30, 40] 1 0 1).r_last ∧ 1 + 2 < 32 ∧ (0 : Int) ≤ 1 ∧
    (rvp_ring_capacity (ring_at [10, 20, 30, 40] 1 0 1) + 1) >>> ((1 + 2) % 2 ^ 32) = 0 ∧
    rvp_ring_put_multiple 2 7 (ring_at [10, 20, 30, 40] 1 0 1) (fun i => 100 + i) 1 ≠ .fault ∧
    ∃ res, rvp_ring_put_multiple 2 7 (ring_at [10, 20, 30, 40] 1 0 1) (fun i => 100 + i) 1 =
        .done res ∧ res.ggen = 8 :=
  ⟨by decide, by decide, by decide, by decide,
   (rvp_ring_put_multiple_no_division_by_zero 2 7 (ring_at [10, 20, 30, 40] 1 0 1)
      (fun i => 100 + i) 1 (by decide) (by decide)).1,
   _, rfl, by decide⟩
theorem thread_create_ok (env : rvp_env) (s : rvp_process)
    (hi : env.calloc_items = true) (ht : env.calloc_thread ≠ NULL)
    (hid : s.registry.next_id + 1 < 2 ^ 32) :
    rvp_thread_create env s =
      some (env.calloc_thread,
        { s with registry :=
          { thread_head :=
              (env.calloc_thread,
                { t_pthread := 0, t_id := s.registry.next_id + 1,
                  t_ring := rvp_ring_init (List.replicate (s.pgsz / 4).toNat 0) (s.pgsz / 4) }) ::
                s.registry.thread_head,
            next_id := s.registry.next_id + 1 } }) := by
  simp only [rvp_thread_create, hi, ht, if_false, Bool.true_eq_false]
  rw [attach_next_id _ _ _ hid]

theorem thread_create_some (env : rvp_env) (s s1 : rvp_process) (p : Nat)
    (e : rvp_thread_create env s = some (p, s1)) (hp : p ≠ NULL) :
    ∃ t, s1 = { s with registry :=
        { thread_head := (p, t) :: s.registry.thread_head,
          next_id := (s.registry.next_id + 1) % 2 ^ 32 } } ∧
      t.t_id = (s.registry.next_id + 1) % 2 ^ 32 ∧ (s.registry.next_id + 1) % 2 ^ 32 ≠ 0 := by
  simp only [rvp_thread_create] at e
  by_cases hi : env.calloc_items = false
  · rw [if_pos hi] at e
    injection e with e
    injection e with e1 e2
    exact absurd e1.symm hp
  · rw [if_neg hi] at e
    by_cases ht : env.calloc_thread = NULL
    · rw [if_pos ht] at e
      injection e with e
      injection e with e1 e2
      exact absurd e1.symm hp
    · rw [if_neg ht] at e
      rcases attach_cases s.registry env.calloc_thread
        { t_pthread := 0, t_id := 0,
          t_ring := rvp_ring_init (List.replicate (s.pgsz / 4).toNat 0) (s.pgsz / 4) }
        with ⟨h, ea⟩ | ⟨h, ea⟩
      · rw [ea] at e
        cases e
      · rw [ea] at e
        injection e with e
        injection e with e1 e2
        subst e1
        exact ⟨_, e2.symm, rfl, h⟩

theorem thread_store_head (p q : Nat) (t t1 : rvp_thread_t) (rest : List (Nat × rvp_thread_t))
    (hl : ((q, t1) :: rest).lookup p = some t) (r : rvp_ring_t) :
    ∃ t3 rest3, thread_store p { t with t_ring := r } ((q, t1) :: rest) = (q, t3) :: rest3 ∧
      t3.t_id = t1.t_id ∧ t3.t_pthread = t1.t_pthread := by
  by_cases hq : q = p
  · subst hq
    simp only [List.lookup, beq_self_eq_true] at hl
    injection hl with hl
    subst hl
    exact ⟨{ t1 with t_ring := r }, rest, by simp only [thread_store, if_true], rfl, rfl⟩
  · exact ⟨t1, thread_store p { t with t_ring := r } rest,
      by simp only [thread_store, if_neg hq], rfl, rfl⟩

theorem trace_fork_head (cfg : rvp_config) (env : rvp_env) (s s3 : rvp_process) (id q : Nat)
    (t1 : rvp_thread_t) (rest : List (Nat × rvp_thread_t))
    (hs : s.registry.thread_head = (q, t1) :: rest)
    (e : rvp_trace_fork cfg env s id = some s3) :
    ∃ t3 rest3, s3.registry.thread_head = (q, t3) :: rest3 ∧ t3.t_id = t1.t_id ∧
      t3.t_pthread = t1.t_pthread ∧ s3.registry.next_id = s.registry.next_id := by
  simp only [rvp_trace_fork] at e
  cases hc : rvp_thread_for_curthr s with
  | none => simp only [hc] at e; cases e
  | some p =>
    simp only [hc] at e
    cases hl : s.registry.thread_head.lookup p with
    | none => simp only [hl] at e; cases e
    | some t =>
      simp only [hl] at e
      generalize (rvp_ring_put_pc_and_op cfg t.t_ring env.return_address cfg.RVP_OP_FORK).bind
        (fun r => rvp_ring_put r id) = res at e
      cases res with
      | done r =>
        simp only [] at e
        injection e with e
        subst e
        rw [hs] at hl
        obtain ⟨t3, rest3, e3, h1, h2⟩ := thread_store_head p q t t1 rest hl r
        refine ⟨t3, rest3, ?_, h1, h2, rfl⟩
        simp only [hs, e3]
      | awaits cs => cases e
      | fault => cases e

/-- C26: failure atomicity of `__rvpredict_pthread_create`.  In a process
where `rvp_init` has set `pgsz`, when the record and its ring are allocated,
the thread id does not overflow and the underlying `pthread_create` fails
with `rc ≠ 0`: the call returns `rc`, and the process afterwards is the
process before with `next_id` incremented and nothing else changed.  So the
registry list, with the rings of its records, is exactly as before (no FORK
event is in any ring, and the new record is gone), and the id `next_id + 1`
that the failed thread had is not given again: every call after it that
returns 0 puts a record at the head of the list whose id is `next_id + 2`,
two above the last id given before the failed call. -/
theorem rvpredict_pthread_create_failure_atomic (cfg : rvp_config) (env : rvp_env)
    (pthread : Nat) (s : rvp_process) (hpg : s.pgsz ≠ 0) (hi : env.calloc_items = true)
    (ht : env.calloc_thread ≠ NULL) (hid : s.registry.next_id + 1 < 2 ^ 32)
    (hrc : env.rc_pthread_create ≠ 0) :
    __rvpredict_pthread_create cfg env pthread s =
      some (env.rc_pthread_create,
        { s with registry := { s.registry with next_id := s.registry.next_id + 1 } }) ∧
    (∀ (env2 : rvp_env) (pthread2 : Nat) (s2 : rvp_process),
      __rvpredict_pthread_create cfg env2 pthread2
        { s with registry := { s.registry with next_id := s.registry.next_id + 1 } } =
          some (0, s2) →
      ∃ t rest, s2.registry.thread_head = (env2.calloc_thread, t) :: rest ∧
        t.t_id = s.registry.next_id + 2 ∧ t.t_pthread = pthread2 ∧
        s2.registry.next_id = s.registry.next_id + 2) := by
  constructor
  · simp only [__rvpredict_pthread_create, hpg, if_false, thread_create_ok env s hi ht hid, ht,
      hrc, rvp_thread_destroy, rvp_thread_detach, rvp_thread_detach_walk, if_true, ne_eq,
      not_true_eq_false]
  · intro env2 pthread2 s2 e
    simp only [__rvpredict_pthread_create] at e
    rw [if_neg hpg] at e
    cases hc : rvp_thread_create env2
        { s with registry := { s.registry with next_id := s.registry.next_id + 1 } } with
    | none => simp only [hc] at e; cases e
    | some ps =>
      obtain ⟨p, s1⟩ := ps
      simp only [hc] at e
      by_cases hp : p = NULL
      · rw [if_pos hp] at e
        injection e with e
        injection e with e1 e2
        exact absurd e1 (by decide)
      · rw [if_neg hp] at e
        obtain ⟨t, es1, htid, hne⟩ := thread_create_some env2 _ s1 p hc hp
        simp only [] at htid hne es1
        have hlt : s.registry.next_id + 1 + 1 < 2 ^ 32 := by
          by_contra hge
          have : s.registry.next_id + 1 + 1 = 2 ^ 32 := by omega
          rw [this] at hne
          exact hne (Nat.mod_self _)
        rw [Nat.mod_eq_of_lt hlt] at htid es1
        have hp2 : p = env2.calloc_thread := by
          simp only [rvp_thread_create] at hc
          split_ifs at hc
          · injection hc with hc; injection hc with h1 h2; exact absurd h1.symm hp
          · injection hc with hc; injection hc with h1 h2; exact absurd h1.symm hp
          · split at hc
            · cases hc
            · injection hc with hc; injection hc with h1 h2; exact h1.symm
        by_cases hrc2 : env2.rc_pthread_create = 0
        · rw [if_pos hrc2] at e
          subst es1
          simp only [] at e
          cases hf : rvp_trace_fork cfg env2
              { s with registry :=
                  { thread_head := (p, { t with t_pthread := pthread2 }) :: s.registry.thread_head,
                    next_id := s.registry.next_id + 1 + 1 } } t.t_id with
          | none => simp only [hf] at e; cases e
          | some s3 =>
            simp only [hf] at e
            injection e with e
            injection e with e1 e2
            subst e2
            obtain ⟨t3, rest3, h1, h2, h3, h4⟩ := trace_fork_head cfg env2 _ s3 t.t_id p
              { t with t_pthread := pthread2 } s.registry.thread_head rfl hf
            exact ⟨t3, rest3, by rw [h1, hp2], by rw [h2]; exact htid, h3, h4⟩
        · rw [if_neg hrc2] at e
          cases hd : rvp_thread_destroy s1 p with
          | none => simp only [hd] at e; cases e
          | some s4 =>
            simp only [hd] at e
            injection e with e
            injection e with e1 e2
            exact absurd e1 hrc2

set_option maxRecDepth 100000 in
/-- C26, at a process whose main thread has id 1: a create that fails with
`EAGAIN` returns 11 and leaves the one record and its empty ring, with
`next_id = 2`; the create after it succeeds, gives the new thread the id 3,
and puts the FORK event with that id on the ring of the main thread. -/
theorem rvpredict_pthread_create_failure_atomic_witness :
    process_one_thread.pgsz ≠ 0 ∧ env_create_fails.calloc_items = true ∧
    env_create_fails.calloc_thread ≠ NULL ∧
    process_one_thread.registry.next_id + 1 < 2 ^ 32 ∧
    env_create_fails.rc_pthread_create ≠ 0 ∧
    __rvpredict_pthread_create config64 env_create_fails 9 process_one_thread =
      some (11, { process_one_thread with
        registry := { process_one_thread.registry with next_id := 2 } }) ∧
    ∃ s2,
      __rvpredict_pthread_create config64 env_create_ok 9
        { process_one_thread with
          registry := { process_one_thread.registry with next_id := 2 } } = some (0, s2) ∧
      s2.registry.thread_head.map (fun x => (x.1, x.2.t_id, ring_unread x.2.t_ring)) =
        [(0x7100, 3, []),
         (0x7000, 1, addr_words config64
            (rvp_vec_and_op_to_deltop config64 0 config64.RVP_OP_FORK) ++ [3])] :=
  ⟨by decide, by decide, by decide, by decide, by decide,
   (rvpredict_pthread_create_failure_atomic config64 env_create_fails 9 process_one_thread
      (by decide) (by decide) (by decide) (by decide) (by decide)).1,
   _, rfl, by decide⟩

end RvPredict
